import Mathlib

/-!
# The loose quadtree of `libdocument/ev-mapping-tree.c`

A shallow embedding of the spatial index (`EvMappingTree`) and of the test
program `libdocument/tests/test_quadtree.c`.

Conventions of the embedding

* `gdouble` values are rationals: arithmetic is exact.
* `int` values are integers; the conversion `(int) d` of a double truncates
  toward zero (`to_int`), `/` on `int` is `Int.tdiv`, `1 << k` is `2 ^ k`.
  For rectangles inside the extents every intermediate value fits a 32-bit
  `int`, so no wrap-around is modelled on them.
* `gpointer` values are addresses (natural numbers), `NULL` is `0`.
* A `GHashTable` is a partial function on the *value* of its key
  (`cell_index` is created with `g_int64_hash` / `g_int64_equal`,
  `reverse_index` with `g_direct_hash` / `g_direct_equal`).  The lifetime of
  the memory that holds a key is not modelled.
* A `GList` is a list; `g_list_prepend` is `::`.  The node of a list is
  identified by the address of the pair it holds.
* `compare_item` reads memory through its second argument; the word it finds
  there is given by a function `item_field_at` on addresses, which the
  functions that call it take as a parameter.
* The result of `ev_mapping_tree_get` is the returned pointer; the message
  that `g_return_val_if_fail` logs is not part of it.
-/

namespace EvMappingTree

/-! ## Data model -/

/-- A `gpointer`: an address. -/
abbrev gpointer := Nat

/-- The null pointer. -/
def NULL : gpointer := 0

/-- The `EvRectangle` of `ev-document.h`: four `gdouble` fields. -/
structure EvRectangle where
  x1 : ℚ
  y1 : ℚ
  x2 : ℚ
  y2 : ℚ

/-- The `EvPoint` of `ev-document.h`. -/
structure EvPoint where
  x : ℚ
  y : ℚ

/-- The type `EvMappingTreeHitFunction`: `(item, x, y, data) -> gboolean`. -/
abbrev EvMappingTreeHitFunction := gpointer → ℚ → ℚ → gpointer → Bool

/-- The `struct ItemHitFunctionPair`.  `addr` is the address `g_malloc` returned
for the struct; the C field `link` (the node of `items` that holds the pair) is
determined by that address. -/
structure ItemHitFunctionPair where
  addr : gpointer
  hit_func : EvMappingTreeHitFunction
  item : gpointer
  data : gpointer

/-- The `struct _EvMappingTree`.  `destroyed` is the trace of the calls of
`data_destroy_func`, most recent first. -/
structure Tree where
  page : Nat
  ref_count : Int
  extents : EvRectangle
  cell_index : Int → Option (List ItemHitFunctionPair)
  items : List ItemHitFunctionPair
  depth_mask : List Bool
  reverse_index : gpointer → Option Int
  destroyed : List gpointer

/-- The constant `MAX_DEPTH`. -/
def MAX_DEPTH : Nat := 29

/-- The constant `SMALLEST_QT_UNIT`, `1.0 / (1<<28)`. -/
def SMALLEST_QT_UNIT : ℚ := 1 / 2 ^ 28

/-- The constant `EXPANSION`. -/
def EXPANSION : ℚ := 999 / 1000

/-- The conversion `(int) d` of a double: truncation toward zero.  The value
is taken in exact arithmetic and is not reduced to the range of `int`; the
conversion of the code is defined for `|d| < 2^31` only. -/
def to_int (d : ℚ) : Int := if 0 ≤ d then ⌊d⌋ else ⌈d⌉

/-- The value of a 64-bit two's complement word. -/
def int64_of (z : Int) : Int := (z + 2 ^ 63) % 2 ^ 64 - 2 ^ 63

/-- The function `make_cell_coordinates`.  `& 0xFF` and `& 0x1FFFFFFF` are the
remainders modulo `2^8` and `2^29`, `<< k` is the product with `2^k` (in 64 bits
for the depth), and `|` joins words with disjoint bits, so that it is a sum. -/
def make_cell_coordinates (depth x y : Int) : Int :=
  int64_of ((depth % 2 ^ 8) * 2 ^ 58) + ((x % 2 ^ 29) * 2 ^ 29 + y % 2 ^ 29)

/-! ## Normalization and extents -/

/-- The function `ev_mapping_tree_normalize_coordinates` in exact arithmetic:
the two subtractions and the two divisions of each axis are those of the
rationals.  The code computes in `double` and rounds each of them, see
`ev_mapping_tree_normalize_coordinates_double`. -/
def ev_mapping_tree_normalize_coordinates (t : Tree) (x y : ℚ) : EvPoint :=
  { x := (x - t.extents.x1) / (t.extents.x2 - t.extents.x1) / SMALLEST_QT_UNIT
    y := (y - t.extents.y1) / (t.extents.y2 - t.extents.y1) / SMALLEST_QT_UNIT }

/-- The function `ev_mapping_tree_in_extents`. -/
def ev_mapping_tree_in_extents (t : Tree) (x y : ℚ) : Bool :=
  decide (t.extents.x1 ≤ x) && decide (x ≤ t.extents.x2) &&
    decide (t.extents.y1 ≤ y) && decide (y ≤ t.extents.y2)

/-! ## Query: `generate_valid_cells` and `ev_mapping_tree_get` -/

/-- The home cell coordinate `((int)x) / cell_size` at depth `i`. -/
def home_cell (x : ℚ) (i : Nat) : Int := (to_int x).tdiv (2 ^ i)

/-- The residual `x - cx * cell_size` at depth `i`. -/
def home_residual (x : ℚ) (i : Nat) : ℚ := x - ((home_cell x i * 2 ^ i : Int) : ℚ)

/-- The value `maxX = maxY = (1 << (MAX_DEPTH - 1)) / cell_size`. -/
def max_cell (i : Nat) : Int := ((2 : Int) ^ (MAX_DEPTH - 1)).tdiv (2 ^ i)

/-- The flag `ov_left` of depth `i`. -/
def ov_left (x : ℚ) (i : Nat) : Bool :=
  decide (home_cell x i > 0) &&
    decide (home_residual x i / (((2 ^ i : Int) : ℚ) * (1 / 2)) ≤ EXPANSION)

/-- The flag `ov_right` of depth `i`: the `else if` of `ov_left`, guarded by
`cx < maxX - 1`. -/
def ov_right (x : ℚ) (i : Nat) : Bool :=
  !ov_left x i && (decide (home_cell x i < max_cell i - 1) &&
    decide ((((2 ^ i : Int) : ℚ) - home_residual x i) / (((2 ^ i : Int) : ℚ) * (1 / 2))
      ≤ EXPANSION))

/-- The flag `ov_lower` of depth `i`. -/
def ov_lower (y : ℚ) (i : Nat) : Bool :=
  decide (home_cell y i > 0) &&
    decide (home_residual y i / (((2 ^ i : Int) : ℚ) * (1 / 2)) ≤ EXPANSION)

/-- The flag `ov_upper` of depth `i`: the `else if` of `ov_lower`, guarded by
`cy < maxY`. -/
def ov_upper (y : ℚ) (i : Nat) : Bool :=
  !ov_lower y i && (decide (home_cell y i < max_cell i) &&
    decide ((((2 ^ i : Int) : ℚ) - home_residual y i) / (((2 ^ i : Int) : ℚ) * (1 / 2))
      ≤ EXPANSION))

/-- The diagonal neighbour added inside the `ov_left` / `ov_right` branch, at
column `X`. -/
def diagonal_coords (y : ℚ) (i : Nat) (X : Int) : List (Int × Int) :=
  if ov_upper y i then [(X, home_cell y i + 1)]
  else if ov_lower y i then [(X, home_cell y i - 1)]
  else []

/-- The arguments of the successive `TEST_AND_ADD_COORDS` of depth `i`, in the
order in which the loop body runs them. -/
def candidate_coords (x y : ℚ) (i : Nat) : List (Int × Int) :=
  [(home_cell x i, home_cell y i)] ++
  (if ov_left x i then
      (home_cell x i - 1, home_cell y i) :: diagonal_coords y i (home_cell x i - 1)
    else if ov_right x i then
      (home_cell x i + 1, home_cell y i) :: diagonal_coords y i (home_cell x i + 1)
    else []) ++
  (if ov_upper y i then [(home_cell x i, home_cell y i + 1)]
    else if ov_lower y i then [(home_cell x i, home_cell y i - 1)]
    else [])

/-- The statement `TEST_AND_ADD_COORDS(X, Y)`: when the key is in `cell_index`
its list is prepended to `list`. -/
def TEST_AND_ADD_COORDS (t : Tree) (i : Nat) (list : List (List ItemHitFunctionPair))
    (c : Int × Int) : List (List ItemHitFunctionPair) :=
  match t.cell_index (make_cell_coordinates i c.1 c.2) with
  | some cell => cell :: list
  | none => list

/-- One iteration of the loop of `generate_valid_cells`. -/
def cells_at_depth (t : Tree) (x y : ℚ) (list : List (List ItemHitFunctionPair))
    (i : Nat) : List (List ItemHitFunctionPair) :=
  if t.depth_mask.getD i false then
    (candidate_coords x y i).foldl (TEST_AND_ADD_COORDS t i) list
  else list

/-- The function `generate_valid_cells`. -/
def generate_valid_cells (t : Tree) (x y : ℚ) : List (List ItemHitFunctionPair) :=
  (List.range MAX_DEPTH).foldl (cells_at_depth t x y) []

/-- The inner loop of `ev_mapping_tree_get` over one cell: `some item` when the
loop returns `pair->item`, `none` when it runs to the end of the cell. -/
def scan_cell (x y : ℚ) : List ItemHitFunctionPair → Option gpointer
  | [] => none
  | pair :: cell =>
    if pair.hit_func pair.item x y pair.data then some pair.item else scan_cell x y cell

/-- The outer loop of `ev_mapping_tree_get` over the candidate cells. -/
def scan_cells (x y : ℚ) : List (List ItemHitFunctionPair) → Option gpointer
  | [] => none
  | cell :: list =>
    match scan_cell x y cell with
    | some item => some item
    | none => scan_cells x y list

/-- The function `ev_mapping_tree_get`.  `g_return_val_if_fail (cond, NULL)` returns
`NULL` when the condition fails (after logging a critical message). -/
def ev_mapping_tree_get (t : Tree) (x y : ℚ) : gpointer :=
  if ev_mapping_tree_in_extents t x y then
    let normalized := ev_mapping_tree_normalize_coordinates t x y
    match scan_cells x y (generate_valid_cells t normalized.x normalized.y) with
    | some item => item
    | none => NULL
  else NULL

/-! ## Enumeration -/

/-- The function `ev_mapping_tree_length`. -/
def ev_mapping_tree_length (t : Tree) : Nat := t.items.length

/-! ## Construction and insertion -/

/-- The function `ev_mapping_tree_new`. -/
def ev_mapping_tree_new (page : Nat) (extents : EvRectangle) : Tree :=
  { page := page
    ref_count := 1
    extents := extents
    cell_index := fun _ => none
    items := []
    depth_mask := List.replicate MAX_DEPTH false
    reverse_index := fun _ => none
    destroyed := [] }

/-- The value `ceil (log (span) / log (2))` for a positive span, in exact
arithmetic: the least `k` with `span ≤ 2 ^ k`.  The code evaluates the two
logarithms and their quotient in `double`; just above a power of two its
result can be one less (see `guess_n1`). -/
def ceil_log2 (span : ℚ) : Int := Int.clog 2 span

/-- The first guess `(int) MAX (0, ceil (log (span) / log (2)) - 1)`, in exact
arithmetic.  For `span = 0` the logarithm is `-inf` and the maximum is `0`. -/
def initial_depth (span : ℚ) : Int :=
  if span = 0 then 0 else max 0 (ceil_log2 span - 1)

/-- The value `span = MAX (fabs (n1.x - n2.x), fabs (n1.y - n2.y))`. -/
def span_of (n1 n2 : EvPoint) : ℚ := max |n1.x - n2.x| |n1.y - n2.y|

/-- The value `margin = EXPANSION * cell_size * 0.5`. -/
def margin_of (cell_size : Int) : ℚ := EXPANSION * (cell_size : ℚ) * (1 / 2)

/-- The corner cell `(int) ((n + margin) / cell_size)`. -/
def corner_cell (n : ℚ) (cell_size : Int) : Int :=
  to_int ((n + margin_of cell_size) / (cell_size : ℚ))

/-- The residual `n - cell_size * c` of a corner. -/
def corner_residual (n : ℚ) (cell_size : Int) : ℚ :=
  n - ((cell_size * corner_cell n cell_size : Int) : ℚ)

/-- One axis of the acceptance test of `ev_mapping_tree_add`:
`c1 == c2 || (abs (c1 - c2) == 1 && MAX (r1, r2) < 2 * margin)`. -/
def axis_fits (a b : ℚ) (cell_size : Int) : Bool :=
  decide (corner_cell a cell_size = corner_cell b cell_size) ||
    (decide (|corner_cell a cell_size - corner_cell b cell_size| = 1) &&
      decide (max (corner_residual a cell_size) (corner_residual b cell_size)
        < 2 * margin_of cell_size))

/-- The condition of the `if` in the loop of `ev_mapping_tree_add`. -/
def attempt_fits (n1 n2 : EvPoint) (cell_size : Int) : Bool :=
  axis_fits n1.x n2.x cell_size && axis_fits n1.y n2.y cell_size

/-- How the loop of `ev_mapping_tree_add` ends. -/
inductive LoopResult where
  | accepted (depth cx cy : Int)
  | assert_failed
  | fell_through

/-- The loop `for (i=0; i<3; i++)` of `ev_mapping_tree_add`, with `fuel = 3 - i`
iterations left, up to the choice of the cell. -/
def add_loop (n1 n2 : EvPoint) : Nat → Nat → Int → Int → LoopResult
  | 0, _, _, _ => LoopResult.fell_through
  | fuel + 1, i, depth, cell_size =>
    if i < 2 then
      if attempt_fits n1 n2 cell_size then
        LoopResult.accepted depth
          (min (corner_cell n1.x cell_size) (corner_cell n2.x cell_size))
          (min (corner_cell n1.y cell_size) (corner_cell n2.y cell_size))
      else add_loop n1 n2 fuel (i + 1) (depth + 1) (cell_size * 2)
    else LoopResult.assert_failed

/-- The search of `ev_mapping_tree_add` for the rectangle `extents`. -/
def add_search (t : Tree) (extents : EvRectangle) : LoopResult :=
  let n1 := ev_mapping_tree_normalize_coordinates t extents.x1 extents.y1
  let n2 := ev_mapping_tree_normalize_coordinates t extents.x2 extents.y2
  let depth := initial_depth (span_of n1 n2)
  add_loop n1 n2 3 0 depth (2 ^ depth.toNat)

/-- The key of `cell_index` whose pointer is freed when
`g_hash_table_replace (tree->reverse_index, pair->item, coords)` replaces a
previous mapping of `item`: the reverse index was created with `g_free` for its
values, and the previous value is the block that `cell_index` uses as key
pointer of the old cell when the entry of `item` is the most recent one of that
cell (the head of its list) and the new cell is another one. -/
def released_key (t : Tree) (item : gpointer) (coords : Int) : Option Int :=
  match t.reverse_index item with
  | none => none
  | some old =>
    if old = coords then none
    else
      match t.cell_index old with
      | some (head :: _) => if head.item = item then some old else none
      | _ => none

/-- The table `cell_index` after the key pointer of a cell was freed or left
pointing to a dead local variable.  `cell_index` was created with
`g_int64_hash` and `g_int64_equal`, which read the key through its pointer;
a pointer that dangles is taken to match no key (the word found there is no
longer the key), so that a lookup of that cell finds nothing. -/
def forget_key (cells : Int → Option (List ItemHitFunctionPair)) :
    Option Int → Int → Option (List ItemHitFunctionPair)
  | none => cells
  | some k => Function.update cells k none

/-- The body of the accepting branch of `ev_mapping_tree_add`: the entry is
prepended to `items` and to the list of its cell (`g_hash_table_replace` with
the new block `coords` as key pointer), the reverse index is updated, which
frees the block of a previous mapping of the item, and the depth mask is
updated. -/
def store_pair (t : Tree) (pair : ItemHitFunctionPair) (depth cx cy : Int) : Tree :=
  let coords := make_cell_coordinates depth cx cy
  { t with
    items := pair :: t.items
    cell_index := forget_key
      (Function.update t.cell_index coords (some (pair :: (t.cell_index coords).getD [])))
      (released_key t pair.item coords)
    reverse_index := Function.update t.reverse_index pair.item (some coords)
    depth_mask := t.depth_mask.set depth.toNat true }

/-- What a call of `ev_mapping_tree_add` does: it aborts on `g_assert`, or
returns a key and leaves a tree. -/
inductive AddResult where
  | aborted
  | returned (tree : Tree) (key : Int)

/-- The function `ev_mapping_tree_add`; `addr` is the address that `g_malloc`
returns for the new pair. -/
def ev_mapping_tree_add (t : Tree) (addr : gpointer) (item : gpointer)
    (extents : EvRectangle) (hit_func : EvMappingTreeHitFunction) (data : gpointer) :
    AddResult :=
  match add_search t extents with
  | LoopResult.accepted depth cx cy =>
    AddResult.returned
      (store_pair t { addr := addr, hit_func := hit_func, item := item, data := data }
        depth cx cy)
      (make_cell_coordinates depth cx cy)
  | LoopResult.assert_failed => AddResult.aborted
  | LoopResult.fell_through => AddResult.returned t (-1)

/-! ## Removal -/

/-- The function `compare_item (a, bs)`: `bs` is cast to a pair and its field
`item` is read.  `item_field_at p` is the pointer found in memory at the offset
of that field from the address `p`. -/
def compare_item (item_field_at : gpointer → gpointer) (a bs : gpointer) : Int :=
  if a < item_field_at bs then -1 else if a > item_field_at bs then 1 else 0

/-- The function `g_list_find_custom (list, data, func)` of GLib: the first
node with `func (node->data, data) == 0`; the data of a node is the address of
its pair. -/
def g_list_find_custom (list : List ItemHitFunctionPair) (data : gpointer)
    (func : gpointer → gpointer → Int) : Option ItemHitFunctionPair :=
  list.find? (fun pair => decide (func pair.addr data = 0))

/-- The function `ev_mapping_tree_remove`.  The result is `none` when the call
dereferences a null pointer (no reverse mapping, or no node found in the
cell).  `g_hash_table_remove (reverse_index, item)` frees the block of the
reverse mapping, and `g_hash_table_replace (cell_index, &coords, ...)` stores
the list under the address of the local variable `coords`: when the call has
returned, the key pointer of the cell dangles (see `forget_key`) and a lookup
of the cell finds nothing, whatever is left of its list. -/
def ev_mapping_tree_remove (item_field_at : gpointer → gpointer) (t : Tree)
    (item : gpointer) : Option Tree :=
  match t.reverse_index item with
  | none => none
  | some coords =>
    let cell := (t.cell_index coords).getD []
    match g_list_find_custom cell item (compare_item item_field_at) with
    | none => none
    | some pair =>
      some { t with
        reverse_index := Function.update t.reverse_index item none
        items := t.items.eraseP (fun q => decide (q.addr = pair.addr))
        cell_index := forget_key t.cell_index (some coords)
        destroyed := pair.item :: t.destroyed }

/-! ## Reachable states and invariants -/

/-- The address `addr` is not the address of a live pair: what `g_malloc`
guarantees for a new allocation. -/
def fresh (t : Tree) (addr : gpointer) : Prop := ∀ p ∈ t.items, p.addr ≠ addr

/-- The states reachable from a new index by calls of `ev_mapping_tree_add`
and `ev_mapping_tree_remove` that return. -/
inductive Reachable : Tree → Prop where
  | new (page : Nat) (extents : EvRectangle) : Reachable (ev_mapping_tree_new page extents)
  | add {t t1 : Tree} (addr item : gpointer) (extents : EvRectangle)
      (hit_func : EvMappingTreeHitFunction) (data : gpointer) (key : Int) :
      Reachable t → fresh t addr →
      ev_mapping_tree_add t addr item extents hit_func data = AddResult.returned t1 key →
      Reachable t1
  | remove {t t1 : Tree} (item_field_at : gpointer → gpointer) (item : gpointer) :
      Reachable t → ev_mapping_tree_remove item_field_at t item = some t1 → Reachable t1

/-- The pair `p` is a member of the list stored in `cell_index` under `k`. -/
def in_cell (t : Tree) (p : ItemHitFunctionPair) (k : Int) : Prop :=
  ∃ l, t.cell_index k = some l ∧ p ∈ l

/-- The structural invariant of the lists: live pairs have distinct addresses,
the cell lists hold pairs of `items` only, and no address occurs twice in the
cell lists. -/
structure WellFormed (t : Tree) : Prop where
  addr_nodup : (t.items.map (fun p => p.addr)).Nodup
  cell_sub : ∀ k l, t.cell_index k = some l → ∀ p ∈ l, p ∈ t.items
  cell_nodup : ∀ k l, t.cell_index k = some l → (l.map (fun p => p.addr)).Nodup
  cell_disjoint : ∀ k1 k2 l1 l2, t.cell_index k1 = some l1 → t.cell_index k2 = some l2 →
    ∀ p ∈ l1, ∀ q ∈ l2, p.addr = q.addr → k1 = k2

/-- The index consistency invariant: every entry of `items` is in exactly one
cell list, the reverse index maps its item to the key of that cell, and the
reverse index has no mapping for an item without an entry. -/
structure Consistent (t : Tree) : Prop where
  one_cell : ∀ p ∈ t.items, ∃! k, in_cell t p k
  reverse_cell : ∀ p ∈ t.items, ∀ k, in_cell t p k → t.reverse_index p.item = some k
  reverse_entry : ∀ item k, t.reverse_index item = some k → ∃ p ∈ t.items, p.item = item

/-- The states reachable from a new index by calls of `ev_mapping_tree_add`
with an item that is not stored at the time of the call. -/
inductive ReachableUnique : Tree → Prop where
  | new (page : Nat) (extents : EvRectangle) :
      ReachableUnique (ev_mapping_tree_new page extents)
  | add {t t1 : Tree} (addr item : gpointer) (extents : EvRectangle)
      (hit_func : EvMappingTreeHitFunction) (data : gpointer) (key : Int) :
      ReachableUnique t → fresh t addr → (∀ p ∈ t.items, p.item ≠ item) →
      ev_mapping_tree_add t addr item extents hit_func data = AddResult.returned t1 key →
      ReachableUnique t1

/-! ## The test program `tests/test_quadtree.c` -/

namespace Test

/-- The function `squared_distance` of the test. -/
def squared_distance (x y : ℚ) : ℚ := x * x + y * y

/-- The function `is_on_line` of the test; `rect_at a` is the `EvRectangle` that
the pointer `a` points to. -/
def is_on_line (rect_at : gpointer → EvRectangle) (a : gpointer) (x y : ℚ)
    (_data : gpointer) : Bool :=
  let rect := rect_at a
  let halfwidth : ℚ := 1 / 10 * (1 / 2)
  let halfwidthsq := halfwidth * halfwidth
  let sq_line_length := squared_distance (rect.x2 - rect.x1) (rect.y2 - rect.y1)
  let xa := x - rect.x1
  let xb := rect.x2 - rect.x1
  let ya := y - rect.y1
  let yb := rect.y2 - rect.y1
  let projection := xa * xb + ya * yb
  if projection < sq_line_length ∧
      squared_distance xa ya - projection * projection / sq_line_length ≤ halfwidthsq then
    true
  else
    let sqdist1 := squared_distance (x - rect.x1) (y - rect.y1)
    let sqdist2 := squared_distance (x - rect.x2) (y - rect.y2)
    if sqdist1 ≤ halfwidthsq ∨ sqdist2 ≤ halfwidthsq then true else false

/-- The extents `rect` of `main`. -/
def rect : EvRectangle := { x1 := -1, y1 := -2, x2 := 1, y2 := 2 }

/-- The segment `l1` of `main`. -/
def l1 : EvRectangle := { x1 := -1 / 2, y1 := 1, x2 := -1 / 1000000000, y2 := 105 / 100 }

/-- The segment `l2` of `main`. -/
def l2 : EvRectangle := { x1 := -73 / 100, y1 := 1, x2 := -1 / 1000000000, y2 := 105 / 100 }

/-- The address `&l1`. -/
def addr_l1 : gpointer := 4096

/-- The address `&l2`. -/
def addr_l2 : gpointer := 4128

/-- The rectangles that the pointers `&l1` and `&l2` point to. -/
def rect_at (a : gpointer) : EvRectangle := if a = addr_l1 then l1 else l2

/-- The tree after `ev_mapping_tree_new (1, rect, do_nothing)`. -/
def tree0 : Tree := ev_mapping_tree_new 1 rect

/-- The pair that the first `ev_mapping_tree_add` of `main` allocates at `a1`. -/
def pair1 (a1 : gpointer) : ItemHitFunctionPair :=
  { addr := a1, hit_func := is_on_line rect_at, item := addr_l1, data := NULL }

/-- The pair that the second `ev_mapping_tree_add` of `main` allocates at `a2`. -/
def pair2 (a2 : gpointer) : ItemHitFunctionPair :=
  { addr := a2, hit_func := is_on_line rect_at, item := addr_l2, data := NULL }

/-- The tree after the first `ev_mapping_tree_add` of `main`. -/
def tree1 (a1 : gpointer) : Tree := store_pair tree0 (pair1 a1) 26 1 3

/-- The tree after the second `ev_mapping_tree_add` of `main`. -/
def tree2 (a1 a2 : gpointer) : Tree := store_pair (tree1 a1) (pair2 a2) 26 1 3

end Test

/-! ## Concrete inputs used below -/

/-- The hit function that accepts every point. -/
def hit_always : EvMappingTreeHitFunction := fun _ _ _ _ => true

/-- An index over a 100 by 100 page. -/
def page_tree : Tree := ev_mapping_tree_new 0 { x1 := 0, y1 := 0, x2 := 100, y2 := 100 }

/-- The bounding rectangle of a vertical stroke of width 1 along the right edge
of the page. -/
def edge_rect : EvRectangle := { x1 := 99, y1 := 10, x2 := 100, y2 := 60 }

/-- The pair of the edge stroke, item `8192`, allocated at `addr`. -/
def edge_pair (addr : gpointer) : ItemHitFunctionPair :=
  { addr := addr, hit_func := hit_always, item := 8192, data := NULL }

/-- The page index after the edge stroke was added. -/
def edge_tree (addr : gpointer) : Tree := store_pair page_tree (edge_pair addr) 27 2 0

/-- The bounding rectangle of a long horizontal stroke on the page. -/
def long_rect : EvRectangle := { x1 := 325 / 10, y1 := 10, x2 := 6251 / 100, y2 := 11 }

/-- The page index after the long stroke was added, its pair allocated at
`addr`. -/
def long_tree (addr : gpointer) : Tree := store_pair page_tree (edge_pair addr) 26 1 0

/-- A rectangle reduced to the point `(3, 0)`, outside the extents of the test. -/
def outside_rect : EvRectangle := { x1 := 3, y1 := 0, x2 := 3, y2 := 0 }

/-- The rectangle reduced to the lower corner of the extents of the test. -/
def lower_corner : EvRectangle := { x1 := -1, y1 := -2, x2 := -1, y2 := -2 }

/-- The rectangle reduced to the upper corner of the extents of the test. -/
def upper_corner : EvRectangle := { x1 := 1, y1 := 2, x2 := 1, y2 := 2 }

/-- The pair of item `8192` with the always-true hit function, at `addr`. -/
def corner_pair (addr : gpointer) : ItemHitFunctionPair :=
  { addr := addr, hit_func := hit_always, item := 8192, data := NULL }

/-- The test index after item `8192` was added twice, at the lower corner and
then at the upper corner of the extents. -/
def twice_tree : Tree :=
  store_pair (store_pair Test.tree0 (corner_pair 16) 0 0 0) (corner_pair 48) 0 (2 ^ 28) (2 ^ 28)

/-- The word found at offset 8 of `l1`: the bits of the double `l1.y1 = 1.0`. -/
def word_of_one : gpointer := 0x3FF0000000000000


/-! ## Enumeration by position and reference counting -/

/-- The function `ev_mapping_tree_nth`: `g_list_nth_data (items, n)` is the data
of the node at position `n`, that is the address of the pair it holds, and
`NULL` when the list is shorter. -/
def ev_mapping_tree_nth (t : Tree) (n : Nat) : gpointer :=
  match t.items.get? n with
  | some pair => pair.addr
  | none => NULL

/-- The value of a 32-bit two's complement word (a `gint`). -/
def int32_of (z : Int) : Int := (z + 2 ^ 31) % 2 ^ 32 - 2 ^ 31

/-- The function `ev_mapping_tree_ref`: when `ref_count > 0` fails,
`g_return_val_if_fail` returns the tree as it is; `g_atomic_int_add` adds in
32 bits. -/
def ev_mapping_tree_ref (t : Tree) : Tree :=
  if t.ref_count > 0 then { t with ref_count := int32_of (t.ref_count + 1) } else t

/-- The function `destroy_pair` on the trace of destructor calls:
`data_destroy_func (pair->item)` is called. -/
def destroy_pair (destroyed : List gpointer) (pair : ItemHitFunctionPair) : List gpointer :=
  pair.item :: destroyed

/-- What a call of `ev_mapping_tree_unref` leaves: a live tree, or the trace of
the destructor calls once the tree is freed. -/
inductive UnrefResult where
  | alive (tree : Tree)
  | freed (destroyed : List gpointer)

/-- The function `ev_mapping_tree_unref`: `g_atomic_int_add (&ref_count, -1)`
returns the old count; when the old count minus one is zero the tables are
freed and `g_list_foreach (items, destroy_pair, tree)` runs over the items in
list order. -/
def ev_mapping_tree_unref (t : Tree) : UnrefResult :=
  if t.ref_count > 0 then
    if t.ref_count - 1 = 0 then UnrefResult.freed (t.items.foldl destroy_pair t.destroyed)
    else UnrefResult.alive { t with ref_count := t.ref_count - 1 }
  else UnrefResult.alive t

/-- The point at which a call of `ev_mapping_tree_remove` stops, with the tree
at that point: `returned = false` when the call stops at the dereference of a
null pointer (both dereferences come before the first write), `returned = true`
when it runs to its end. -/
structure RemoveRun where
  returned : Bool
  tree : Tree

/-- The function `ev_mapping_tree_remove`, with the state in which it stops. -/
def ev_mapping_tree_remove_run (item_field_at : gpointer → gpointer) (t : Tree)
    (item : gpointer) : RemoveRun :=
  match t.reverse_index item with
  | none => { returned := false, tree := t }
  | some coords =>
    let cell := (t.cell_index coords).getD []
    match g_list_find_custom cell item (compare_item item_field_at) with
    | none => { returned := false, tree := t }
    | some pair =>
      { returned := true
        tree := { t with
          reverse_index := Function.update t.reverse_index item none
          items := t.items.eraseP (fun q => decide (q.addr = pair.addr))
          cell_index := forget_key t.cell_index (some coords)
          destroyed := pair.item :: t.destroyed } }

/-- The live states reached from a new index by calls of `ev_mapping_tree_add`,
`ev_mapping_tree_remove`, `ev_mapping_tree_ref` and `ev_mapping_tree_unref`,
together with the items passed to the calls of `ev_mapping_tree_add`, most
recent first. -/
inductive Run : Tree → List gpointer → Prop where
  | new (page : Nat) (extents : EvRectangle) : Run (ev_mapping_tree_new page extents) []
  | add {t t1 : Tree} {added : List gpointer} (addr item : gpointer) (extents : EvRectangle)
      (hit_func : EvMappingTreeHitFunction) (data : gpointer) (key : Int) :
      Run t added → fresh t addr →
      ev_mapping_tree_add t addr item extents hit_func data = AddResult.returned t1 key →
      Run t1 (item :: added)
  | remove {t t1 : Tree} {added : List gpointer} (item_field_at : gpointer → gpointer)
      (item : gpointer) :
      Run t added → ev_mapping_tree_remove item_field_at t item = some t1 → Run t1 added
  | ref {t : Tree} {added : List gpointer} : Run t added → Run (ev_mapping_tree_ref t) added
  | unref {t t1 : Tree} {added : List gpointer} :
      Run t added → ev_mapping_tree_unref t = UnrefResult.alive t1 → Run t1 added

/-! ## The ink annotation of `libdocument/ev-annotation.c` -/

namespace Ink

/-- The function `squared_distance` of `ev-annotation.c`. -/
def squared_distance (x y : ℚ) : ℚ := x * x + y * y

/-- The function `is_on_line` of `ev-annotation.c`; `rect_at a` is the
`EvRectangle` that the item points to and `width_at data` the field `width` of
the annotation that `data` points to. -/
def is_on_line (rect_at : gpointer → EvRectangle) (width_at : gpointer → ℚ) (a : gpointer)
    (x y : ℚ) (data : gpointer) : Bool :=
  let rect := rect_at a
  let halfwidth : ℚ := width_at data * (1 / 2)
  let halfwidthsq := halfwidth * halfwidth
  let sq_line_length := squared_distance (rect.x2 - rect.x1) (rect.y2 - rect.y1)
  let xa := x - rect.x1
  let xb := rect.x2 - rect.x1
  let ya := y - rect.y1
  let yb := rect.y2 - rect.y1
  let projection := xa * xb + ya * yb
  if sq_line_length ≠ 0 ∧ projection < sq_line_length ∧
      squared_distance xa ya - projection * projection / sq_line_length ≤ halfwidthsq then
    true
  else
    let sqdist1 := squared_distance (x - rect.x1) (y - rect.y1)
    let sqdist2 := squared_distance (x - rect.x2) (y - rect.y2)
    if sqdist1 ≤ halfwidthsq ∨ sqdist2 ≤ halfwidthsq then true else false

/-- The squared distance from a point to a segment in the words of the
specification: the squared perpendicular distance to the line through the
segment when the projection of the point falls within the span of the segment
(the scalar product with the direction lies between `0` and the squared
length), the squared distance to the nearer end point otherwise. -/
def spec_sq_distance (rect : EvRectangle) (x y : ℚ) : ℚ :=
  let sq_line_length := squared_distance (rect.x2 - rect.x1) (rect.y2 - rect.y1)
  let projection := (x - rect.x1) * (rect.x2 - rect.x1) + (y - rect.y1) * (rect.y2 - rect.y1)
  if sq_line_length ≠ 0 ∧ 0 ≤ projection ∧ projection ≤ sq_line_length then
    squared_distance (x - rect.x1) (y - rect.y1) - projection * projection / sq_line_length
  else
    min (squared_distance (x - rect.x1) (y - rect.y1))
      (squared_distance (x - rect.x2) (y - rect.y2))

/-- The hit test in the words of the specification: the squared distance to the
segment is at most the square of the half-width. -/
def spec_is_on_line (rect : EvRectangle) (h : ℚ) (x y : ℚ) : Bool :=
  decide (spec_sq_distance rect x y ≤ h * h)

/-- The variables `first_time`, `min_x`, `max_x`, `min_y`, `max_y` of
`ev_annotation_ink_set_paths`. -/
structure Bounds where
  first_time : Bool
  min_x : ℚ
  max_x : ℚ
  min_y : ℚ
  max_y : ℚ

/-- The body of the first loop of `ev_annotation_ink_set_paths`, for the point
`p` of a path. -/
def bounds_step (b : Bounds) (p : EvPoint) : Bounds :=
  let b1 : Bounds :=
    if b.first_time then
      { first_time := false, min_x := p.x, max_x := p.x, min_y := p.y, max_y := p.y }
    else b
  { first_time := b1.first_time
    min_x := min b1.min_x p.x
    min_y := min b1.min_y p.y
    max_x := max b1.max_x p.x
    max_y := max b1.max_y p.y }

/-- The first loop of `ev_annotation_ink_set_paths` over all the paths, from
the initial values of the variables. -/
def bounds_of (paths : List (List EvPoint)) : Bounds :=
  paths.foldl (fun b path => path.foldl bounds_step b)
    { first_time := true, min_x := 0, max_x := 1, min_y := 1, max_y := 1 }

/-- The rectangle `extents` of `ev_annotation_ink_set_paths`. -/
def extents_of (paths : List (List EvPoint)) (width : ℚ) : EvRectangle :=
  { x1 := (bounds_of paths).min_x - width / 2
    y1 := (bounds_of paths).min_y - width / 2
    x2 := (bounds_of paths).max_x + width / 2
    y2 := (bounds_of paths).max_y + width / 2 }

/-- The arguments `(*line, rect)` of the calls of `ev_mapping_tree_add` that the
second loop makes for one path: one call for each point but the first, with
the previous point `(xp, yp)`. -/
def segment_calls (half_width : ℚ) : List EvPoint → List (EvRectangle × EvRectangle)
  | [] => []
  | [_] => []
  | prev :: p :: rest =>
    ({ x1 := prev.x, x2 := p.x, y1 := prev.y, y2 := p.y },
      { x1 := min p.x prev.x - half_width
        x2 := max p.x prev.x + half_width
        y1 := min p.y prev.y - half_width
        y2 := max p.y prev.y + half_width }) :: segment_calls half_width (p :: rest)

/-- The function `ev_annotation_ink_set_paths` for an annotation of width
`width`, a path being the list of its points: the index it creates and the
arguments `(*line, rect)` of its calls of `ev_mapping_tree_add`, in order. -/
def ev_annotation_ink_set_paths (paths : List (List EvPoint)) (width : ℚ) :
    Tree × List (EvRectangle × EvRectangle) :=
  (ev_mapping_tree_new 0 (extents_of paths width),
    (paths.map (segment_calls (width / 2))).flatten)

end Ink

/-- The state of the test after its two insertions, with reference count `2`. -/
def shared_tree : Tree := ev_mapping_tree_ref (Test.tree2 8192 8224)

/-- The segment from `(0, 0)` to `(1, 0)`. -/
def unit_segment : EvRectangle := { x1 := 0, y1 := 0, x2 := 1, y2 := 0 }

/-! ## Insertions inside the extents, and variants of the query for comparison -/

/-- The states reachable from a new index with non-degenerate extents by calls
of `ev_mapping_tree_add` for rectangles whose corners lie inside the extents,
and calls of `ev_mapping_tree_remove` that return. -/
inductive ReachableInExtents : Tree → Prop where
  | new (page : Nat) (extents : EvRectangle) :
      extents.x1 < extents.x2 → extents.y1 < extents.y2 →
      ReachableInExtents (ev_mapping_tree_new page extents)
  | add {t t1 : Tree} (addr item : gpointer) (extents : EvRectangle)
      (hit_func : EvMappingTreeHitFunction) (data : gpointer) (key : Int) :
      ReachableInExtents t →
      ev_mapping_tree_in_extents t extents.x1 extents.y1 = true →
      ev_mapping_tree_in_extents t extents.x2 extents.y2 = true →
      ev_mapping_tree_add t addr item extents hit_func data = AddResult.returned t1 key →
      ReachableInExtents t1
  | remove {t t1 : Tree} (item_field_at : gpointer → gpointer) (item : gpointer) :
      ReachableInExtents t → ev_mapping_tree_remove item_field_at t item = some t1 →
      ReachableInExtents t1

/-- Variant for comparison, in the words of the specification: one iteration of
the loop of `generate_valid_cells` in which the depth is probed whatever its
bit in `depth_mask`. -/
def spec_cells_at_depth_unmasked (t : Tree) (x y : ℚ)
    (list : List (List ItemHitFunctionPair)) (i : Nat) : List (List ItemHitFunctionPair) :=
  (candidate_coords x y i).foldl (TEST_AND_ADD_COORDS t i) list

/-- Variant for comparison: `generate_valid_cells` probing all `MAX_DEPTH`
depths regardless of the mask. -/
def spec_generate_all_depths (t : Tree) (x y : ℚ) : List (List ItemHitFunctionPair) :=
  (List.range MAX_DEPTH).foldl (spec_cells_at_depth_unmasked t x y) []

/-- Variant for comparison: `ev_mapping_tree_get` over the cells of
`spec_generate_all_depths`. -/
def spec_get_all_depths (t : Tree) (x y : ℚ) : gpointer :=
  if ev_mapping_tree_in_extents t x y then
    let normalized := ev_mapping_tree_normalize_coordinates t x y
    match scan_cells x y (spec_generate_all_depths t normalized.x normalized.y) with
    | some item => item
    | none => NULL
  else NULL

/-- Variant for comparison: the flag `ov_right` computed by an independent
`if` instead of the `else if` of `ov_left`. -/
def spec_ov_right_independent (x : ℚ) (i : Nat) : Bool :=
  decide (home_cell x i < max_cell i - 1) &&
    decide ((((2 ^ i : Int) : ℚ) - home_residual x i) / (((2 ^ i : Int) : ℚ) * (1 / 2))
      ≤ EXPANSION)

/-- Variant for comparison: the flag `ov_upper` computed by an independent
`if` instead of the `else if` of `ov_lower`. -/
def spec_ov_upper_independent (y : ℚ) (i : Nat) : Bool :=
  decide (home_cell y i < max_cell i) &&
    decide ((((2 ^ i : Int) : ℚ) - home_residual y i) / (((2 ^ i : Int) : ℚ) * (1 / 2))
      ≤ EXPANSION)

/-- Variant for comparison: the diagonal neighbours at column `X`, the
`else if (ov_lower)` replaced by an independent `if`. -/
def spec_diagonal_independent (y : ℚ) (i : Nat) (X : Int) : List (Int × Int) :=
  (if spec_ov_upper_independent y i then [(X, home_cell y i + 1)] else []) ++
  (if ov_lower y i then [(X, home_cell y i - 1)] else [])

/-- Variant for comparison: the arguments of the successive
`TEST_AND_ADD_COORDS` of depth `i` when every `else if` of the loop body is
replaced by an independent `if`. -/
def spec_candidate_coords_independent (x y : ℚ) (i : Nat) : List (Int × Int) :=
  [(home_cell x i, home_cell y i)] ++
  (if ov_left x i then
      (home_cell x i - 1, home_cell y i) :: spec_diagonal_independent y i (home_cell x i - 1)
    else []) ++
  (if spec_ov_right_independent x i then
      (home_cell x i + 1, home_cell y i) :: spec_diagonal_independent y i (home_cell x i + 1)
    else []) ++
  (if spec_ov_upper_independent y i then [(home_cell x i, home_cell y i + 1)] else []) ++
  (if ov_lower y i then [(home_cell x i, home_cell y i - 1)] else [])

/-! ## A removal that returns, an insertion above the depth mask, a first guess -/

/-- An item for which `ev_mapping_tree_remove` returns: an object whose word at
the offset of the field `item` of a pair holds the address of the pair that
stores it (the address that `ev_mapping_tree_nth` returns for its entry). -/
def self_item : gpointer := 12288

/-- The pair of `self_item`, with the always-true hit function, at `a2`. -/
def self_pair (a2 : gpointer) : ItemHitFunctionPair :=
  { addr := a2, hit_func := hit_always, item := self_item, data := NULL }

/-- The tree of the test after the insertion of `&l1` and then of `self_item`
with the bounds of `l2`: both entries are in the cell `(26, 1, 3)`. -/
def self_tree (a1 a2 : gpointer) : Tree := store_pair (Test.tree1 a1) (self_pair a2) 26 1 3

/-- The tree `self_tree` after `ev_mapping_tree_remove (tree, self_item)` has
returned. -/
def removed_tree (a1 a2 : gpointer) : Tree :=
  { self_tree a1 a2 with
    reverse_index := Function.update (self_tree a1 a2).reverse_index self_item none
    items := (self_tree a1 a2).items.eraseP (fun q => decide (q.addr = a2))
    cell_index := forget_key (self_tree a1 a2).cell_index (some (make_cell_coordinates 26 1 3))
    destroyed := self_item :: (self_tree a1 a2).destroyed }

/-- A rectangle that starts at the lower corner of the extents of the test and
ends at `x = 5`, outside of them: its normalized span is `3 * 2^28`. -/
def wide_rect : EvRectangle := { x1 := -1, y1 := -2, x2 := 5, y2 := -2 }

/-- The index of the test after `wide_rect` was added for item `8192`, its pair
allocated at `addr`. -/
def wide_tree (addr : gpointer) : Tree := store_pair Test.tree0 (corner_pair addr) 29 0 0

/-- The normalized first corner that the code computes in `double` for the
rectangle `((6.25125, 0), (8.75125, 0))` in the extents `(0, 0, 10, 10)`: the
double `167805714.43199998...`. -/
def guess_n1 : EvPoint := { x := 2815312717059981 / 16777216, y := 0 }

/-- The normalized second corner that the code computes in `double` for the same
rectangle: the double `234914578.43200001...`. -/
def guess_n2 : EvPoint := { x := 7882425247805211 / 33554432, y := 0 }

/-! ## Double arithmetic -/

/-- Rounding of a rational to the nearest integer, ties to even. -/
def round_half_even (x : ℚ) : Int :=
  if x - ⌊x⌋ < 1 / 2 then ⌊x⌋
  else if 1 / 2 < x - ⌊x⌋ then ⌊x⌋ + 1
  else if ⌊x⌋ % 2 = 0 then ⌊x⌋ else ⌊x⌋ + 1

/-- The exponent of the unit in the last place of the format `double` (IEEE
binary64) at `q`: 52 below the binary exponent of `q`, and that of the smallest
normal numbers when `q` is subnormal. -/
def ulp_exponent (q : ℚ) : Int := max (Int.log 2 |q|) (-1022) - 52

/-- The result of an operation of type `double` whose exact result is `q`: the
nearest number of the format, ties to even, as long as it is finite (below
`2^1024` in absolute value). -/
def round_double (q : ℚ) : ℚ :=
  (round_half_even (q / 2 ^ ulp_exponent q) : ℚ) * 2 ^ ulp_exponent q

/-- The function `ev_mapping_tree_normalize_coordinates` in the arithmetic of
`double`: on each axis the subtraction `x - x1`, the subtraction `x2 - x1`, the
division and the division by `SMALLEST_QT_UNIT` round their results. -/
def ev_mapping_tree_normalize_coordinates_double (t : Tree) (x y : ℚ) : EvPoint :=
  { x := round_double (round_double (round_double (x - t.extents.x1) /
      round_double (t.extents.x2 - t.extents.x1)) / SMALLEST_QT_UNIT)
    y := round_double (round_double (round_double (y - t.extents.y1) /
      round_double (t.extents.y2 - t.extents.y1)) / SMALLEST_QT_UNIT) }

/-- An index with the extents `(0, 0, 3, 3)`. -/
def three_tree : Tree := ev_mapping_tree_new 0 { x1 := 0, y1 := 0, x2 := 3, y2 := 3 }

/-- An index with the extents `(-1e16, -1e16, 1e16, 1e16)`. -/
def huge_tree : Tree :=
  ev_mapping_tree_new 0 { x1 := -10 ^ 16, y1 := -10 ^ 16, x2 := 10 ^ 16, y2 := 10 ^ 16 }

/-! ## Basic facts on the arithmetic of insertion -/

theorem to_int_of_nonneg {d : ℚ} (h : 0 ≤ d) : to_int d = ⌊d⌋ := by
  simp [to_int, h]

theorem margin_of_nonneg {s : Int} (hs : 0 < s) : 0 ≤ margin_of s := by
  have : (0 : ℚ) < s := by exact_mod_cast hs
  unfold margin_of EXPANSION; positivity

theorem corner_cell_eq_floor {n : ℚ} {s : Int} (hn : 0 ≤ n) (hs : 0 < s) :
    corner_cell n s = ⌊(n + margin_of s) / (s : ℚ)⌋ := by
  have hs' : (0 : ℚ) < s := by exact_mod_cast hs
  have hm := margin_of_nonneg hs
  unfold corner_cell
  exact to_int_of_nonneg (div_nonneg (by linarith) hs'.le)

theorem corner_residual_lt {n : ℚ} {s : Int} (hn : 0 ≤ n) (hs : 0 < s) :
    corner_residual n s < (s : ℚ) - margin_of s := by
  have hs' : (0 : ℚ) < s := by exact_mod_cast hs
  unfold corner_residual
  rw [corner_cell_eq_floor hn hs]
  have h := Int.lt_floor_add_one ((n + margin_of s) / (s : ℚ))
  rw [div_lt_iff₀ hs'] at h
  push_cast
  nlinarith

theorem corner_residual_ge {n : ℚ} {s : Int} (hn : 0 ≤ n) (hs : 0 < s) :
    - margin_of s ≤ corner_residual n s := by
  have hs' : (0 : ℚ) < s := by exact_mod_cast hs
  unfold corner_residual
  rw [corner_cell_eq_floor hn hs]
  have h := Int.floor_le ((n + margin_of s) / (s : ℚ))
  rw [le_div_iff₀ hs'] at h
  push_cast
  nlinarith

theorem residual_test_holds {a b : ℚ} {s : Int} (ha : 0 ≤ a) (hb : 0 ≤ b) (hs : 0 < s) :
    max (corner_residual a s) (corner_residual b s) < 2 * margin_of s := by
  have hs' : (0 : ℚ) < s := by exact_mod_cast hs
  have h1 := corner_residual_lt ha hs
  have h2 := corner_residual_lt hb hs
  have hm : (s : ℚ) - margin_of s < 2 * margin_of s := by
    unfold margin_of EXPANSION; nlinarith
  exact max_lt (by linarith) (by linarith)

theorem axis_fits_iff {a b : ℚ} {s : Int} (ha : 0 ≤ a) (hb : 0 ≤ b) (hs : 0 < s) :
    axis_fits a b s = true ↔ |corner_cell a s - corner_cell b s| ≤ 1 := by
  have hr := residual_test_holds ha hb hs
  unfold axis_fits
  simp only [Bool.or_eq_true, Bool.and_eq_true, decide_eq_true_eq, hr, and_true]
  constructor
  · rintro (h | h)
    · rw [h]; simp
    · omega
  · intro h
    by_cases hc : corner_cell a s = corner_cell b s
    · exact Or.inl hc
    · right
      have h0 : 0 ≤ |corner_cell a s - corner_cell b s| := abs_nonneg _
      have h1 : |corner_cell a s - corner_cell b s| ≠ 0 := by
        intro h2; exact hc (by rw [abs_eq_zero] at h2; omega)
      omega

theorem floor_close {u v : ℚ} (h : |u - v| ≤ 1) : |⌊u⌋ - ⌊v⌋| ≤ 1 := by
  rw [abs_le] at h ⊢
  have hu := Int.floor_le u
  have hu1 := Int.lt_floor_add_one u
  have hv := Int.floor_le v
  have hv1 := Int.lt_floor_add_one v
  constructor
  · have : ((⌊v⌋ : ℚ)) < ⌊u⌋ + 2 := by linarith
    have : ⌊v⌋ < ⌊u⌋ + 2 := by exact_mod_cast this
    omega
  · have : ((⌊u⌋ : ℚ)) < ⌊v⌋ + 2 := by linarith
    have : ⌊u⌋ < ⌊v⌋ + 2 := by exact_mod_cast this
    omega

theorem axis_fits_of_close {a b : ℚ} {s : Int} (ha : 0 ≤ a) (hb : 0 ≤ b) (hs : 0 < s)
    (h : |a - b| ≤ (s : ℚ)) : axis_fits a b s = true := by
  have hs' : (0 : ℚ) < s := by exact_mod_cast hs
  rw [axis_fits_iff ha hb hs, corner_cell_eq_floor ha hs, corner_cell_eq_floor hb hs]
  apply floor_close
  have : (a + margin_of s) / (s : ℚ) - (b + margin_of s) / (s : ℚ) = (a - b) / s := by
    field_simp
  rw [this, abs_div, abs_of_pos hs', div_le_one hs']
  exact h

theorem initial_depth_nonneg (span : ℚ) : 0 ≤ initial_depth span := by
  unfold initial_depth
  split
  · exact le_refl 0
  · exact le_max_left _ _

theorem span_le_two_pow (span : ℚ) (h0 : 0 ≤ span) :
    span ≤ (((2 : Int) ^ (initial_depth span).toNat * 2 : Int) : ℚ) := by
  have hpos : (0 : ℚ) < (((2 : Int) ^ (initial_depth span).toNat * 2 : Int) : ℚ) := by
    push_cast; positivity
  rcases eq_or_lt_of_le h0 with h | h
  · exact h ▸ hpos.le
  · have hk := Int.self_le_zpow_clog (b := 2) (by norm_num) span
    have hd := initial_depth_nonneg span
    have hle : Int.clog 2 span ≤ initial_depth span + 1 := by
      unfold initial_depth ceil_log2
      rw [if_neg (ne_of_gt h)]
      have := le_max_right (0 : Int) (Int.clog 2 span - 1)
      omega
    have h2 : ((2 : ℕ) : ℚ) ^ Int.clog 2 span ≤ ((2 : ℕ) : ℚ) ^ (initial_depth span + 1) :=
      zpow_le_zpow_right₀ (by norm_num) hle
    have h3 : ((2 : ℕ) : ℚ) ^ (initial_depth span + 1)
        = (((2 : Int) ^ (initial_depth span).toNat * 2 : Int) : ℚ) := by
      have : initial_depth span + 1 = (((initial_depth span).toNat + 1 : ℕ) : Int) := by
        push_cast; rw [Int.toNat_of_nonneg hd]
      rw [this, zpow_natCast]; push_cast; ring
    rw [h3] at h2
    exact le_trans hk h2

theorem normalize_x_nonneg {t : Tree} {x y : ℚ} (hx : t.extents.x1 < t.extents.x2)
    (h : t.extents.x1 ≤ x) : 0 ≤ (ev_mapping_tree_normalize_coordinates t x y).x := by
  unfold ev_mapping_tree_normalize_coordinates SMALLEST_QT_UNIT
  have : 0 < t.extents.x2 - t.extents.x1 := by linarith
  have : 0 ≤ x - t.extents.x1 := by linarith
  positivity

theorem normalize_y_nonneg {t : Tree} {x y : ℚ} (hy : t.extents.y1 < t.extents.y2)
    (h : t.extents.y1 ≤ y) : 0 ≤ (ev_mapping_tree_normalize_coordinates t x y).y := by
  unfold ev_mapping_tree_normalize_coordinates SMALLEST_QT_UNIT
  have : 0 < t.extents.y2 - t.extents.y1 := by linarith
  have : 0 ≤ y - t.extents.y1 := by linarith
  positivity

theorem in_extents_iff (t : Tree) (x y : ℚ) :
    ev_mapping_tree_in_extents t x y = true ↔
      t.extents.x1 ≤ x ∧ x ≤ t.extents.x2 ∧ t.extents.y1 ≤ y ∧ y ≤ t.extents.y2 := by
  simp [ev_mapping_tree_in_extents, and_assoc]

theorem add_loop_two_attempts {n1 n2 : EvPoint} {d s : Int}
    (h : attempt_fits n1 n2 (s * 2) = true) :
    add_loop n1 n2 3 0 d s =
      (if attempt_fits n1 n2 s then
        LoopResult.accepted d (min (corner_cell n1.x s) (corner_cell n2.x s))
          (min (corner_cell n1.y s) (corner_cell n2.y s))
      else
        LoopResult.accepted (d + 1)
          (min (corner_cell n1.x (s * 2)) (corner_cell n2.x (s * 2)))
          (min (corner_cell n1.y (s * 2)) (corner_cell n2.y (s * 2)))) := by
  simp [add_loop, h]

theorem second_attempt_fits {n1 n2 : EvPoint} (h1x : 0 ≤ n1.x) (h1y : 0 ≤ n1.y)
    (h2x : 0 ≤ n2.x) (h2y : 0 ≤ n2.y) :
    attempt_fits n1 n2 ((2 : Int) ^ (initial_depth (span_of n1 n2)).toNat * 2) = true := by
  have hs : (0 : Int) < (2 : Int) ^ (initial_depth (span_of n1 n2)).toNat * 2 := by positivity
  have hspan := span_le_two_pow (span_of n1 n2)
    (le_trans (abs_nonneg _) (le_max_left _ _))
  unfold attempt_fits
  rw [Bool.and_eq_true]
  exact ⟨axis_fits_of_close h1x h2x hs (le_trans (le_max_left _ _) hspan),
    axis_fits_of_close h1y h2y hs (le_trans (le_max_right _ _) hspan)⟩

/-! ## Cell keys -/

theorem make_cell_coordinates_of_range {d x y : Int} (hd0 : 0 ≤ d) (hd : d ≤ 28)
    (hx0 : 0 ≤ x) (hx : x < 2 ^ 29) (hy0 : 0 ≤ y) (hy : y < 2 ^ 29) :
    make_cell_coordinates d x y = d * 2 ^ 58 + x * 2 ^ 29 + y := by
  unfold make_cell_coordinates int64_of
  have h1 : d % 2 ^ 8 = d := Int.emod_eq_of_lt hd0 (by omega)
  have h2 : x % 2 ^ 29 = x := Int.emod_eq_of_lt hx0 hx
  have h3 : y % 2 ^ 29 = y := Int.emod_eq_of_lt hy0 hy
  rw [h1, h2, h3]
  have h4 : (d * 2 ^ 58 + 2 ^ 63) % 2 ^ 64 = d * 2 ^ 58 + 2 ^ 63 :=
    Int.emod_eq_of_lt (by omega) (by omega)
  rw [h4]; ring

/-- C8 (cell key injectivity): for depths in `0..28` and cell coordinates in
`[0, 2^29)`, two keys built by `make_cell_coordinates` are equal if and only if
the depths and both coordinates are equal. -/
theorem make_cell_coordinates_injective (d1 d2 cx1 cy1 cx2 cy2 : Int)
    (hd1 : 0 ≤ d1 ∧ d1 ≤ 28) (hd2 : 0 ≤ d2 ∧ d2 ≤ 28)
    (hx1 : 0 ≤ cx1 ∧ cx1 < 2 ^ 29) (hy1 : 0 ≤ cy1 ∧ cy1 < 2 ^ 29)
    (hx2 : 0 ≤ cx2 ∧ cx2 < 2 ^ 29) (hy2 : 0 ≤ cy2 ∧ cy2 < 2 ^ 29) :
    make_cell_coordinates d1 cx1 cy1 = make_cell_coordinates d2 cx2 cy2 ↔
      (d1, cx1, cy1) = (d2, cx2, cy2) := by
  rw [make_cell_coordinates_of_range hd1.1 hd1.2 hx1.1 hx1.2 hy1.1 hy1.2,
    make_cell_coordinates_of_range hd2.1 hd2.2 hx2.1 hx2.2 hy2.1 hy2.2]
  constructor
  · intro h
    have : d1 = d2 ∧ cx1 = cx2 ∧ cy1 = cy2 := by omega
    simp [this]
  · intro h
    simp only [Prod.mk.injEq] at h
    obtain ⟨rfl, rfl, rfl⟩ := h
    rfl

/-- Witness of C8: the keys of the cells `(26, 1, 3)` and `(26, 3, 1)` differ,
and the key of `(26, 1, 3)` equals itself. -/
theorem make_cell_coordinates_injective_witness :
    (make_cell_coordinates 26 1 3 = make_cell_coordinates 26 3 1 ↔
      ((26 : Int), (1 : Int), (3 : Int)) = (26, 3, 1)) ∧
    (make_cell_coordinates 26 1 3 = make_cell_coordinates 26 1 3 ↔
      ((26 : Int), (1 : Int), (3 : Int)) = (26, 1, 3)) :=
  ⟨make_cell_coordinates_injective 26 26 1 3 3 1 (by decide) (by decide) (by decide)
      (by decide) (by decide) (by decide),
    make_cell_coordinates_injective 26 26 1 3 1 3 (by decide) (by decide) (by decide)
      (by decide) (by decide) (by decide)⟩

/-! ## Insertion -/

theorem add_search_cases (t : Tree) (r : EvRectangle)
    (hx : t.extents.x1 < t.extents.x2) (hy : t.extents.y1 < t.extents.y2)
    (h1 : ev_mapping_tree_in_extents t r.x1 r.y1 = true)
    (h2 : ev_mapping_tree_in_extents t r.x2 r.y2 = true) :
    ∃ d s : Int,
      (d = initial_depth (span_of (ev_mapping_tree_normalize_coordinates t r.x1 r.y1)
            (ev_mapping_tree_normalize_coordinates t r.x2 r.y2)) ∨
        d = initial_depth (span_of (ev_mapping_tree_normalize_coordinates t r.x1 r.y1)
            (ev_mapping_tree_normalize_coordinates t r.x2 r.y2)) + 1) ∧
      s = 2 ^ d.toNat ∧
      attempt_fits (ev_mapping_tree_normalize_coordinates t r.x1 r.y1)
        (ev_mapping_tree_normalize_coordinates t r.x2 r.y2) s = true ∧
      add_search t r = LoopResult.accepted d
        (min (corner_cell (ev_mapping_tree_normalize_coordinates t r.x1 r.y1).x s)
          (corner_cell (ev_mapping_tree_normalize_coordinates t r.x2 r.y2).x s))
        (min (corner_cell (ev_mapping_tree_normalize_coordinates t r.x1 r.y1).y s)
          (corner_cell (ev_mapping_tree_normalize_coordinates t r.x2 r.y2).y s)) := by
  rw [in_extents_iff] at h1 h2
  generalize hn1 : ev_mapping_tree_normalize_coordinates t r.x1 r.y1 = n1
  generalize hn2 : ev_mapping_tree_normalize_coordinates t r.x2 r.y2 = n2
  have h1x : 0 ≤ n1.x := hn1 ▸ normalize_x_nonneg hx h1.1
  have h1y : 0 ≤ n1.y := hn1 ▸ normalize_y_nonneg hy h1.2.2.1
  have h2x : 0 ≤ n2.x := hn2 ▸ normalize_x_nonneg hx h2.1
  have h2y : 0 ≤ n2.y := hn2 ▸ normalize_y_nonneg hy h2.2.2.1
  have hfit := second_attempt_fits h1x h1y h2x h2y
  have hd := initial_depth_nonneg (span_of n1 n2)
  generalize hd0 : initial_depth (span_of n1 n2) = d0 at hfit hd
  have hs : add_search t r = add_loop n1 n2 3 0 d0 (2 ^ d0.toNat) := by
    unfold add_search
    simp only [hn1, hn2, hd0]
  rw [add_loop_two_attempts hfit] at hs
  by_cases hfirst : attempt_fits n1 n2 (2 ^ d0.toNat) = true
  · rw [if_pos hfirst] at hs
    exact ⟨d0, 2 ^ d0.toNat, Or.inl rfl, rfl, hfirst, hs⟩
  · rw [if_neg hfirst] at hs
    have hpow : (2 : Int) ^ d0.toNat * 2 = 2 ^ (d0 + 1).toNat := by
      have : (d0 + 1).toNat = d0.toNat + 1 := by omega
      rw [this, pow_succ]
    rw [hpow] at hs hfit
    exact ⟨d0 + 1, 2 ^ (d0 + 1).toNat, Or.inr rfl, rfl, hfit, hs⟩

/-- C3 (depth convergence): for an index with non-degenerate extents and a
bounding rectangle whose two corners lie inside the extents, the loop of
`ev_mapping_tree_add` accepts at the first or at the second attempt, at depth
`d0` or `d0 + 1` for the initial guess `d0`: the assertion `g_assert (i < 2)`
does not fail, the final `return -1` is not reached, and the call returns the
tree in which the pair is stored at that depth. -/
theorem add_depth_convergence (t : Tree) (addr item : gpointer) (r : EvRectangle)
    (hit_func : EvMappingTreeHitFunction) (data : gpointer)
    (hx : t.extents.x1 < t.extents.x2) (hy : t.extents.y1 < t.extents.y2)
    (h1 : ev_mapping_tree_in_extents t r.x1 r.y1 = true)
    (h2 : ev_mapping_tree_in_extents t r.x2 r.y2 = true) :
    ∃ d cx cy : Int,
      (d = initial_depth (span_of (ev_mapping_tree_normalize_coordinates t r.x1 r.y1)
            (ev_mapping_tree_normalize_coordinates t r.x2 r.y2)) ∨
        d = initial_depth (span_of (ev_mapping_tree_normalize_coordinates t r.x1 r.y1)
            (ev_mapping_tree_normalize_coordinates t r.x2 r.y2)) + 1) ∧
      add_search t r = LoopResult.accepted d cx cy ∧
      add_search t r ≠ LoopResult.assert_failed ∧
      add_search t r ≠ LoopResult.fell_through ∧
      ev_mapping_tree_add t addr item r hit_func data =
        AddResult.returned
          (store_pair t { addr := addr, hit_func := hit_func, item := item, data := data }
            d cx cy)
          (make_cell_coordinates d cx cy) := by
  obtain ⟨d, s, hd, -, -, hs⟩ := add_search_cases t r hx hy h1 h2
  refine ⟨d, _, _, hd, hs, ?_, ?_, ?_⟩
  · rw [hs]; simp
  · rw [hs]; simp
  · unfold ev_mapping_tree_add
    rw [hs]


/-! ## Evaluation of the search on given numbers -/

theorem corner_cell_eval {n : ℚ} {s c : Int} (hn : 0 ≤ n) (hs : 0 < s)
    (h1 : (c : ℚ) * s ≤ n + margin_of s) (h2 : n + margin_of s < ((c : ℚ) + 1) * s) :
    corner_cell n s = c := by
  have hs' : (0 : ℚ) < s := by exact_mod_cast hs
  rw [corner_cell_eq_floor hn hs, Int.floor_eq_iff]
  exact ⟨(le_div_iff₀ hs').2 h1, (div_lt_iff₀ hs').2 h2⟩

theorem ceil_log2_eq {span : ℚ} {k : Int} (h1 : (2 : ℚ) ^ (k - 1) < span)
    (h2 : span ≤ (2 : ℚ) ^ k) : ceil_log2 span = k := by
  have hpos : 0 < span := lt_trans (by positivity) h1
  unfold ceil_log2
  apply le_antisymm
  · exact (Int.le_zpow_iff_clog_le (b := 2) (by norm_num) hpos).1 (by exact_mod_cast h2)
  · have := (Int.zpow_lt_iff_lt_clog (b := 2) (by norm_num) hpos).1
      (show ((2 : ℕ) : ℚ) ^ (k - 1) < span by exact_mod_cast h1)
    omega

theorem initial_depth_eq (span : ℚ) (k : Int) (hk : 1 ≤ k) (h1 : (2 : ℚ) ^ (k - 1) < span)
    (h2 : span ≤ (2 : ℚ) ^ k) : initial_depth span = k - 1 := by
  have hpos : 0 < span := lt_trans (by positivity) h1
  unfold initial_depth
  rw [if_neg (ne_of_gt hpos), ceil_log2_eq h1 h2]
  exact max_eq_right (by omega)

theorem initial_depth_zero : initial_depth 0 = 0 := by
  simp [initial_depth]

theorem attempt_fits_eval {n1 n2 : EvPoint} {s c1x c1y c2x c2y : Int}
    (h1x : 0 ≤ n1.x) (h1y : 0 ≤ n1.y) (h2x : 0 ≤ n2.x) (h2y : 0 ≤ n2.y) (hs : 0 < s)
    (e1x : corner_cell n1.x s = c1x) (e1y : corner_cell n1.y s = c1y)
    (e2x : corner_cell n2.x s = c2x) (e2y : corner_cell n2.y s = c2y) :
    attempt_fits n1 n2 s = (decide (|c1x - c2x| ≤ 1) && decide (|c1y - c2y| ≤ 1)) := by
  unfold attempt_fits
  rw [Bool.eq_iff_iff, Bool.and_eq_true, Bool.and_eq_true, axis_fits_iff h1x h2x hs,
    axis_fits_iff h1y h2y hs, e1x, e1y, e2x, e2y, decide_eq_true_eq, decide_eq_true_eq]

theorem add_search_eval_first (t : Tree) (r : EvRectangle) {n1 n2 : EvPoint}
    (d s c1x c1y c2x c2y : Int)
    (hn1 : ev_mapping_tree_normalize_coordinates t r.x1 r.y1 = n1)
    (hn2 : ev_mapping_tree_normalize_coordinates t r.x2 r.y2 = n2)
    (h1x : 0 ≤ n1.x) (h1y : 0 ≤ n1.y) (h2x : 0 ≤ n2.x) (h2y : 0 ≤ n2.y)
    (hd : initial_depth (span_of n1 n2) = d) (hs : (2 : Int) ^ d.toNat = s)
    (e1x : corner_cell n1.x s = c1x) (e1y : corner_cell n1.y s = c1y)
    (e2x : corner_cell n2.x s = c2x) (e2y : corner_cell n2.y s = c2y)
    (hfx : |c1x - c2x| ≤ 1) (hfy : |c1y - c2y| ≤ 1) :
    add_search t r = LoopResult.accepted d (min c1x c2x) (min c1y c2y) := by
  have hpos : 0 < s := hs ▸ (by positivity)
  have hfit : attempt_fits n1 n2 s = true := by
    rw [attempt_fits_eval h1x h1y h2x h2y hpos e1x e1y e2x e2y]
    simp [hfx, hfy]
  unfold add_search
  simp only [hn1, hn2, hd, hs]
  simp only [add_loop, hfit, e1x, e1y, e2x, e2y]
  simp

theorem add_search_eval_second (t : Tree) (r : EvRectangle) {n1 n2 : EvPoint}
    (d s s2 b1x b1y b2x b2y c1x c1y c2x c2y : Int)
    (hn1 : ev_mapping_tree_normalize_coordinates t r.x1 r.y1 = n1)
    (hn2 : ev_mapping_tree_normalize_coordinates t r.x2 r.y2 = n2)
    (h1x : 0 ≤ n1.x) (h1y : 0 ≤ n1.y) (h2x : 0 ≤ n2.x) (h2y : 0 ≤ n2.y)
    (hd : initial_depth (span_of n1 n2) = d) (hs : (2 : Int) ^ d.toNat = s)
    (hs2 : s * 2 = s2)
    (f1x : corner_cell n1.x s = b1x) (f1y : corner_cell n1.y s = b1y)
    (f2x : corner_cell n2.x s = b2x) (f2y : corner_cell n2.y s = b2y)
    (hno : ¬ (|b1x - b2x| ≤ 1 ∧ |b1y - b2y| ≤ 1))
    (e1x : corner_cell n1.x s2 = c1x) (e1y : corner_cell n1.y s2 = c1y)
    (e2x : corner_cell n2.x s2 = c2x) (e2y : corner_cell n2.y s2 = c2y)
    (hfx : |c1x - c2x| ≤ 1) (hfy : |c1y - c2y| ≤ 1) :
    add_search t r = LoopResult.accepted (d + 1) (min c1x c2x) (min c1y c2y) := by
  have hpos : 0 < s := hs ▸ (by positivity)
  have hpos2 : 0 < s2 := by omega
  subst hs2
  have hfit1 : attempt_fits n1 n2 s = false := by
    rw [attempt_fits_eval h1x h1y h2x h2y hpos f1x f1y f2x f2y]
    rw [← Bool.not_eq_true, Bool.and_eq_true, decide_eq_true_eq, decide_eq_true_eq]
    exact hno
  have hfit2 : attempt_fits n1 n2 (s * 2) = true := by
    rw [attempt_fits_eval h1x h1y h2x h2y hpos2 e1x e1y e2x e2y]
    simp [hfx, hfy]
  unfold add_search
  simp only [hn1, hn2, hd, hs]
  simp only [add_loop, hfit1, hfit2, e1x, e1y, e2x, e2y]
  simp

namespace Test

theorem normalize_l1_first :
    ev_mapping_tree_normalize_coordinates tree0 l1.x1 l1.y1 = ⟨2 ^ 26, 3 * 2 ^ 26⟩ := by
  norm_num [ev_mapping_tree_normalize_coordinates, tree0, ev_mapping_tree_new, rect, l1,
    SMALLEST_QT_UNIT]

theorem normalize_l1_second :
    ev_mapping_tree_normalize_coordinates tree0 l1.x2 l1.y2 =
      ⟨2 ^ 27 - 2 ^ 27 / 1000000000, 305 / 100 * 2 ^ 26⟩ := by
  norm_num [ev_mapping_tree_normalize_coordinates, tree0, ev_mapping_tree_new, rect, l1,
    SMALLEST_QT_UNIT]

theorem add_search_l1 : add_search tree0 l1 = LoopResult.accepted 26 1 3 := by
  have h := add_search_eval_second tree0 l1 25 33554432 67108864
    2 6 4 6 1 3 2 3
    normalize_l1_first normalize_l1_second
    (by norm_num) (by norm_num) (by norm_num) (by norm_num)
    (by
      have := initial_depth_eq (span_of ⟨2 ^ 26, 3 * 2 ^ 26⟩
        ⟨2 ^ 27 - 2 ^ 27 / 1000000000, 305 / 100 * 2 ^ 26⟩) 26 (by norm_num)
        (by norm_num [span_of, abs_of_nonpos]) (by norm_num [span_of, abs_of_nonpos])
      simpa using this)
    (by decide) (by decide)
    (corner_cell_eval (by norm_num) (by norm_num) (by norm_num [margin_of, EXPANSION])
      (by norm_num [margin_of, EXPANSION]))
    (corner_cell_eval (by norm_num) (by norm_num) (by norm_num [margin_of, EXPANSION])
      (by norm_num [margin_of, EXPANSION]))
    (corner_cell_eval (by norm_num) (by norm_num) (by norm_num [margin_of, EXPANSION])
      (by norm_num [margin_of, EXPANSION]))
    (corner_cell_eval (by norm_num) (by norm_num) (by norm_num [margin_of, EXPANSION])
      (by norm_num [margin_of, EXPANSION]))
    (by norm_num)
    (corner_cell_eval (by norm_num) (by norm_num) (by norm_num [margin_of, EXPANSION])
      (by norm_num [margin_of, EXPANSION]))
    (corner_cell_eval (by norm_num) (by norm_num) (by norm_num [margin_of, EXPANSION])
      (by norm_num [margin_of, EXPANSION]))
    (corner_cell_eval (by norm_num) (by norm_num) (by norm_num [margin_of, EXPANSION])
      (by norm_num [margin_of, EXPANSION]))
    (corner_cell_eval (by norm_num) (by norm_num) (by norm_num [margin_of, EXPANSION])
      (by norm_num [margin_of, EXPANSION]))
    (by norm_num) (by norm_num)
  simpa using h

end Test

/-! ## Ranges for rectangles inside the extents -/

theorem normalize_x_le {t : Tree} {x y : ℚ} (hx : t.extents.x1 < t.extents.x2)
    (h : x ≤ t.extents.x2) : (ev_mapping_tree_normalize_coordinates t x y).x ≤ 2 ^ 28 := by
  unfold ev_mapping_tree_normalize_coordinates SMALLEST_QT_UNIT
  have h0 : 0 < t.extents.x2 - t.extents.x1 := by linarith
  have h1 : (x - t.extents.x1) / (t.extents.x2 - t.extents.x1) ≤ 1 := by
    rw [div_le_one h0]; linarith
  simp only [one_div, div_inv_eq_mul]
  nlinarith

theorem normalize_y_le {t : Tree} {x y : ℚ} (hy : t.extents.y1 < t.extents.y2)
    (h : y ≤ t.extents.y2) : (ev_mapping_tree_normalize_coordinates t x y).y ≤ 2 ^ 28 := by
  unfold ev_mapping_tree_normalize_coordinates SMALLEST_QT_UNIT
  have h0 : 0 < t.extents.y2 - t.extents.y1 := by linarith
  have h1 : (y - t.extents.y1) / (t.extents.y2 - t.extents.y1) ≤ 1 := by
    rw [div_le_one h0]; linarith
  simp only [one_div, div_inv_eq_mul]
  nlinarith

theorem initial_depth_le {span : ℚ} (h : span ≤ 2 ^ 28) : initial_depth span ≤ 27 := by
  unfold initial_depth
  split
  · norm_num
  · rename_i h0
    by_cases hp : 0 < span
    · have : ceil_log2 span ≤ 28 := by
        unfold ceil_log2
        exact (Int.le_zpow_iff_clog_le (b := 2) (by norm_num) hp).1 (by exact_mod_cast h)
      exact max_le (by norm_num) (by omega)
    · have : ceil_log2 span ≤ 0 := by
        unfold ceil_log2
        exact le_of_eq (Int.clog_of_right_le_zero 2 (not_lt.1 hp))
      exact max_le (by norm_num) (by omega)

theorem corner_cell_nonneg {n : ℚ} {s : Int} (hn : 0 ≤ n) (hs : 0 < s) :
    0 ≤ corner_cell n s := by
  have hs' : (0 : ℚ) < s := by exact_mod_cast hs
  have hm := margin_of_nonneg hs
  rw [corner_cell_eq_floor hn hs]
  exact Int.floor_nonneg.2 (div_nonneg (by linarith) hs'.le)

theorem corner_cell_le {n : ℚ} {s : Int} (hn : 0 ≤ n) (hs : 0 < s) (h : n ≤ 2 ^ 28) :
    corner_cell n s ≤ 2 ^ 28 := by
  have hs' : (0 : ℚ) < s := by exact_mod_cast hs
  have hs1 : (1 : ℚ) ≤ s := by exact_mod_cast hs
  rw [corner_cell_eq_floor hn hs]
  have h1 := Int.floor_le ((n + margin_of s) / (s : ℚ))
  have h2 : (n + margin_of s) / (s : ℚ) < 2 ^ 28 + 1 := by
    rw [div_lt_iff₀ hs']
    unfold margin_of EXPANSION
    nlinarith
  have h3 : ((⌊(n + margin_of s) / (s : ℚ)⌋ : Int) : ℚ) < ((2 ^ 28 + 1 : Int) : ℚ) := by
    push_cast; linarith
  have h4 : ⌊(n + margin_of s) / (s : ℚ)⌋ < 2 ^ 28 + 1 := by exact_mod_cast h3
  omega

theorem span_of_le {n1 n2 : EvPoint} (h1x : 0 ≤ n1.x) (h1y : 0 ≤ n1.y) (h2x : 0 ≤ n2.x)
    (h2y : 0 ≤ n2.y) (b1x : n1.x ≤ 2 ^ 28) (b1y : n1.y ≤ 2 ^ 28) (b2x : n2.x ≤ 2 ^ 28)
    (b2y : n2.y ≤ 2 ^ 28) : span_of n1 n2 ≤ 2 ^ 28 := by
  unfold span_of
  exact max_le (abs_le.2 ⟨by linarith, by linarith⟩) (abs_le.2 ⟨by linarith, by linarith⟩)

theorem add_search_extents (t t1 : Tree) (h : t1.extents = t.extents) (r : EvRectangle) :
    add_search t1 r = add_search t r := by
  unfold add_search ev_mapping_tree_normalize_coordinates
  rw [h]

theorem store_pair_extents (t : Tree) (p : ItemHitFunctionPair) (d cx cy : Int) :
    (store_pair t p d cx cy).extents = t.extents := rfl

theorem add_in_extents (t : Tree) (addr item : gpointer) (r : EvRectangle)
    (hit_func : EvMappingTreeHitFunction) (data : gpointer)
    (hx : t.extents.x1 < t.extents.x2) (hy : t.extents.y1 < t.extents.y2)
    (h1 : ev_mapping_tree_in_extents t r.x1 r.y1 = true)
    (h2 : ev_mapping_tree_in_extents t r.x2 r.y2 = true) :
    ∃ d s : Int,
      (d = initial_depth (span_of (ev_mapping_tree_normalize_coordinates t r.x1 r.y1)
            (ev_mapping_tree_normalize_coordinates t r.x2 r.y2)) ∨
        d = initial_depth (span_of (ev_mapping_tree_normalize_coordinates t r.x1 r.y1)
            (ev_mapping_tree_normalize_coordinates t r.x2 r.y2)) + 1) ∧
      s = 2 ^ d.toNat ∧ 0 ≤ d ∧ d ≤ 28 ∧
      attempt_fits (ev_mapping_tree_normalize_coordinates t r.x1 r.y1)
        (ev_mapping_tree_normalize_coordinates t r.x2 r.y2) s = true ∧
      0 ≤ min (corner_cell (ev_mapping_tree_normalize_coordinates t r.x1 r.y1).x s)
          (corner_cell (ev_mapping_tree_normalize_coordinates t r.x2 r.y2).x s) ∧
      min (corner_cell (ev_mapping_tree_normalize_coordinates t r.x1 r.y1).x s)
          (corner_cell (ev_mapping_tree_normalize_coordinates t r.x2 r.y2).x s) ≤ 2 ^ 28 ∧
      0 ≤ min (corner_cell (ev_mapping_tree_normalize_coordinates t r.x1 r.y1).y s)
          (corner_cell (ev_mapping_tree_normalize_coordinates t r.x2 r.y2).y s) ∧
      min (corner_cell (ev_mapping_tree_normalize_coordinates t r.x1 r.y1).y s)
          (corner_cell (ev_mapping_tree_normalize_coordinates t r.x2 r.y2).y s) ≤ 2 ^ 28 ∧
      ev_mapping_tree_add t addr item r hit_func data =
        AddResult.returned
          (store_pair t { addr := addr, hit_func := hit_func, item := item, data := data } d
            (min (corner_cell (ev_mapping_tree_normalize_coordinates t r.x1 r.y1).x s)
              (corner_cell (ev_mapping_tree_normalize_coordinates t r.x2 r.y2).x s))
            (min (corner_cell (ev_mapping_tree_normalize_coordinates t r.x1 r.y1).y s)
              (corner_cell (ev_mapping_tree_normalize_coordinates t r.x2 r.y2).y s)))
          (d * 2 ^ 58 +
            min (corner_cell (ev_mapping_tree_normalize_coordinates t r.x1 r.y1).x s)
              (corner_cell (ev_mapping_tree_normalize_coordinates t r.x2 r.y2).x s) * 2 ^ 29 +
            min (corner_cell (ev_mapping_tree_normalize_coordinates t r.x1 r.y1).y s)
              (corner_cell (ev_mapping_tree_normalize_coordinates t r.x2 r.y2).y s)) := by
  obtain ⟨d, s, hd, hs, hfit, hsearch⟩ := add_search_cases t r hx hy h1 h2
  rw [in_extents_iff] at h1 h2
  have h1x := normalize_x_nonneg (y := r.y1) hx h1.1
  have h1y := normalize_y_nonneg (x := r.x1) hy h1.2.2.1
  have h2x := normalize_x_nonneg (y := r.y2) hx h2.1
  have h2y := normalize_y_nonneg (x := r.x2) hy h2.2.2.1
  have b1x := normalize_x_le (y := r.y1) hx h1.2.1
  have b1y := normalize_y_le (x := r.x1) hy h1.2.2.2
  have b2x := normalize_x_le (y := r.y2) hx h2.2.1
  have b2y := normalize_y_le (x := r.x2) hy h2.2.2.2
  have hd0 := initial_depth_nonneg (span_of (ev_mapping_tree_normalize_coordinates t r.x1 r.y1)
    (ev_mapping_tree_normalize_coordinates t r.x2 r.y2))
  have hd27 := initial_depth_le (span_of_le h1x h1y h2x h2y b1x b1y b2x b2y)
  have hdn : 0 ≤ d := by omega
  have hdl : d ≤ 28 := by omega
  have hspos : 0 < s := hs ▸ (by positivity)
  have c1 := corner_cell_nonneg h1x hspos
  have c2 := corner_cell_nonneg h1y hspos
  have c3 := corner_cell_nonneg h2x hspos
  have c4 := corner_cell_nonneg h2y hspos
  have e1 := corner_cell_le h1x hspos b1x
  have e2 := corner_cell_le h1y hspos b1y
  have hcx0 := le_min c1 c3
  have hcy0 := le_min c2 c4
  have hcx1 := le_trans (min_le_left _ (corner_cell
    (ev_mapping_tree_normalize_coordinates t r.x2 r.y2).x s)) e1
  have hcy1 := le_trans (min_le_left _ (corner_cell
    (ev_mapping_tree_normalize_coordinates t r.x2 r.y2).y s)) e2
  refine ⟨d, s, hd, hs, hdn, hdl, hfit, hcx0, hcx1, hcy0, hcy1, ?_⟩
  unfold ev_mapping_tree_add
  rw [hsearch]
  simp only
  rw [make_cell_coordinates_of_range hdn hdl hcx0 (by omega) hcy0 (by omega)]


theorem add_of_search {t : Tree} {addr item : gpointer} {r : EvRectangle}
    {hit_func : EvMappingTreeHitFunction} {data : gpointer} {d cx cy : Int}
    (h : add_search t r = LoopResult.accepted d cx cy) :
    ev_mapping_tree_add t addr item r hit_func data =
      AddResult.returned
        (store_pair t { addr := addr, hit_func := hit_func, item := item, data := data }
          d cx cy)
        (make_cell_coordinates d cx cy) := by
  unfold ev_mapping_tree_add
  rw [h]

namespace Test

theorem normalize_l2_first :
    ev_mapping_tree_normalize_coordinates tree0 l2.x1 l2.y1 =
      ⟨27 / 100 * 2 ^ 27, 3 * 2 ^ 26⟩ := by
  norm_num [ev_mapping_tree_normalize_coordinates, tree0, ev_mapping_tree_new, rect, l2,
    SMALLEST_QT_UNIT]

theorem normalize_l2_second :
    ev_mapping_tree_normalize_coordinates tree0 l2.x2 l2.y2 =
      ⟨2 ^ 27 - 2 ^ 27 / 1000000000, 305 / 100 * 2 ^ 26⟩ := by
  norm_num [ev_mapping_tree_normalize_coordinates, tree0, ev_mapping_tree_new, rect, l2,
    SMALLEST_QT_UNIT]

theorem add_search_l2 : add_search tree0 l2 = LoopResult.accepted 26 1 3 := by
  have h := add_search_eval_first tree0 l2 26 67108864
    1 3 2 3
    normalize_l2_first normalize_l2_second
    (by norm_num) (by norm_num) (by norm_num) (by norm_num)
    (by
      have := initial_depth_eq (span_of ⟨27 / 100 * 2 ^ 27, 3 * 2 ^ 26⟩
        ⟨2 ^ 27 - 2 ^ 27 / 1000000000, 305 / 100 * 2 ^ 26⟩) 27 (by norm_num)
        (by norm_num [span_of, abs_of_nonpos]) (by norm_num [span_of, abs_of_nonpos])
      simpa using this)
    (by decide)
    (corner_cell_eval (by norm_num) (by norm_num) (by norm_num [margin_of, EXPANSION])
      (by norm_num [margin_of, EXPANSION]))
    (corner_cell_eval (by norm_num) (by norm_num) (by norm_num [margin_of, EXPANSION])
      (by norm_num [margin_of, EXPANSION]))
    (corner_cell_eval (by norm_num) (by norm_num) (by norm_num [margin_of, EXPANSION])
      (by norm_num [margin_of, EXPANSION]))
    (corner_cell_eval (by norm_num) (by norm_num) (by norm_num [margin_of, EXPANSION])
      (by norm_num [margin_of, EXPANSION]))
    (by norm_num) (by norm_num)
  simpa using h

theorem key_26_1_3 :
    make_cell_coordinates 26 1 3 = (((26 <<< 58 ||| 1 <<< 29 ||| 3 : Nat)) : Int) := by
  rw [make_cell_coordinates_of_range (by decide) (by decide) (by decide) (by decide)
    (by decide) (by decide)]
  simp

theorem add_l1 (a1 : gpointer) :
    ev_mapping_tree_add tree0 a1 addr_l1 l1 (is_on_line rect_at) NULL =
      AddResult.returned (tree1 a1) (((26 <<< 58 ||| 1 <<< 29 ||| 3 : Nat)) : Int) := by
  rw [add_of_search add_search_l1, key_26_1_3]
  rfl

theorem add_l2 (a1 a2 : gpointer) :
    ev_mapping_tree_add (tree1 a1) a2 addr_l2 l2 (is_on_line rect_at) NULL =
      AddResult.returned (tree2 a1 a2) (((26 <<< 58 ||| 1 <<< 29 ||| 3 : Nat)) : Int) := by
  have h : add_search (tree1 a1) l2 = LoopResult.accepted 26 1 3 := by
    rw [add_search_extents tree0 (tree1 a1) rfl, add_search_l2]
  rw [add_of_search h, key_26_1_3]
  rfl

end Test


namespace Test

theorem tree0_extents_x : tree0.extents.x1 < tree0.extents.x2 := by
  norm_num [tree0, ev_mapping_tree_new, rect]

theorem tree0_extents_y : tree0.extents.y1 < tree0.extents.y2 := by
  norm_num [tree0, ev_mapping_tree_new, rect]

theorem l1_first_in_extents : ev_mapping_tree_in_extents tree0 l1.x1 l1.y1 = true := by
  norm_num [ev_mapping_tree_in_extents, tree0, ev_mapping_tree_new, rect, l1]

theorem l1_second_in_extents : ev_mapping_tree_in_extents tree0 l1.x2 l1.y2 = true := by
  norm_num [ev_mapping_tree_in_extents, tree0, ev_mapping_tree_new, rect, l1]

end Test

/-- Witness of C3: the first insertion of the test (segment `l1` into the new
index) satisfies the hypotheses, and is accepted. -/
theorem add_depth_convergence_witness :
    Test.tree0.extents.x1 < Test.tree0.extents.x2 ∧
    Test.tree0.extents.y1 < Test.tree0.extents.y2 ∧
    ev_mapping_tree_in_extents Test.tree0 Test.l1.x1 Test.l1.y1 = true ∧
    ev_mapping_tree_in_extents Test.tree0 Test.l1.x2 Test.l1.y2 = true ∧
    ∃ d cx cy : Int,
      add_search Test.tree0 Test.l1 = LoopResult.accepted d cx cy ∧
      ev_mapping_tree_add Test.tree0 8192 Test.addr_l1 Test.l1 (Test.is_on_line Test.rect_at)
          NULL =
        AddResult.returned
          (store_pair Test.tree0 (Test.pair1 8192) d cx cy) (make_cell_coordinates d cx cy) := by
  refine ⟨Test.tree0_extents_x, Test.tree0_extents_y, Test.l1_first_in_extents,
    Test.l1_second_in_extents, ?_⟩
  obtain ⟨d, cx, cy, -, h1, -, -, h2⟩ :=
    add_depth_convergence Test.tree0 8192 Test.addr_l1 Test.l1 (Test.is_on_line Test.rect_at)
      NULL Test.tree0_extents_x Test.tree0_extents_y Test.l1_first_in_extents
      Test.l1_second_in_extents
  exact ⟨d, cx, cy, h1, h2⟩


/-! ## Query: the scan and the candidate cells -/

theorem scan_cell_some {x y : ℚ} {cell : List ItemHitFunctionPair} {item : gpointer}
    (h : scan_cell x y cell = some item) :
    ∃ p ∈ cell, p.item = item ∧ p.hit_func p.item x y p.data = true := by
  induction cell with
  | nil => simp [scan_cell] at h
  | cons p cell ih =>
    unfold scan_cell at h
    by_cases hp : p.hit_func p.item x y p.data = true
    · rw [if_pos hp] at h
      exact ⟨p, List.mem_cons_self _ _, Option.some.inj h, hp⟩
    · rw [if_neg hp] at h
      obtain ⟨q, hq, hq1, hq2⟩ := ih h
      exact ⟨q, List.mem_cons_of_mem _ hq, hq1, hq2⟩

theorem scan_cell_eq_none {x y : ℚ} {cell : List ItemHitFunctionPair} :
    scan_cell x y cell = none ↔ ∀ p ∈ cell, p.hit_func p.item x y p.data = false := by
  induction cell with
  | nil => simp [scan_cell]
  | cons p cell ih =>
    unfold scan_cell
    by_cases hp : p.hit_func p.item x y p.data = true
    · simp [hp]
    · simp [hp, ih]

theorem scan_cells_some {x y : ℚ} {list : List (List ItemHitFunctionPair)} {item : gpointer}
    (h : scan_cells x y list = some item) :
    ∃ cell ∈ list, ∃ p ∈ cell, p.item = item ∧ p.hit_func p.item x y p.data = true := by
  induction list with
  | nil => simp [scan_cells] at h
  | cons cell list ih =>
    unfold scan_cells at h
    cases hc : scan_cell x y cell with
    | some r =>
      rw [hc] at h
      obtain ⟨p, hp, hp1, hp2⟩ := scan_cell_some hc
      exact ⟨cell, List.mem_cons_self _ _, p, hp, hp1.trans (Option.some.inj h), hp2⟩
    | none =>
      rw [hc] at h
      obtain ⟨c, hcm, p, hp, hp1, hp2⟩ := ih h
      exact ⟨c, List.mem_cons_of_mem _ hcm, p, hp, hp1, hp2⟩

theorem scan_cells_eq_none {x y : ℚ} {list : List (List ItemHitFunctionPair)} :
    scan_cells x y list = none ↔
      ∀ cell ∈ list, ∀ p ∈ cell, p.hit_func p.item x y p.data = false := by
  induction list with
  | nil => simp [scan_cells]
  | cons cell list ih =>
    unfold scan_cells
    cases hc : scan_cell x y cell with
    | some r =>
      obtain ⟨p, hp, -, hp2⟩ := scan_cell_some hc
      simp only [false_iff, reduceCtorEq]
      intro hall
      have := hall cell (List.mem_cons_self _ _) p hp
      rw [hp2] at this
      exact Bool.noConfusion this
    | none =>
      simp only [List.mem_cons, forall_eq_or_imp, ih]
      rw [scan_cell_eq_none] at hc
      exact ⟨fun h => ⟨hc, h⟩, fun h => h.2⟩

theorem mem_foldl_TEST {t : Tree} {i : Nat} {l : List ItemHitFunctionPair}
    (coords : List (Int × Int)) (acc : List (List ItemHitFunctionPair)) :
    l ∈ coords.foldl (TEST_AND_ADD_COORDS t i) acc ↔
      l ∈ acc ∨ ∃ c ∈ coords, t.cell_index (make_cell_coordinates i c.1 c.2) = some l := by
  induction coords generalizing acc with
  | nil => simp
  | cons c coords ih =>
    rw [List.foldl_cons, ih]
    unfold TEST_AND_ADD_COORDS
    cases hc : t.cell_index (make_cell_coordinates i c.1 c.2) with
    | none =>
      simp only [List.mem_cons, exists_eq_or_imp, hc, reduceCtorEq, false_or]
    | some cell =>
      simp only [List.mem_cons, exists_eq_or_imp, hc, Option.some.injEq]
      constructor
      · rintro ((h | h) | h)
        · exact Or.inr (Or.inl h.symm)
        · exact Or.inl h
        · exact Or.inr (Or.inr h)
      · rintro (h | h | h)
        · exact Or.inl (Or.inr h)
        · exact Or.inl (Or.inl h.symm)
        · exact Or.inr h

theorem mem_cells_at_depth {t : Tree} {x y : ℚ} {i : Nat} {l : List ItemHitFunctionPair}
    (acc : List (List ItemHitFunctionPair)) :
    l ∈ cells_at_depth t x y acc i ↔
      l ∈ acc ∨ (t.depth_mask.getD i false = true ∧
        ∃ c ∈ candidate_coords x y i, t.cell_index (make_cell_coordinates i c.1 c.2) = some l) := by
  unfold cells_at_depth
  by_cases hm : t.depth_mask.getD i false = true
  · rw [if_pos hm, mem_foldl_TEST]
    simp only [hm, true_and]
  · rw [if_neg hm]
    constructor
    · exact fun h => Or.inl h
    · rintro (h | ⟨h, -⟩)
      · exact h
      · exact absurd h hm

theorem mem_foldl_cells_at_depth {t : Tree} {x y : ℚ} {l : List ItemHitFunctionPair}
    (depths : List Nat) (acc : List (List ItemHitFunctionPair)) :
    l ∈ depths.foldl (cells_at_depth t x y) acc ↔
      l ∈ acc ∨ ∃ i ∈ depths, t.depth_mask.getD i false = true ∧
        ∃ c ∈ candidate_coords x y i, t.cell_index (make_cell_coordinates i c.1 c.2) = some l := by
  induction depths generalizing acc with
  | nil => simp
  | cons i depths ih =>
    rw [List.foldl_cons, ih, mem_cells_at_depth]
    simp only [List.mem_cons, exists_eq_or_imp]
    constructor
    · rintro ((h | h) | h)
      · exact Or.inl h
      · exact Or.inr (Or.inl h)
      · exact Or.inr (Or.inr h)
    · rintro (h | h | h)
      · exact Or.inl (Or.inl h)
      · exact Or.inl (Or.inr h)
      · exact Or.inr h

theorem mem_generate_valid_cells {t : Tree} {x y : ℚ} {l : List ItemHitFunctionPair} :
    l ∈ generate_valid_cells t x y ↔
      ∃ i, i < MAX_DEPTH ∧ t.depth_mask.getD i false = true ∧
        ∃ c ∈ candidate_coords x y i, t.cell_index (make_cell_coordinates i c.1 c.2) = some l := by
  unfold generate_valid_cells
  rw [mem_foldl_cells_at_depth]
  simp only [List.not_mem_nil, false_or, List.mem_range]

theorem get_outside (t : Tree) (x y : ℚ) (h : ev_mapping_tree_in_extents t x y = false) :
    ev_mapping_tree_get t x y = NULL := by
  simp [ev_mapping_tree_get, h]

theorem get_eq_NULL_of_no_hit (t : Tree) (x y : ℚ)
    (h : ∀ cell ∈ generate_valid_cells t (ev_mapping_tree_normalize_coordinates t x y).x
        (ev_mapping_tree_normalize_coordinates t x y).y,
      ∀ p ∈ cell, p.hit_func p.item x y p.data = false) :
    ev_mapping_tree_get t x y = NULL := by
  unfold ev_mapping_tree_get
  split
  · rw [← scan_cells_eq_none] at h
    simp only [h]
  · rfl

theorem get_ne_NULL (t : Tree) (x y : ℚ) (hin : ev_mapping_tree_in_extents t x y = true)
    (cell : List ItemHitFunctionPair) (p : ItemHitFunctionPair)
    (hcell : cell ∈ generate_valid_cells t (ev_mapping_tree_normalize_coordinates t x y).x
        (ev_mapping_tree_normalize_coordinates t x y).y)
    (hp : p ∈ cell) (hhit : p.hit_func p.item x y p.data = true)
    (hnn : ∀ c ∈ generate_valid_cells t (ev_mapping_tree_normalize_coordinates t x y).x
        (ev_mapping_tree_normalize_coordinates t x y).y, ∀ q ∈ c, q.item ≠ NULL) :
    ev_mapping_tree_get t x y ≠ NULL := by
  unfold ev_mapping_tree_get
  rw [if_pos hin]
  simp only
  cases hs : scan_cells x y (generate_valid_cells t
      (ev_mapping_tree_normalize_coordinates t x y).x
      (ev_mapping_tree_normalize_coordinates t x y).y) with
  | none =>
    rw [scan_cells_eq_none] at hs
    have := hs cell hcell p hp
    rw [hhit] at this
    exact Bool.noConfusion this
  | some r =>
    obtain ⟨c, hc, q, hq, hq1, -⟩ := scan_cells_some hs
    simp only
    rw [← hq1]
    exact hnn c hc q hq


theorem home_cell_eval {x : ℚ} {i : Nat} {c : Int} (hx : 0 ≤ x)
    (h1 : (c : ℚ) * 2 ^ i ≤ x) (h2 : x < ((c : ℚ) + 1) * 2 ^ i) : home_cell x i = c := by
  unfold home_cell
  rw [to_int_of_nonneg hx]
  have hp : (0 : Int) < 2 ^ i := by positivity
  have hz : 0 ≤ ⌊x⌋ := Int.floor_nonneg.2 hx
  rw [Int.tdiv_eq_ediv hz hp.le]
  have a1 : c * 2 ^ i ≤ ⌊x⌋ := by
    rw [Int.le_floor]; push_cast; exact h1
  have a2 : ⌊x⌋ < (c + 1) * 2 ^ i := by
    rw [Int.floor_lt]; push_cast; exact h2
  apply le_antisymm
  · have := Int.ediv_lt_of_lt_mul hp a2
    omega
  · exact Int.le_ediv_of_mul_le hp a1

theorem max_cell_eq {i : Nat} (hi : i ≤ 28) : max_cell i = 2 ^ (28 - i) := by
  unfold max_cell MAX_DEPTH
  rw [Int.tdiv_eq_ediv (by positivity) (by positivity)]
  apply Int.ediv_eq_of_eq_mul_left (by positivity)
  rw [← pow_add]
  congr 1
  omega

theorem max_cell_27 : max_cell 27 = 2 := max_cell_eq (by decide)

theorem max_cell_26 : max_cell 26 = 4 := max_cell_eq (by decide)


theorem home_mem_candidates (x y : ℚ) (i : Nat) :
    (home_cell x i, home_cell y i) ∈ candidate_coords x y i := by
  simp [candidate_coords]

theorem right_mem_candidates {x y : ℚ} {i : Nat} (hl : ov_left x i = false)
    (hr : ov_right x i = true) :
    (home_cell x i + 1, home_cell y i) ∈ candidate_coords x y i := by
  simp [candidate_coords, hl, hr]

theorem left_mem_candidates {x y : ℚ} {i : Nat} (hl : ov_left x i = true) :
    (home_cell x i - 1, home_cell y i) ∈ candidate_coords x y i := by
  simp [candidate_coords, hl]

theorem candidate_coords_cases {x y : ℚ} {i : Nat} {c : Int × Int}
    (h : c ∈ candidate_coords x y i) :
    (c.1 = home_cell x i ∨ (c.1 = home_cell x i - 1 ∧ ov_left x i = true) ∨
        (c.1 = home_cell x i + 1 ∧ ov_right x i = true)) ∧
      (c.2 = home_cell y i ∨ (c.2 = home_cell y i - 1 ∧ ov_lower y i = true) ∨
        (c.2 = home_cell y i + 1 ∧ ov_upper y i = true)) := by
  unfold candidate_coords diagonal_coords at h
  by_cases h1 : ov_left x i = true <;> by_cases h2 : ov_right x i = true <;>
    by_cases h3 : ov_upper y i = true <;> by_cases h4 : ov_lower y i = true <;>
    simp only [h1, h2, h3, h4, if_true, if_false, List.mem_append, List.mem_cons,
      List.mem_singleton, List.not_mem_nil, or_false, false_or, Bool.false_eq_true,
      or_assoc] at h <;>
    aesop


/-! ## The key pointers of `cell_index` -/

theorem released_key_of_unmapped {t : Tree} {item : gpointer} (coords : Int)
    (h : t.reverse_index item = none) : released_key t item coords = none := by
  unfold released_key
  rw [h]

theorem released_key_ne {t : Tree} {item : gpointer} {coords k : Int}
    (h : released_key t item coords = some k) :
    k ≠ coords ∧ t.reverse_index item = some k ∧
      ∃ head rest, t.cell_index k = some (head :: rest) ∧ head.item = item := by
  unfold released_key at h
  cases hr : t.reverse_index item with
  | none => rw [hr] at h; simp at h
  | some old =>
    rw [hr] at h
    simp only at h
    by_cases ho : old = coords
    · rw [if_pos ho] at h; simp at h
    · rw [if_neg ho] at h
      cases hc : t.cell_index old with
      | none => rw [hc] at h; simp at h
      | some l =>
        rw [hc] at h
        cases l with
        | nil => simp at h
        | cons head rest =>
          simp only at h
          by_cases hi : head.item = item
          · rw [if_pos hi] at h
            have hk : old = k := Option.some.inj h
            subst hk
            exact ⟨ho, rfl, head, rest, hc, hi⟩
          · rw [if_neg hi] at h; simp at h

theorem forget_key_apply (cells : Int → Option (List ItemHitFunctionPair)) (r : Option Int)
    (k : Int) : forget_key cells r k = if r = some k then none else cells k := by
  cases r with
  | none => simp [forget_key]
  | some j =>
    by_cases hj : k = j
    · subst hj; simp [forget_key]
    · have : ¬ j = k := fun e => hj e.symm
      simp [forget_key, Function.update_noteq hj, this]

theorem cell_index_store_pair (t : Tree) (p : ItemHitFunctionPair) (d cx cy k : Int) :
    (store_pair t p d cx cy).cell_index k =
      if released_key t p.item (make_cell_coordinates d cx cy) = some k then none
      else if k = make_cell_coordinates d cx cy then
        some (p :: (t.cell_index (make_cell_coordinates d cx cy)).getD [])
      else t.cell_index k := by
  simp only [store_pair, forget_key_apply, Function.update_apply]

theorem cell_index_store_pair_unmapped {t : Tree} {p : ItemHitFunctionPair} (d cx cy : Int)
    (h : t.reverse_index p.item = none) :
    (store_pair t p d cx cy).cell_index =
      Function.update t.cell_index (make_cell_coordinates d cx cy)
        (some (p :: (t.cell_index (make_cell_coordinates d cx cy)).getD [])) := by
  simp only [store_pair, released_key_of_unmapped _ h, forget_key]

theorem cell_index_remove_apply (cells : Int → Option (List ItemHitFunctionPair))
    (coords k : Int) :
    forget_key cells (some coords) k = if k = coords then none else cells k := by
  simp only [forget_key, Function.update_apply]

namespace Test

theorem tree2_mask (a1 a2 : gpointer) : (tree2 a1 a2).depth_mask.getD 26 false = true := by
  rfl

theorem tree1_cell_index (a1 : gpointer) :
    (tree1 a1).cell_index =
      Function.update (fun _ => none) (make_cell_coordinates 26 1 3) (some [pair1 a1]) := by
  unfold tree1
  rw [cell_index_store_pair_unmapped 26 1 3 (show tree0.reverse_index (pair1 a1).item = none
    from rfl)]
  rfl

theorem tree1_reverse_l2 (a1 a2 : gpointer) :
    (tree1 a1).reverse_index (pair2 a2).item = none := by
  have hne : (pair2 a2).item ≠ (pair1 a1).item := show addr_l2 ≠ addr_l1 by decide
  simp only [tree1, store_pair, Function.update_noteq hne]
  rfl

theorem tree2_cell_index (a1 a2 : gpointer) :
    (tree2 a1 a2).cell_index =
      Function.update (fun _ => none) (make_cell_coordinates 26 1 3)
        (some [pair2 a2, pair1 a1]) := by
  unfold tree2
  rw [cell_index_store_pair_unmapped 26 1 3 (tree1_reverse_l2 a1 a2), tree1_cell_index,
    Function.update_same, Function.update_idem]
  rfl

theorem tree2_cell (a1 a2 : gpointer) :
    (tree2 a1 a2).cell_index (make_cell_coordinates 26 1 3) = some [pair2 a2, pair1 a1] := by
  rw [tree2_cell_index, Function.update_same]

theorem tree2_cells (a1 a2 : gpointer) (k : Int) (l : List ItemHitFunctionPair)
    (h : (tree2 a1 a2).cell_index k = some l) : l = [pair2 a2, pair1 a1] := by
  by_cases hk : k = make_cell_coordinates 26 1 3
  · rw [hk, tree2_cell] at h
    exact (Option.some.inj h).symm
  · rw [tree2_cell_index, Function.update_noteq hk] at h
    simp at h

theorem tree2_in_extents (a1 a2 : gpointer) (x y : ℚ) :
    ev_mapping_tree_in_extents (tree2 a1 a2) x y = ev_mapping_tree_in_extents tree0 x y := rfl

theorem tree2_normalize (a1 a2 : gpointer) (x y : ℚ) :
    ev_mapping_tree_normalize_coordinates (tree2 a1 a2) x y =
      ⟨(x + 1) * 2 ^ 27, (y + 2) * 2 ^ 26⟩ := by
  simp only [ev_mapping_tree_normalize_coordinates, tree2, tree1, store_pair, tree0,
    ev_mapping_tree_new, rect, SMALLEST_QT_UNIT, EvPoint.mk.injEq]
  constructor <;> ring

end Test


theorem ov_left_false_of_home_zero {x : ℚ} {i : Nat} (hc : home_cell x i = 0) :
    ov_left x i = false := by
  simp [ov_left, hc]

theorem ov_lower_false_of_home_zero {y : ℚ} {i : Nat} (hc : home_cell y i = 0) :
    ov_lower y i = false := by
  simp [ov_lower, hc]

theorem ov_left_false_of_residual {x : ℚ} {i : Nat} {c : Int} (hc : home_cell x i = c)
    (hr : EXPANSION * ((2 : ℚ) ^ i * (1 / 2)) < x - (c : ℚ) * 2 ^ i) : ov_left x i = false := by
  have hp : (0 : ℚ) < (2 : ℚ) ^ i * (1 / 2) := by positivity
  have : ¬ (home_residual x i / (((2 ^ i : Int) : ℚ) * (1 / 2)) ≤ EXPANSION) := by
    unfold home_residual
    rw [hc]
    push_cast
    rw [div_le_iff₀ hp]
    linarith
  unfold ov_left
  rw [decide_eq_false this, Bool.and_false]

theorem ov_right_eval {x : ℚ} {i : Nat} {c : Int} (hc : home_cell x i = c)
    (hl : ov_left x i = false) (hm : c < max_cell i - 1)
    (hr : (2 : ℚ) ^ i - (x - (c : ℚ) * 2 ^ i) ≤ EXPANSION * ((2 : ℚ) ^ i * (1 / 2))) :
    ov_right x i = true := by
  have hp : (0 : ℚ) < (2 : ℚ) ^ i * (1 / 2) := by positivity
  have : (((2 ^ i : Int) : ℚ) - home_residual x i) / (((2 ^ i : Int) : ℚ) * (1 / 2))
      ≤ EXPANSION := by
    unfold home_residual
    rw [hc]
    push_cast
    rw [div_le_iff₀ hp]
    exact hr
  simp only [ov_right, hl, hc, hm, this, Bool.not_false, decide_True, Bool.and_self]

theorem ov_right_false_of_edge {x : ℚ} {i : Nat} {c : Int} (hc : home_cell x i = c)
    (hm : ¬ c < max_cell i - 1) : ov_right x i = false := by
  simp [ov_right, hc, hm]

namespace Test

theorem tree2_probe (a1 a2 : gpointer) (x y : ℚ)
    (hx1 : 5005 / 10000 * 2 ^ 26 ≤ (x + 1) * 2 ^ 27) (hx2 : (x + 1) * 2 ^ 27 < 2 ^ 26)
    (hy1 : 3 * 2 ^ 26 ≤ (y + 2) * 2 ^ 26) (hy2 : (y + 2) * 2 ^ 26 < 4 * 2 ^ 26) :
    [pair2 a2, pair1 a1] ∈ generate_valid_cells (tree2 a1 a2)
      (ev_mapping_tree_normalize_coordinates (tree2 a1 a2) x y).x
      (ev_mapping_tree_normalize_coordinates (tree2 a1 a2) x y).y := by
  rw [tree2_normalize]
  simp only
  have hcx : home_cell ((x + 1) * 2 ^ 27) 26 = 0 :=
    home_cell_eval (by linarith) (by push_cast; linarith) (by push_cast; linarith)
  have hcy : home_cell ((y + 2) * 2 ^ 26) 26 = 3 :=
    home_cell_eval (by linarith) (by push_cast; linarith) (by push_cast; linarith)
  have hl := ov_left_false_of_home_zero hcx
  have hr : ov_right ((x + 1) * 2 ^ 27) 26 = true :=
    ov_right_eval hcx hl (by rw [max_cell_26]; decide)
      (by unfold EXPANSION; push_cast; linarith)
  have hmem := right_mem_candidates (y := (y + 2) * 2 ^ 26) hl hr
  rw [hcx, hcy] at hmem
  rw [mem_generate_valid_cells]
  exact ⟨26, by decide, tree2_mask a1 a2, (0 + 1, 3), hmem, tree2_cell a1 a2⟩

end Test

namespace Test

theorem hit_l2_at_start : is_on_line rect_at addr_l2 (-73 / 100) 1 NULL = true := by
  norm_num [is_on_line, rect_at, addr_l1, addr_l2, l2, squared_distance]

theorem hit_l2_on_line : is_on_line rect_at addr_l2 (-53 / 100) 1 NULL = true := by
  norm_num [is_on_line, rect_at, addr_l1, addr_l2, l2, squared_distance]

theorem hit_l2_above : is_on_line rect_at addr_l2 (-53 / 100) (105 / 100) NULL = true := by
  norm_num [is_on_line, rect_at, addr_l1, addr_l2, l2, squared_distance]

theorem miss_l2_far : is_on_line rect_at addr_l2 (-53 / 100) (12 / 10) NULL = false := by
  norm_num [is_on_line, rect_at, addr_l1, addr_l2, l2, squared_distance]

theorem miss_l1_far : is_on_line rect_at addr_l1 (-53 / 100) (12 / 10) NULL = false := by
  norm_num [is_on_line, rect_at, addr_l1, addr_l2, l1, squared_distance]

end Test

theorem scan_cells_of_all_eq {x y : ℚ} {list : List (List ItemHitFunctionPair)}
    {cell : List ItemHitFunctionPair} {r : gpointer} (hmem : cell ∈ list)
    (hall : ∀ c ∈ list, c = cell) (hr : scan_cell x y cell = some r) :
    scan_cells x y list = some r := by
  cases list with
  | nil => simp at hmem
  | cons c rest =>
    have hc : c = cell := hall c (List.mem_cons_self _ _)
    unfold scan_cells
    rw [hc, hr]

namespace Test

theorem tree2_get_l2 (a1 a2 : gpointer) (x y : ℚ)
    (hin : ev_mapping_tree_in_extents tree0 x y = true)
    (hx1 : 5005 / 10000 * 2 ^ 26 ≤ (x + 1) * 2 ^ 27) (hx2 : (x + 1) * 2 ^ 27 < 2 ^ 26)
    (hy1 : 3 * 2 ^ 26 ≤ (y + 2) * 2 ^ 26) (hy2 : (y + 2) * 2 ^ 26 < 4 * 2 ^ 26)
    (hhit : is_on_line rect_at addr_l2 x y NULL = true) :
    ev_mapping_tree_get (tree2 a1 a2) x y = addr_l2 := by
  have hmem := tree2_probe a1 a2 x y hx1 hx2 hy1 hy2
  have hall : ∀ c ∈ generate_valid_cells (tree2 a1 a2)
      (ev_mapping_tree_normalize_coordinates (tree2 a1 a2) x y).x
      (ev_mapping_tree_normalize_coordinates (tree2 a1 a2) x y).y,
      c = [pair2 a2, pair1 a1] := by
    intro c hc
    rw [mem_generate_valid_cells] at hc
    obtain ⟨i, -, -, k, -, hk⟩ := hc
    exact tree2_cells a1 a2 _ _ hk
  have hscan : scan_cell x y [pair2 a2, pair1 a1] = some addr_l2 := by
    unfold scan_cell
    rw [if_pos (show (pair2 a2).hit_func (pair2 a2).item x y (pair2 a2).data = true from hhit)]
    rfl
  unfold ev_mapping_tree_get
  rw [tree2_in_extents, if_pos hin]
  simp only
  rw [scan_cells_of_all_eq hmem hall hscan]

theorem tree2_get_miss (a1 a2 : gpointer) (x y : ℚ)
    (h1 : is_on_line rect_at addr_l1 x y NULL = false)
    (h2 : is_on_line rect_at addr_l2 x y NULL = false) :
    ev_mapping_tree_get (tree2 a1 a2) x y = NULL := by
  apply get_eq_NULL_of_no_hit
  intro c hc p hp
  rw [mem_generate_valid_cells] at hc
  obtain ⟨i, -, -, k, -, hk⟩ := hc
  rw [tree2_cells a1 a2 _ _ hk] at hp
  simp only [List.mem_cons, List.mem_singleton, List.not_mem_nil, or_false] at hp
  rcases hp with rfl | rfl
  · exact h2
  · exact h1

end Test

/-- C5 (the queries of the test): in the index of the test (extents
`(-1, -2, 1, 2)`, segments `l1` and `l2` added with the distance predicate of
half-width `0.05`), `get (-0.73, 1)`, `get (-0.53, 1)` and `get (-0.53, 1.05)`
return an item, namely `&l2`, and `get (-0.53, 1.2)` returns `NULL`. -/
theorem test_queries (a1 a2 : gpointer) :
    ev_mapping_tree_get (Test.tree2 a1 a2) (-73 / 100) 1 = Test.addr_l2 ∧
    ev_mapping_tree_get (Test.tree2 a1 a2) (-53 / 100) 1 = Test.addr_l2 ∧
    ev_mapping_tree_get (Test.tree2 a1 a2) (-53 / 100) (105 / 100) = Test.addr_l2 ∧
    Test.addr_l2 ≠ NULL ∧
    ev_mapping_tree_get (Test.tree2 a1 a2) (-53 / 100) (12 / 10) = NULL := by
  refine ⟨?_, ?_, ?_, by decide, ?_⟩
  · exact Test.tree2_get_l2 a1 a2 _ _
      (by norm_num [ev_mapping_tree_in_extents, Test.tree0, ev_mapping_tree_new, Test.rect])
      (by norm_num) (by norm_num) (by norm_num) (by norm_num) Test.hit_l2_at_start
  · exact Test.tree2_get_l2 a1 a2 _ _
      (by norm_num [ev_mapping_tree_in_extents, Test.tree0, ev_mapping_tree_new, Test.rect])
      (by norm_num) (by norm_num) (by norm_num) (by norm_num) Test.hit_l2_on_line
  · exact Test.tree2_get_l2 a1 a2 _ _
      (by norm_num [ev_mapping_tree_in_extents, Test.tree0, ev_mapping_tree_new, Test.rect])
      (by norm_num) (by norm_num) (by norm_num) (by norm_num) Test.hit_l2_above
  · exact Test.tree2_get_miss a1 a2 _ _ Test.miss_l1_far Test.miss_l2_far

/-! ## Invariants of the reachable states -/

theorem add_returned_cases {t t1 : Tree} {addr item : gpointer} {r : EvRectangle}
    {hit_func : EvMappingTreeHitFunction} {data : gpointer} {key : Int}
    (h : ev_mapping_tree_add t addr item r hit_func data = AddResult.returned t1 key) :
    (t1 = t ∧ key = -1 ∧ add_search t r = LoopResult.fell_through) ∨
      ∃ d cx cy, add_search t r = LoopResult.accepted d cx cy ∧
        t1 = store_pair t { addr := addr, hit_func := hit_func, item := item, data := data }
          d cx cy ∧
        key = make_cell_coordinates d cx cy := by
  unfold ev_mapping_tree_add at h
  cases hs : add_search t r with
  | accepted d cx cy =>
    rw [hs] at h
    simp only [AddResult.returned.injEq] at h
    exact Or.inr ⟨d, cx, cy, rfl, h.1.symm, h.2.symm⟩
  | assert_failed =>
    rw [hs] at h
    simp at h
  | fell_through =>
    rw [hs] at h
    simp only [AddResult.returned.injEq] at h
    exact Or.inl ⟨h.1.symm, h.2.symm, rfl⟩

theorem compare_item_eq_zero (item_field_at : gpointer → gpointer) (a bs : gpointer) :
    compare_item item_field_at a bs = 0 ↔ a = item_field_at bs := by
  unfold compare_item
  split_ifs with h1 h2
  · exact ⟨fun h => absurd h (by decide), fun h => absurd h (ne_of_lt h1)⟩
  · exact ⟨fun h => absurd h (by decide), fun h => absurd h (ne_of_gt h2)⟩
  · exact ⟨fun _ => le_antisymm (not_lt.1 h2) (not_lt.1 h1), fun _ => rfl⟩

theorem remove_some_cases {item_field_at : gpointer → gpointer} {t t1 : Tree}
    {item : gpointer} (h : ev_mapping_tree_remove item_field_at t item = some t1) :
    ∃ coords cell pair, t.reverse_index item = some coords ∧
      t.cell_index coords = some cell ∧ pair ∈ cell ∧ pair.addr = item_field_at item ∧
      t1 = { t with
        reverse_index := Function.update t.reverse_index item none
        items := t.items.eraseP (fun q => decide (q.addr = pair.addr))
        cell_index := forget_key t.cell_index (some coords)
        destroyed := pair.item :: t.destroyed } := by
  unfold ev_mapping_tree_remove at h
  cases hr : t.reverse_index item with
  | none => rw [hr] at h; simp at h
  | some coords =>
    rw [hr] at h
    simp only at h
    cases hf : g_list_find_custom ((t.cell_index coords).getD []) item
        (compare_item item_field_at) with
    | none => rw [hf] at h; simp at h
    | some pair =>
      rw [hf] at h
      simp only [Option.some.injEq] at h
      unfold g_list_find_custom at hf
      have hmem := List.mem_of_find?_eq_some hf
      have hp := List.find?_some hf
      simp only [decide_eq_true_eq, compare_item_eq_zero] at hp
      cases hc : t.cell_index coords with
      | none => rw [hc] at hmem; simp at hmem
      | some cell =>
        rw [hc] at hmem
        exact ⟨coords, cell, pair, rfl, hc, hmem, hp, h.symm⟩

theorem addr_ne_of_mem_eraseP {l : List ItemHitFunctionPair} {a : gpointer}
    (hn : (l.map (fun p => p.addr)).Nodup) {q : ItemHitFunctionPair}
    (hq : q ∈ l.eraseP (fun p => decide (p.addr = a))) : q.addr ≠ a := by
  induction l with
  | nil => simp at hq
  | cons p l ih =>
    rw [List.map_cons, List.nodup_cons] at hn
    by_cases hp : p.addr = a
    · rw [List.eraseP_cons_of_pos (by simpa using hp)] at hq
      intro hqa
      apply hn.1
      rw [hp, ← hqa]
      exact List.mem_map_of_mem _ hq
    · rw [List.eraseP_cons_of_neg (by simpa using hp)] at hq
      rcases List.mem_cons.1 hq with rfl | hq
      · exact hp
      · exact ih hn.2 hq

theorem mem_eraseP_of_addr_ne {l : List ItemHitFunctionPair} {a : gpointer}
    {q : ItemHitFunctionPair} (hq : q ∈ l) (hne : q.addr ≠ a) :
    q ∈ l.eraseP (fun p => decide (p.addr = a)) :=
  (List.mem_eraseP_of_neg (by simpa using hne)).2 hq

theorem nodup_eraseP {l : List ItemHitFunctionPair} (a : gpointer)
    (hn : (l.map (fun p => p.addr)).Nodup) :
    ((l.eraseP (fun p => decide (p.addr = a))).map (fun p => p.addr)).Nodup :=
  List.Nodup.sublist ((List.eraseP_sublist l).map _) hn

theorem wellFormed_new (page : Nat) (extents : EvRectangle) :
    WellFormed (ev_mapping_tree_new page extents) := by
  constructor <;> simp [ev_mapping_tree_new]

theorem store_pair_cell_index (t : Tree) (p : ItemHitFunctionPair) (d cx cy k : Int)
    (h : released_key t p.item (make_cell_coordinates d cx cy) = none) :
    (store_pair t p d cx cy).cell_index k =
      if k = make_cell_coordinates d cx cy then
        some (p :: (t.cell_index (make_cell_coordinates d cx cy)).getD [])
      else t.cell_index k := by
  rw [cell_index_store_pair, h]
  simp

theorem store_pair_cell_some {t : Tree} {p : ItemHitFunctionPair} {d cx cy k : Int}
    {l : List ItemHitFunctionPair} (h : (store_pair t p d cx cy).cell_index k = some l) :
    (k = make_cell_coordinates d cx cy ∧
        l = p :: (t.cell_index (make_cell_coordinates d cx cy)).getD []) ∨
      (k ≠ make_cell_coordinates d cx cy ∧ t.cell_index k = some l) := by
  rw [cell_index_store_pair] at h
  split_ifs at h with h1 h2
  · exact Or.inl ⟨h2, (Option.some.inj h).symm⟩
  · exact Or.inr ⟨h2, h⟩

theorem mem_getD_cell {t : Tree} {k : Int} {q : ItemHitFunctionPair}
    (h : q ∈ (t.cell_index k).getD []) : ∃ l, t.cell_index k = some l ∧ q ∈ l := by
  cases hc : t.cell_index k with
  | none => rw [hc] at h; simp at h
  | some l => rw [hc] at h; exact ⟨l, rfl, h⟩

theorem wellFormed_store_pair {t : Tree} (hw : WellFormed t) (p : ItemHitFunctionPair)
    (hf : fresh t p.addr) (d cx cy : Int) : WellFormed (store_pair t p d cx cy) := by
  have hfresh_cell : ∀ k l, t.cell_index k = some l → ∀ q ∈ l, q.addr ≠ p.addr :=
    fun k l hk q hq => hf q (hw.cell_sub k l hk q hq)
  constructor
  · show ((p :: t.items).map (fun p => p.addr)).Nodup
    rw [List.map_cons, List.nodup_cons]
    refine ⟨?_, hw.addr_nodup⟩
    intro hmem
    obtain ⟨q, hq, hqa⟩ := List.mem_map.1 hmem
    exact hf q hq hqa
  · intro k l hk q hq
    show q ∈ p :: t.items
    rcases store_pair_cell_some hk with ⟨-, rfl⟩ | ⟨-, hk0⟩
    · rcases List.mem_cons.1 hq with rfl | hq
      · exact List.mem_cons_self _ _
      · obtain ⟨l0, hl0, hq0⟩ := mem_getD_cell hq
        exact List.mem_cons_of_mem _ (hw.cell_sub _ _ hl0 q hq0)
    · exact List.mem_cons_of_mem _ (hw.cell_sub k l hk0 q hq)
  · intro k l hk
    rcases store_pair_cell_some hk with ⟨-, rfl⟩ | ⟨-, hk0⟩
    · rw [List.map_cons, List.nodup_cons]
      constructor
      · intro hmem
        obtain ⟨q, hq, hqa⟩ := List.mem_map.1 hmem
        obtain ⟨l0, hl0, hq0⟩ := mem_getD_cell hq
        exact hfresh_cell _ _ hl0 q hq0 hqa
      · cases hc : t.cell_index (make_cell_coordinates d cx cy) with
        | none => simp
        | some l0 => exact hw.cell_nodup _ _ hc
    · exact hw.cell_nodup k l hk0
  · intro k1 k2 l1 l2 h1 h2 q1 hq1 q2 hq2 haddr
    rcases store_pair_cell_some h1 with ⟨hk1, rfl⟩ | ⟨hk1, g1⟩ <;>
      rcases store_pair_cell_some h2 with ⟨hk2, rfl⟩ | ⟨hk2, g2⟩
    · rw [hk1, hk2]
    · exfalso
      rcases List.mem_cons.1 hq1 with e | hq1
      · rw [e] at haddr
        exact hfresh_cell _ _ g2 q2 hq2 haddr.symm
      · obtain ⟨l0, hl0, hq0⟩ := mem_getD_cell hq1
        exact hk2 ((hw.cell_disjoint _ _ _ _ hl0 g2 q1 hq0 q2 hq2 haddr).symm)
    · exfalso
      rcases List.mem_cons.1 hq2 with e | hq2
      · rw [e] at haddr
        exact hfresh_cell _ _ g1 q1 hq1 haddr
      · obtain ⟨l0, hl0, hq0⟩ := mem_getD_cell hq2
        exact hk1 (hw.cell_disjoint _ _ _ _ g1 hl0 q1 hq1 q2 hq0 haddr)
    · exact hw.cell_disjoint _ _ _ _ g1 g2 q1 hq1 q2 hq2 haddr

theorem remove_cell_some {cells : Int → Option (List ItemHitFunctionPair)} {coords k : Int}
    {l : List ItemHitFunctionPair} (h : forget_key cells (some coords) k = some l) :
    k ≠ coords ∧ cells k = some l := by
  rw [cell_index_remove_apply] at h
  split_ifs at h with hk
  exact ⟨hk, h⟩

theorem wellFormed_remove {item_field_at : gpointer → gpointer} {t t1 : Tree}
    {item : gpointer} (hw : WellFormed t)
    (h : ev_mapping_tree_remove item_field_at t item = some t1) : WellFormed t1 := by
  obtain ⟨coords, cell, pair, -, hcell, hpair, -, rfl⟩ := remove_some_cases h
  constructor
  · exact nodup_eraseP _ hw.addr_nodup
  · intro k l hk q hq
    obtain ⟨hkey, hk0⟩ := remove_cell_some hk
    show q ∈ t.items.eraseP (fun q => decide (q.addr = pair.addr))
    refine mem_eraseP_of_addr_ne (hw.cell_sub k l hk0 q hq) ?_
    intro hqa
    exact hkey (hw.cell_disjoint k coords l cell hk0 hcell q hq pair hpair hqa)
  · intro k l hk
    exact hw.cell_nodup k l (remove_cell_some hk).2
  · intro k1 k2 l1 l2 h1 h2 q1 hq1 q2 hq2 haddr
    exact hw.cell_disjoint _ _ _ _ (remove_cell_some h1).2 (remove_cell_some h2).2 q1 hq1 q2 hq2
      haddr

theorem wellFormed_add {t t1 : Tree} {addr item : gpointer} {r : EvRectangle}
    {hit_func : EvMappingTreeHitFunction} {data : gpointer} {key : Int}
    (hw : WellFormed t) (hf : fresh t addr)
    (h : ev_mapping_tree_add t addr item r hit_func data = AddResult.returned t1 key) :
    WellFormed t1 := by
  rcases add_returned_cases h with ⟨rfl, -, -⟩ | ⟨d, cx, cy, -, rfl, -⟩
  · exact hw
  · exact wellFormed_store_pair hw _ hf d cx cy

theorem wellFormed_of_reachable {t : Tree} (h : Reachable t) : WellFormed t := by
  induction h with
  | new page extents => exact wellFormed_new page extents
  | add addr item extents hit_func data key _ hf hadd ih => exact wellFormed_add ih hf hadd
  | remove item_field_at item _ hrem ih => exact wellFormed_remove ih hrem

namespace Test

theorem reachable_tree1 (a1 : gpointer) : Reachable (tree1 a1) :=
  Reachable.add a1 addr_l1 l1 (is_on_line rect_at) NULL _ (Reachable.new 1 rect)
    (fun p hp => by simp [tree0, ev_mapping_tree_new] at hp) (add_l1 a1)

theorem reachable_tree2 (a1 a2 : gpointer) (h : a1 ≠ a2) : Reachable (tree2 a1 a2) :=
  Reachable.add a2 addr_l2 l2 (is_on_line rect_at) NULL _ (reachable_tree1 a1)
    (fun p hp => by
      simp only [tree1, store_pair, tree0, ev_mapping_tree_new, List.mem_singleton] at hp
      rw [hp]
      exact h)
    (add_l2 a1 a2)

theorem get_at_start : ev_mapping_tree_get (tree2 8192 8224) (-73 / 100) 1 = addr_l2 :=
  tree2_get_l2 8192 8224 _ _
    (by norm_num [ev_mapping_tree_in_extents, tree0, ev_mapping_tree_new, rect])
    (by norm_num) (by norm_num) (by norm_num) (by norm_num) hit_l2_at_start

end Test

theorem getD_set_replicate {n d i : Nat}
    (h : ((List.replicate n false).set d true).getD i false = true) : i = d := by
  rw [List.getD_eq_getElem?_getD, List.getElem?_set] at h
  split_ifs at h with h1 h2
  · exact h1.symm
  · exact h1.symm
  · rw [List.getElem?_replicate] at h
    split_ifs at h <;> simp at h

theorem page_tree_extents_x : page_tree.extents.x1 < page_tree.extents.x2 := by
  norm_num [page_tree, ev_mapping_tree_new]

theorem page_tree_extents_y : page_tree.extents.y1 < page_tree.extents.y2 := by
  norm_num [page_tree, ev_mapping_tree_new]

theorem edge_rect_first_in_extents :
    ev_mapping_tree_in_extents page_tree edge_rect.x1 edge_rect.y1 = true := by
  norm_num [ev_mapping_tree_in_extents, page_tree, ev_mapping_tree_new, edge_rect]

theorem edge_rect_second_in_extents :
    ev_mapping_tree_in_extents page_tree edge_rect.x2 edge_rect.y2 = true := by
  norm_num [ev_mapping_tree_in_extents, page_tree, ev_mapping_tree_new, edge_rect]

theorem normalize_edge_first :
    ev_mapping_tree_normalize_coordinates page_tree edge_rect.x1 edge_rect.y1 =
      ⟨99 / 100 * 2 ^ 28, 10 / 100 * 2 ^ 28⟩ := by
  norm_num [ev_mapping_tree_normalize_coordinates, page_tree, ev_mapping_tree_new, edge_rect,
    SMALLEST_QT_UNIT]

theorem normalize_edge_second :
    ev_mapping_tree_normalize_coordinates page_tree edge_rect.x2 edge_rect.y2 =
      ⟨2 ^ 28, 60 / 100 * 2 ^ 28⟩ := by
  norm_num [ev_mapping_tree_normalize_coordinates, page_tree, ev_mapping_tree_new, edge_rect,
    SMALLEST_QT_UNIT]

theorem add_search_edge : add_search page_tree edge_rect = LoopResult.accepted 27 2 0 := by
  have h := add_search_eval_second page_tree edge_rect 26 67108864 134217728
    4 0 4 2 2 0 2 1
    normalize_edge_first normalize_edge_second
    (by norm_num) (by norm_num) (by norm_num) (by norm_num)
    (by
      have := initial_depth_eq (span_of ⟨99 / 100 * 2 ^ 28, 10 / 100 * 2 ^ 28⟩
        ⟨2 ^ 28, 60 / 100 * 2 ^ 28⟩) 27 (by norm_num)
        (by norm_num [span_of, abs_of_nonpos]) (by norm_num [span_of, abs_of_nonpos])
      simpa using this)
    (by decide) (by decide)
    (corner_cell_eval (by norm_num) (by norm_num) (by norm_num [margin_of, EXPANSION])
      (by norm_num [margin_of, EXPANSION]))
    (corner_cell_eval (by norm_num) (by norm_num) (by norm_num [margin_of, EXPANSION])
      (by norm_num [margin_of, EXPANSION]))
    (corner_cell_eval (by norm_num) (by norm_num) (by norm_num [margin_of, EXPANSION])
      (by norm_num [margin_of, EXPANSION]))
    (corner_cell_eval (by norm_num) (by norm_num) (by norm_num [margin_of, EXPANSION])
      (by norm_num [margin_of, EXPANSION]))
    (by norm_num)
    (corner_cell_eval (by norm_num) (by norm_num) (by norm_num [margin_of, EXPANSION])
      (by norm_num [margin_of, EXPANSION]))
    (corner_cell_eval (by norm_num) (by norm_num) (by norm_num [margin_of, EXPANSION])
      (by norm_num [margin_of, EXPANSION]))
    (corner_cell_eval (by norm_num) (by norm_num) (by norm_num [margin_of, EXPANSION])
      (by norm_num [margin_of, EXPANSION]))
    (corner_cell_eval (by norm_num) (by norm_num) (by norm_num [margin_of, EXPANSION])
      (by norm_num [margin_of, EXPANSION]))
    (by norm_num) (by norm_num)
  simpa using h

theorem add_edge (addr : gpointer) :
    ev_mapping_tree_add page_tree addr 8192 edge_rect hit_always NULL =
      AddResult.returned (edge_tree addr) (make_cell_coordinates 27 2 0) := by
  rw [add_of_search add_search_edge]
  rfl

theorem edge_tree_mask (addr : gpointer) (i : Nat)
    (h : (edge_tree addr).depth_mask.getD i false = true) : i = 27 :=
  getD_set_replicate (n := 29) (d := 27) h

theorem edge_tree_cells (addr : gpointer) (k : Int) (l : List ItemHitFunctionPair)
    (h : (edge_tree addr).cell_index k = some l) : k = make_cell_coordinates 27 2 0 := by
  by_contra hk
  unfold edge_tree at h
  rw [cell_index_store_pair_unmapped 27 2 0 (show page_tree.reverse_index _ = none from rfl),
    Function.update_noteq hk] at h
  simp [page_tree, ev_mapping_tree_new] at h

theorem edge_tree_normalize (addr : gpointer) (x y : ℚ) :
    ev_mapping_tree_normalize_coordinates (edge_tree addr) x y =
      ⟨x / 100 * 2 ^ 28, y / 100 * 2 ^ 28⟩ := by
  simp only [ev_mapping_tree_normalize_coordinates, edge_tree, store_pair, page_tree,
    ev_mapping_tree_new, SMALLEST_QT_UNIT, EvPoint.mk.injEq]
  constructor <;> ring

theorem edge_tree_get (addr : gpointer) :
    ev_mapping_tree_get (edge_tree addr) (995 / 10) 30 = NULL := by
  apply get_eq_NULL_of_no_hit
  intro cell hc p hp
  exfalso
  rw [mem_generate_valid_cells, edge_tree_normalize] at hc
  obtain ⟨i, -, hmask, c, hcand, hk⟩ := hc
  have hi := edge_tree_mask addr i hmask
  subst hi
  have hkey := edge_tree_cells addr _ _ hk
  simp only at hcand
  have hcx : home_cell ((995 / 10 : ℚ) / 100 * 2 ^ 28) 27 = 1 :=
    home_cell_eval (by norm_num) (by norm_num) (by norm_num)
  have hcy : home_cell ((30 : ℚ) / 100 * 2 ^ 28) 27 = 0 :=
    home_cell_eval (by norm_num) (by norm_num) (by norm_num)
  have hl : ov_left ((995 / 10 : ℚ) / 100 * 2 ^ 28) 27 = false :=
    ov_left_false_of_residual hcx (by norm_num [EXPANSION])
  have hr : ov_right ((995 / 10 : ℚ) / 100 * 2 ^ 28) 27 = false :=
    ov_right_false_of_edge hcx (by rw [max_cell_27]; decide)
  have hlow : ov_lower ((30 : ℚ) / 100 * 2 ^ 28) 27 = false :=
    ov_lower_false_of_home_zero hcy
  obtain ⟨h1, h2⟩ := candidate_coords_cases hcand
  rw [hl, hr, hcx] at h1
  rw [hlow, hcy] at h2
  have e1 : c.1 = 1 := by
    rcases h1 with h | ⟨-, h⟩ | ⟨-, h⟩
    · exact h
    · exact Bool.noConfusion h
    · exact Bool.noConfusion h
  have e2 : c.2 = 0 ∨ c.2 = 1 := by
    rcases h2 with h | ⟨-, h⟩ | ⟨h, -⟩
    · exact Or.inl h
    · exact Bool.noConfusion h
    · exact Or.inr (by omega)
  rw [e1] at hkey
  rcases e2 with e2 | e2 <;> rw [e2] at hkey <;>
    rw [show ((27 : Nat) : Int) = 27 from rfl,
      make_cell_coordinates_of_range (by decide) (by decide) (by decide) (by decide)
        (by decide) (by decide),
      make_cell_coordinates_of_range (by decide) (by decide) (by decide) (by decide)
        (by decide) (by decide)] at hkey <;>
    omega

/-- C1 (round-trip containment) at a failing input: on a 100 by 100 page, the
bounding rectangle `((99, 10), (100, 60))` of a vertical stroke along the right
edge lies inside the extents and is stored by `ev_mapping_tree_add` in the cell
`(27, 2, 0)`, whose column is `maxX`; the point `(99.5, 30)` is strictly inside
the rectangle and inside the extents, the hit function of the only entry holds
there, and yet `ev_mapping_tree_get` returns `NULL`: the home column of the
point is `1 = maxX - 1`, for which the guard `cx < maxX - 1` of
`generate_valid_cells` rules the right neighbour out. -/
theorem edge_stroke_not_found (addr : gpointer) :
    page_tree.extents.x1 < page_tree.extents.x2 ∧
    page_tree.extents.y1 < page_tree.extents.y2 ∧
    ev_mapping_tree_in_extents page_tree edge_rect.x1 edge_rect.y1 = true ∧
    ev_mapping_tree_in_extents page_tree edge_rect.x2 edge_rect.y2 = true ∧
    ev_mapping_tree_add page_tree addr 8192 edge_rect hit_always NULL =
      AddResult.returned (edge_tree addr) (make_cell_coordinates 27 2 0) ∧
    (edge_tree addr).items = [edge_pair addr] ∧
    (edge_rect.x1 < 995 / 10 ∧ 995 / 10 < edge_rect.x2 ∧
      edge_rect.y1 < 30 ∧ 30 < edge_rect.y2) ∧
    ev_mapping_tree_in_extents (edge_tree addr) (995 / 10) 30 = true ∧
    (edge_pair addr).hit_func (edge_pair addr).item (995 / 10) 30 (edge_pair addr).data = true ∧
    (edge_pair addr).item ≠ NULL ∧
    max_cell 27 = 2 ∧
    ev_mapping_tree_get (edge_tree addr) (995 / 10) 30 = NULL := by
  refine ⟨page_tree_extents_x, page_tree_extents_y, edge_rect_first_in_extents,
    edge_rect_second_in_extents, add_edge addr, rfl, ?_, ?_, rfl,
    (show (8192 : gpointer) ≠ NULL by decide), max_cell_27,
    edge_tree_get addr⟩
  · norm_num [edge_rect]
  · norm_num [ev_mapping_tree_in_extents, edge_tree, store_pair, page_tree, ev_mapping_tree_new]

/-! ## Removal -/

theorem remove_none_of_no_addr {item_field_at : gpointer → gpointer} {t : Tree}
    {item : gpointer}
    (h : ∀ coords cell, t.reverse_index item = some coords → t.cell_index coords = some cell →
      ∀ p ∈ cell, p.addr ≠ item_field_at item) :
    ev_mapping_tree_remove item_field_at t item = none := by
  cases hr : ev_mapping_tree_remove item_field_at t item with
  | none => rfl
  | some t1 =>
    obtain ⟨coords, cell, pair, h1, h2, h3, h4, -⟩ := remove_some_cases hr
    exact absurd h4 (h coords cell h1 h2 pair h3)

namespace Test

theorem tree1_reverse (a1 : gpointer) :
    (tree1 a1).reverse_index addr_l1 = some (make_cell_coordinates 26 1 3) := by
  simp [tree1, store_pair, pair1]

theorem tree1_cell (a1 : gpointer) :
    (tree1 a1).cell_index (make_cell_coordinates 26 1 3) = some [pair1 a1] := by
  rw [tree1_cell_index, Function.update_same]

end Test

/-- C6 (removal) on the code: after the first insertion of the test, `&l1` is
stored (one entry, with its reverse mapping), and `g_list_find_custom` passes
the address of the pair as first argument of `compare_item` and the item as
second; `compare_item` reads the field `item` of its second argument, that is
a word of the rectangle `l1`.  Whenever that word is not the address of the
pair, no node is found and `ev_mapping_tree_remove` dereferences `NULL`: there
is no state after the call. -/
theorem remove_stored_item_fails (item_field_at : gpointer → gpointer) (a1 : gpointer)
    (h : item_field_at Test.addr_l1 ≠ a1) :
    ev_mapping_tree_add Test.tree0 a1 Test.addr_l1 Test.l1 (Test.is_on_line Test.rect_at) NULL =
      AddResult.returned (Test.tree1 a1) (make_cell_coordinates 26 1 3) ∧
    (Test.tree1 a1).items = [Test.pair1 a1] ∧
    (Test.pair1 a1).item = Test.addr_l1 ∧
    ev_mapping_tree_length (Test.tree1 a1) = 1 ∧
    ev_mapping_tree_remove item_field_at (Test.tree1 a1) Test.addr_l1 = none := by
  refine ⟨add_of_search Test.add_search_l1, rfl, rfl, rfl, ?_⟩
  apply remove_none_of_no_addr
  intro coords cell h1 h2 p hp
  rw [Test.tree1_reverse] at h1
  rw [← Option.some.inj h1, Test.tree1_cell] at h2
  rw [← Option.some.inj h2, List.mem_singleton] at hp
  rw [hp]
  exact fun e => h e.symm

/-- Witness of the evaluation of C6: the word read is the bit pattern of the
double `1.0` (the field `y1` of `l1`), the pair is at address `8192`. -/
theorem remove_stored_item_fails_witness :
    word_of_one ≠ 8192 ∧
    ev_mapping_tree_length (Test.tree1 8192) = 1 ∧
    ev_mapping_tree_remove (fun _ => word_of_one) (Test.tree1 8192) Test.addr_l1 = none :=
  ⟨by decide,
    (remove_stored_item_fails (fun _ => word_of_one) 8192 (by decide)).2.2.2.1,
    (remove_stored_item_fails (fun _ => word_of_one) 8192 (by decide)).2.2.2.2⟩

/-! ## The consistency invariant -/

theorem in_cell_store_pair {t : Tree} {p q : ItemHitFunctionPair} {d cx cy k : Int}
    (h : released_key t p.item (make_cell_coordinates d cx cy) = none) :
    in_cell (store_pair t p d cx cy) q k ↔
      (q = p ∧ k = make_cell_coordinates d cx cy) ∨ in_cell t q k := by
  unfold in_cell
  simp only [store_pair_cell_index t p d cx cy _ h]
  by_cases hk : k = make_cell_coordinates d cx cy
  · subst hk
    simp only [if_true, Option.some.injEq, exists_eq_left', List.mem_cons, and_true]
    constructor
    · rintro (h | h)
      · exact Or.inl h
      · exact Or.inr (mem_getD_cell h)
    · rintro (h | ⟨l, hl, hq⟩)
      · exact Or.inl h
      · right; rw [hl]; exact hq
  · simp only [hk, if_false, and_false, false_or]

theorem consistent_new (page : Nat) (extents : EvRectangle) :
    Consistent (ev_mapping_tree_new page extents) := by
  constructor <;> simp [ev_mapping_tree_new]

theorem consistent_store_pair {t : Tree} (hw : WellFormed t) (hc : Consistent t)
    (p : ItemHitFunctionPair) (hf : fresh t p.addr) (hitem : ∀ q ∈ t.items, q.item ≠ p.item)
    (d cx cy : Int) : Consistent (store_pair t p d cx cy) := by
  have hnot : ∀ k, ¬ in_cell t p k := by
    rintro k ⟨l, hl, hp⟩
    exact hf p (hw.cell_sub k l hl p hp) rfl
  have hne : ∀ q ∈ t.items, q ≠ p := fun q hq e => hf q hq (by rw [e])
  have hrel : released_key t p.item (make_cell_coordinates d cx cy) = none := by
    apply released_key_of_unmapped
    cases hr : t.reverse_index p.item with
    | none => rfl
    | some k =>
      obtain ⟨q, hq, hqi⟩ := hc.reverse_entry p.item k hr
      exact absurd hqi (hitem q hq)
  have in_cell_store_pair : ∀ {q : ItemHitFunctionPair} {k : Int},
      in_cell (store_pair t p d cx cy) q k ↔
        (q = p ∧ k = make_cell_coordinates d cx cy) ∨ in_cell t q k :=
    fun {q k} => in_cell_store_pair hrel
  constructor
  · intro q hq
    rcases List.mem_cons.1 (show q ∈ p :: t.items from hq) with rfl | hq
    · refine ⟨make_cell_coordinates d cx cy, in_cell_store_pair.2 (Or.inl ⟨rfl, rfl⟩), ?_⟩
      intro k hk
      rcases in_cell_store_pair.1 hk with ⟨-, h⟩ | h
      · exact h
      · exact absurd h (hnot k)
    · obtain ⟨k, hk, huniq⟩ := hc.one_cell q hq
      refine ⟨k, in_cell_store_pair.2 (Or.inr hk), ?_⟩
      intro k1 hk1
      rcases in_cell_store_pair.1 hk1 with ⟨h, -⟩ | h
      · exact absurd h (hne q hq)
      · exact huniq k1 h
  · intro q hq k hk
    show Function.update t.reverse_index p.item (some (make_cell_coordinates d cx cy)) q.item
      = some k
    rcases List.mem_cons.1 (show q ∈ p :: t.items from hq) with rfl | hq
    · rcases in_cell_store_pair.1 hk with ⟨-, h⟩ | h
      · rw [Function.update_same, h]
      · exact absurd h (hnot k)
    · rcases in_cell_store_pair.1 hk with ⟨h, -⟩ | h
      · exact absurd h (hne q hq)
      · rw [Function.update_noteq (hitem q hq)]
        exact hc.reverse_cell q hq k h
  · intro item k hk
    show ∃ q ∈ p :: t.items, q.item = item
    by_cases hi : item = p.item
    · exact ⟨p, List.mem_cons_self _ _, hi.symm⟩
    · have hk1 : t.reverse_index item = some k := by
        have := hk
        simp only [store_pair, Function.update_noteq hi] at this
        exact this
      obtain ⟨q, hq, hqi⟩ := hc.reverse_entry item k hk1
      exact ⟨q, List.mem_cons_of_mem _ hq, hqi⟩

theorem eq_of_item_eq {l : List ItemHitFunctionPair}
    (hn : (l.map (fun p => p.item)).Nodup) {p q : ItemHitFunctionPair} (hp : p ∈ l) (hq : q ∈ l)
    (h : p.item = q.item) : p = q :=
  List.inj_on_of_nodup_map hn hp hq h

theorem eq_of_addr_eq {l : List ItemHitFunctionPair}
    (hn : (l.map (fun p => p.addr)).Nodup) {p q : ItemHitFunctionPair} (hp : p ∈ l) (hq : q ∈ l)
    (h : p.addr = q.addr) : p = q :=
  List.inj_on_of_nodup_map hn hp hq h

theorem invariants_of_reachableUnique {t : Tree} (h : ReachableUnique t) :
    WellFormed t ∧ Consistent t ∧ (t.items.map (fun p => p.item)).Nodup := by
  induction h with
  | new page extents =>
    exact ⟨wellFormed_new page extents, consistent_new page extents,
      by simp [ev_mapping_tree_new]⟩
  | add addr item extents hit_func data key _ hf hitem hadd ih =>
    obtain ⟨hw, hc, hu⟩ := ih
    rcases add_returned_cases hadd with ⟨rfl, -, -⟩ | ⟨d, cx, cy, -, rfl, -⟩
    · exact ⟨hw, hc, hu⟩
    · refine ⟨wellFormed_store_pair hw _ hf d cx cy,
        consistent_store_pair hw hc _ hf hitem d cx cy, ?_⟩
      unfold store_pair
      simp only [List.map_cons, List.nodup_cons]
      refine ⟨?_, hu⟩
      intro hmem
      obtain ⟨q, hq, hqi⟩ := List.mem_map.1 hmem
      exact hitem q hq hqi

namespace Test

theorem normalize_lower_corner :
    ev_mapping_tree_normalize_coordinates tree0 lower_corner.x1 lower_corner.y1 = ⟨0, 0⟩ := by
  norm_num [ev_mapping_tree_normalize_coordinates, tree0, ev_mapping_tree_new, rect,
    lower_corner, SMALLEST_QT_UNIT]

theorem normalize_upper_corner :
    ev_mapping_tree_normalize_coordinates tree0 upper_corner.x1 upper_corner.y1 =
      ⟨2 ^ 28, 2 ^ 28⟩ := by
  norm_num [ev_mapping_tree_normalize_coordinates, tree0, ev_mapping_tree_new, rect,
    upper_corner, SMALLEST_QT_UNIT]

theorem normalize_outside :
    ev_mapping_tree_normalize_coordinates tree0 outside_rect.x1 outside_rect.y1 =
      ⟨2 ^ 29, 2 ^ 27⟩ := by
  norm_num [ev_mapping_tree_normalize_coordinates, tree0, ev_mapping_tree_new, rect,
    outside_rect, SMALLEST_QT_UNIT]

theorem add_search_lower_corner :
    add_search tree0 lower_corner = LoopResult.accepted 0 0 0 := by
  have h := add_search_eval_first tree0 lower_corner 0 1
    0 0 0 0
    normalize_lower_corner normalize_lower_corner
    (by norm_num) (by norm_num) (by norm_num) (by norm_num)
    (by simp [span_of, initial_depth_zero])
    (by decide)
    (corner_cell_eval (by norm_num) (by norm_num) (by norm_num [margin_of, EXPANSION])
      (by norm_num [margin_of, EXPANSION]))
    (corner_cell_eval (by norm_num) (by norm_num) (by norm_num [margin_of, EXPANSION])
      (by norm_num [margin_of, EXPANSION]))
    (corner_cell_eval (by norm_num) (by norm_num) (by norm_num [margin_of, EXPANSION])
      (by norm_num [margin_of, EXPANSION]))
    (corner_cell_eval (by norm_num) (by norm_num) (by norm_num [margin_of, EXPANSION])
      (by norm_num [margin_of, EXPANSION]))
    (by norm_num) (by norm_num)
  simpa using h

theorem add_search_upper_corner :
    add_search tree0 upper_corner = LoopResult.accepted 0 (2 ^ 28) (2 ^ 28) := by
  have h := add_search_eval_first tree0 upper_corner 0 1
    (2 ^ 28) (2 ^ 28) (2 ^ 28) (2 ^ 28)
    normalize_upper_corner normalize_upper_corner
    (by norm_num) (by norm_num) (by norm_num) (by norm_num)
    (by simp [span_of, initial_depth_zero])
    (by decide)
    (corner_cell_eval (by norm_num) (by norm_num) (by norm_num [margin_of, EXPANSION])
      (by norm_num [margin_of, EXPANSION]))
    (corner_cell_eval (by norm_num) (by norm_num) (by norm_num [margin_of, EXPANSION])
      (by norm_num [margin_of, EXPANSION]))
    (corner_cell_eval (by norm_num) (by norm_num) (by norm_num [margin_of, EXPANSION])
      (by norm_num [margin_of, EXPANSION]))
    (corner_cell_eval (by norm_num) (by norm_num) (by norm_num [margin_of, EXPANSION])
      (by norm_num [margin_of, EXPANSION]))
    (by norm_num) (by norm_num)
  simpa using h

theorem add_search_outside :
    add_search tree0 outside_rect = LoopResult.accepted 0 (2 ^ 29) (2 ^ 27) := by
  have h := add_search_eval_first tree0 outside_rect 0 1
    (2 ^ 29) (2 ^ 27) (2 ^ 29) (2 ^ 27)
    normalize_outside normalize_outside
    (by norm_num) (by norm_num) (by norm_num) (by norm_num)
    (by simp [span_of, initial_depth_zero])
    (by decide)
    (corner_cell_eval (by norm_num) (by norm_num) (by norm_num [margin_of, EXPANSION])
      (by norm_num [margin_of, EXPANSION]))
    (corner_cell_eval (by norm_num) (by norm_num) (by norm_num [margin_of, EXPANSION])
      (by norm_num [margin_of, EXPANSION]))
    (corner_cell_eval (by norm_num) (by norm_num) (by norm_num [margin_of, EXPANSION])
      (by norm_num [margin_of, EXPANSION]))
    (corner_cell_eval (by norm_num) (by norm_num) (by norm_num [margin_of, EXPANSION])
      (by norm_num [margin_of, EXPANSION]))
    (by norm_num) (by norm_num)
  simpa using h

end Test

theorem key_0_0_0 : make_cell_coordinates 0 0 0 = 0 := by
  rw [make_cell_coordinates_of_range (by decide) (by decide) (by decide) (by decide)
    (by decide) (by decide)]
  simp

theorem key_0_top_top : make_cell_coordinates 0 (2 ^ 28) (2 ^ 28) = 2 ^ 57 + 2 ^ 28 := by
  rw [make_cell_coordinates_of_range (by decide) (by decide) (by decide) (by decide)
    (by decide) (by decide)]
  norm_num

theorem reachable_twice_tree : Reachable twice_tree := by
  have h1 : Reachable (store_pair Test.tree0 (corner_pair 16) 0 0 0) :=
    Reachable.add 16 8192 lower_corner hit_always NULL _ (Reachable.new 1 Test.rect)
      (fun p hp => by simp [ev_mapping_tree_new] at hp)
      (add_of_search Test.add_search_lower_corner)
  refine Reachable.add 48 8192 upper_corner hit_always NULL _ h1 ?_
    (add_of_search ((add_search_extents Test.tree0 _ rfl upper_corner).trans
      Test.add_search_upper_corner))
  intro p hp
  simp only [store_pair, Test.tree0, ev_mapping_tree_new, List.mem_singleton] at hp
  rw [hp]
  decide

theorem released_key_of_head {t : Tree} {item : gpointer} {coords old : Int}
    {head : ItemHitFunctionPair} {rest : List ItemHitFunctionPair}
    (hr : t.reverse_index item = some old) (hne : old ≠ coords)
    (hc : t.cell_index old = some (head :: rest)) (hi : head.item = item) :
    released_key t item coords = some old := by
  unfold released_key
  rw [hr]
  simp only [if_neg hne, hc, if_pos hi]

theorem cell_index_store_twice {t : Tree} {p q : ItemHitFunctionPair}
    {d cx cy d1 cx1 cy1 : Int} (hp : t.reverse_index p.item = none) (hq : q.item = p.item)
    (hne : make_cell_coordinates d cx cy ≠ make_cell_coordinates d1 cx1 cy1)
    (h0 : t.cell_index (make_cell_coordinates d cx cy) = none)
    (h1 : t.cell_index (make_cell_coordinates d1 cx1 cy1) = none) (k : Int) :
    (store_pair (store_pair t p d cx cy) q d1 cx1 cy1).cell_index k =
      if k = make_cell_coordinates d cx cy then none
      else if k = make_cell_coordinates d1 cx1 cy1 then some [q]
      else t.cell_index k := by
  have hinner : (store_pair t p d cx cy).cell_index =
      Function.update t.cell_index (make_cell_coordinates d cx cy) (some [p]) := by
    rw [cell_index_store_pair_unmapped d cx cy hp, h0]
    rfl
  have hrev : (store_pair t p d cx cy).reverse_index q.item
      = some (make_cell_coordinates d cx cy) := by
    rw [hq]
    simp only [store_pair, Function.update_same]
  have hrel : released_key (store_pair t p d cx cy) q.item (make_cell_coordinates d1 cx1 cy1)
      = some (make_cell_coordinates d cx cy) :=
    released_key_of_head hrev hne (by rw [hinner, Function.update_same]) hq.symm
  rw [cell_index_store_pair, hrel, hinner]
  by_cases hk0 : k = make_cell_coordinates d cx cy
  · rw [if_pos (by rw [hk0]), if_pos hk0]
  · have hk0s : ¬ some (make_cell_coordinates d cx cy) = some k :=
      fun e => hk0 (Option.some.inj e).symm
    rw [if_neg hk0s, if_neg hk0]
    by_cases hk1 : k = make_cell_coordinates d1 cx1 cy1
    · rw [if_pos hk1, if_pos hk1, Function.update_noteq (fun e => hne e.symm), h1]
      rfl
    · rw [if_neg hk1, if_neg hk1, Function.update_noteq hk0]

theorem twice_tree_cell_index (k : Int) :
    twice_tree.cell_index k =
      if k = make_cell_coordinates 0 0 0 then none
      else if k = make_cell_coordinates 0 (2 ^ 28) (2 ^ 28) then some [corner_pair 48]
      else none := by
  have hne : make_cell_coordinates 0 0 0 ≠ make_cell_coordinates 0 (2 ^ 28) (2 ^ 28) := by
    rw [key_0_0_0, key_0_top_top]
    norm_num
  unfold twice_tree
  rw [cell_index_store_twice (p := corner_pair 16) (q := corner_pair 48)
    (show Test.tree0.reverse_index (corner_pair 16).item = none from rfl) rfl hne rfl rfl]
  rfl

/-- C7 (index consistency) on the code: the state reached by adding the same
item twice, at the lower corner and then at the upper corner of the extents of
the test, is reachable by calls of `ev_mapping_tree_add` and is not consistent.
The second call replaces the reverse mapping of the item, which frees the block
that `cell_index` uses as key of the first cell: the first entry stays in
`items`, a lookup of its cell finds nothing, and the reverse index maps its
item to the key of the second cell. -/
theorem twice_added_not_consistent :
    Reachable twice_tree ∧ ¬ Consistent twice_tree ∧
    corner_pair 16 ∈ twice_tree.items ∧
    (∀ k, ¬ in_cell twice_tree (corner_pair 16) k) ∧
    twice_tree.cell_index (make_cell_coordinates 0 0 0) = none ∧
    twice_tree.reverse_index (corner_pair 16).item =
      some (make_cell_coordinates 0 (2 ^ 28) (2 ^ 28)) := by
  have hmem : corner_pair 16 ∈ twice_tree.items := by
    simp [twice_tree, store_pair]
  have hnot : ∀ k, ¬ in_cell twice_tree (corner_pair 16) k := by
    rintro k ⟨l, hl, hp⟩
    rw [twice_tree_cell_index] at hl
    split_ifs at hl
    rw [← Option.some.inj hl, List.mem_singleton] at hp
    have h16 : (corner_pair 16).addr = (corner_pair 48).addr :=
      congrArg ItemHitFunctionPair.addr hp
    exact absurd h16 (show (16 : gpointer) ≠ 48 by decide)
  have hne : make_cell_coordinates 0 0 0 ≠ make_cell_coordinates 0 (2 ^ 28) (2 ^ 28) := by
    rw [key_0_0_0, key_0_top_top]
    norm_num
  refine ⟨reachable_twice_tree, ?_, hmem, hnot, ?_, ?_⟩
  · intro hc
    obtain ⟨k, hk, -⟩ := hc.one_cell _ hmem
    exact hnot k hk
  · rw [twice_tree_cell_index, if_pos rfl]
  · simp only [twice_tree, store_pair, corner_pair, Function.update_same]

/-- In every state reachable from a new index by calls of `ev_mapping_tree_add`
whose item is not stored at the time of the call, every entry of `items` is a
member of exactly one cell list, the reverse index maps the item of the entry
to the key of that cell, and the reverse index has no mapping for an item
without an entry. -/
theorem consistent_of_reachableUnique (t : Tree) (h : ReachableUnique t) : Consistent t :=
  (invariants_of_reachableUnique h).2.1

namespace Test

theorem reachableUnique_tree2 (a1 a2 : gpointer) (h : a1 ≠ a2) :
    ReachableUnique (tree2 a1 a2) := by
  have h1 : ReachableUnique (tree1 a1) :=
    ReachableUnique.add a1 addr_l1 l1 (is_on_line rect_at) NULL _ (ReachableUnique.new 1 rect)
      (fun p hp => by simp [ev_mapping_tree_new] at hp)
      (fun p hp => by simp [ev_mapping_tree_new] at hp) (add_l1 a1)
  refine ReachableUnique.add a2 addr_l2 l2 (is_on_line rect_at) NULL _ h1 ?_ ?_ (add_l2 a1 a2)
  · intro p hp
    simp only [tree1, store_pair, tree0, ev_mapping_tree_new, List.mem_singleton] at hp
    rw [hp]
    exact h
  · intro p hp
    simp only [tree1, store_pair, tree0, ev_mapping_tree_new, List.mem_singleton] at hp
    rw [hp]
    exact (show addr_l1 ≠ addr_l2 by decide)

end Test

/-- The index of the test is reached by two insertions of distinct items, and
is consistent. -/
theorem consistent_of_reachableUnique_witness :
    ReachableUnique (Test.tree2 8192 8224) ∧ Consistent (Test.tree2 8192 8224) :=
  ⟨Test.reachableUnique_tree2 8192 8224 (by decide),
    consistent_of_reachableUnique (Test.tree2 8192 8224)
      (Test.reachableUnique_tree2 8192 8224 (by decide))⟩

/-! ## Points and rectangles outside the extents -/

/-- C9, counterexample: in the index of the test the point `(5, 5)` is outside
the extents and the point `(-0.53, 1.2)` is inside, without a match; the two
calls of `ev_mapping_tree_get` return the same value, `NULL`. -/
theorem get_outside_same_as_no_match :
    ev_mapping_tree_in_extents (Test.tree2 8192 8224) 5 5 = false ∧
    ev_mapping_tree_in_extents (Test.tree2 8192 8224) (-53 / 100) (12 / 10) = true ∧
    ev_mapping_tree_get (Test.tree2 8192 8224) 5 5 =
      ev_mapping_tree_get (Test.tree2 8192 8224) (-53 / 100) (12 / 10) := by
  have h1 : ev_mapping_tree_in_extents (Test.tree2 8192 8224) 5 5 = false := by
    rw [Test.tree2_in_extents]
    norm_num [ev_mapping_tree_in_extents, Test.tree0, ev_mapping_tree_new, Test.rect]
  have h2 : ev_mapping_tree_in_extents (Test.tree2 8192 8224) (-53 / 100) (12 / 10) = true := by
    rw [Test.tree2_in_extents]
    norm_num [ev_mapping_tree_in_extents, Test.tree0, ev_mapping_tree_new, Test.rect]
  refine ⟨h1, h2, ?_⟩
  rw [get_outside _ _ _ h1, Test.tree2_get_miss 8192 8224 _ _ Test.miss_l1_far Test.miss_l2_far]

/-- C9, amended: for every point that is not inside the inclusive extents,
`ev_mapping_tree_get` returns `NULL` whatever the index holds (the check is a
`g_return_val_if_fail`, which logs and returns); `NULL` is also the result of
a query inside the extents for which no probed entry has a hit function that
holds, so the result alone does not tell the two cases apart. -/
theorem get_outside_extents_returns_NULL (t : Tree) (x y : ℚ) :
    (ev_mapping_tree_in_extents t x y = false → ev_mapping_tree_get t x y = NULL) ∧
    (ev_mapping_tree_in_extents t x y = true →
      (∀ cell ∈ generate_valid_cells t (ev_mapping_tree_normalize_coordinates t x y).x
          (ev_mapping_tree_normalize_coordinates t x y).y,
        ∀ p ∈ cell, p.hit_func p.item x y p.data = false) →
      ev_mapping_tree_get t x y = NULL) :=
  ⟨get_outside t x y, fun _ h => get_eq_NULL_of_no_hit t x y h⟩

/-- Witness of C9 (amended): the point `(5, 5)` is outside the extents of the
test and the query returns `NULL`. -/
theorem get_outside_extents_returns_NULL_witness :
    ev_mapping_tree_in_extents (Test.tree2 8192 8224) 5 5 = false ∧
    ev_mapping_tree_get (Test.tree2 8192 8224) 5 5 = NULL := by
  have h1 : ev_mapping_tree_in_extents (Test.tree2 8192 8224) 5 5 = false := by
    rw [Test.tree2_in_extents]
    norm_num [ev_mapping_tree_in_extents, Test.tree0, ev_mapping_tree_new, Test.rect]
  exact ⟨h1, (get_outside_extents_returns_NULL (Test.tree2 8192 8224) 5 5).1 h1⟩

theorem key_0_wrapped : make_cell_coordinates 0 (2 ^ 29) (2 ^ 27) = 2 ^ 27 := by
  unfold make_cell_coordinates int64_of
  norm_num

/-- C10 (insertion outside the extents) on the code: in the index of the test
the rectangle reduced to the point `(3, 0)` has its corners outside the extents;
`ev_mapping_tree_add` makes no check, stores the entry (the length goes from
`0` to `1`, the reverse index and the depth mask are written) and returns the
key `2^27`, in which the column `2^29` is reduced to `0` by the mask of
`make_cell_coordinates`: it is the key of the cell `(0, 0, 2^27)`. -/
theorem add_outside_extents_stores (addr : gpointer) :
    ev_mapping_tree_in_extents Test.tree0 outside_rect.x1 outside_rect.y1 = false ∧
    ev_mapping_tree_in_extents Test.tree0 outside_rect.x2 outside_rect.y2 = false ∧
    ev_mapping_tree_length Test.tree0 = 0 ∧
    ev_mapping_tree_add Test.tree0 addr 8192 outside_rect hit_always NULL =
      AddResult.returned (store_pair Test.tree0 (corner_pair addr) 0 (2 ^ 29) (2 ^ 27))
        (2 ^ 27) ∧
    ev_mapping_tree_length (store_pair Test.tree0 (corner_pair addr) 0 (2 ^ 29) (2 ^ 27)) = 1 ∧
    (store_pair Test.tree0 (corner_pair addr) 0 (2 ^ 29) (2 ^ 27)).reverse_index 8192 =
      some (2 ^ 27) ∧
    (store_pair Test.tree0 (corner_pair addr) 0 (2 ^ 29) (2 ^ 27)).cell_index (2 ^ 27) =
      some [corner_pair addr] ∧
    (store_pair Test.tree0 (corner_pair addr) 0 (2 ^ 29) (2 ^ 27)).depth_mask.getD 0 false =
      true ∧
    Test.tree0.depth_mask.getD 0 false = false ∧
    make_cell_coordinates 0 0 (2 ^ 27) = 2 ^ 27 := by
  have hk := key_0_wrapped
  refine ⟨?_, ?_, rfl, ?_, rfl, ?_, ?_, rfl, rfl, ?_⟩
  · norm_num [ev_mapping_tree_in_extents, Test.tree0, ev_mapping_tree_new, Test.rect,
      outside_rect]
  · norm_num [ev_mapping_tree_in_extents, Test.tree0, ev_mapping_tree_new, Test.rect,
      outside_rect]
  · rw [add_of_search Test.add_search_outside, hk]
    rfl
  · simp only [store_pair, hk, corner_pair, Function.update_same]
  · rw [cell_index_store_pair_unmapped 0 (2 ^ 29) (2 ^ 27)
      (show Test.tree0.reverse_index (corner_pair addr).item = none from rfl), hk,
      Function.update_same]
    rfl
  · rw [make_cell_coordinates_of_range (by decide) (by decide) (by decide) (by decide)
      (by decide) (by decide)]
    norm_num

/-! ## A stroke that reaches past the middle of the next cell -/

theorem ov_right_false_of_residual {x : ℚ} {i : Nat} {c : Int} (hc : home_cell x i = c)
    (hr : EXPANSION * ((2 : ℚ) ^ i * (1 / 2)) < (2 : ℚ) ^ i - (x - (c : ℚ) * 2 ^ i)) :
    ov_right x i = false := by
  have hp : (0 : ℚ) < (2 : ℚ) ^ i * (1 / 2) := by positivity
  have : ¬ ((((2 ^ i : Int) : ℚ) - home_residual x i) / (((2 ^ i : Int) : ℚ) * (1 / 2))
      ≤ EXPANSION) := by
    unfold home_residual
    rw [hc]
    push_cast
    rw [div_le_iff₀ hp]
    linarith
  unfold ov_right
  rw [decide_eq_false this, Bool.and_false, Bool.and_false]

theorem ov_upper_false_of_residual {y : ℚ} {i : Nat} {c : Int} (hc : home_cell y i = c)
    (hr : EXPANSION * ((2 : ℚ) ^ i * (1 / 2)) < (2 : ℚ) ^ i - (y - (c : ℚ) * 2 ^ i)) :
    ov_upper y i = false := by
  have hp : (0 : ℚ) < (2 : ℚ) ^ i * (1 / 2) := by positivity
  have : ¬ ((((2 ^ i : Int) : ℚ) - home_residual y i) / (((2 ^ i : Int) : ℚ) * (1 / 2))
      ≤ EXPANSION) := by
    unfold home_residual
    rw [hc]
    push_cast
    rw [div_le_iff₀ hp]
    linarith
  unfold ov_upper
  rw [decide_eq_false this, Bool.and_false, Bool.and_false]

theorem normalize_long_first :
    ev_mapping_tree_normalize_coordinates page_tree long_rect.x1 long_rect.y1 =
      ⟨325 / 1000 * 2 ^ 28, 10 / 100 * 2 ^ 28⟩ := by
  norm_num [ev_mapping_tree_normalize_coordinates, page_tree, ev_mapping_tree_new, long_rect,
    SMALLEST_QT_UNIT]

theorem normalize_long_second :
    ev_mapping_tree_normalize_coordinates page_tree long_rect.x2 long_rect.y2 =
      ⟨6251 / 10000 * 2 ^ 28, 11 / 100 * 2 ^ 28⟩ := by
  norm_num [ev_mapping_tree_normalize_coordinates, page_tree, ev_mapping_tree_new, long_rect,
    SMALLEST_QT_UNIT]

theorem add_search_long : add_search page_tree long_rect = LoopResult.accepted 26 1 0 := by
  have h := add_search_eval_first page_tree long_rect 26 67108864
    1 0 2 0
    normalize_long_first normalize_long_second
    (by norm_num) (by norm_num) (by norm_num) (by norm_num)
    (by
      have := initial_depth_eq (span_of ⟨325 / 1000 * 2 ^ 28, 10 / 100 * 2 ^ 28⟩
        ⟨6251 / 10000 * 2 ^ 28, 11 / 100 * 2 ^ 28⟩) 27 (by norm_num)
        (by norm_num [span_of, abs_of_nonpos]) (by norm_num [span_of, abs_of_nonpos])
      simpa using this)
    (by decide)
    (corner_cell_eval (by norm_num) (by norm_num) (by norm_num [margin_of, EXPANSION])
      (by norm_num [margin_of, EXPANSION]))
    (corner_cell_eval (by norm_num) (by norm_num) (by norm_num [margin_of, EXPANSION])
      (by norm_num [margin_of, EXPANSION]))
    (corner_cell_eval (by norm_num) (by norm_num) (by norm_num [margin_of, EXPANSION])
      (by norm_num [margin_of, EXPANSION]))
    (corner_cell_eval (by norm_num) (by norm_num) (by norm_num [margin_of, EXPANSION])
      (by norm_num [margin_of, EXPANSION]))
    (by norm_num) (by norm_num)
  simpa using h

theorem long_tree_cells (addr : gpointer) (k : Int) (l : List ItemHitFunctionPair)
    (h : (long_tree addr).cell_index k = some l) : k = make_cell_coordinates 26 1 0 := by
  by_contra hk
  unfold long_tree at h
  rw [cell_index_store_pair_unmapped 26 1 0 (show page_tree.reverse_index _ = none from rfl),
    Function.update_noteq hk] at h
  simp [page_tree, ev_mapping_tree_new] at h

theorem long_tree_get (addr : gpointer) :
    ev_mapping_tree_get (long_tree addr) (625 / 10) (105 / 10) = NULL := by
  apply get_eq_NULL_of_no_hit
  intro cell hc p hp
  exfalso
  have hn : ev_mapping_tree_normalize_coordinates (long_tree addr) (625 / 10) (105 / 10)
      = ⟨625 / 1000 * 2 ^ 28, 105 / 1000 * 2 ^ 28⟩ := by
    norm_num [ev_mapping_tree_normalize_coordinates, long_tree, store_pair, page_tree,
      ev_mapping_tree_new, SMALLEST_QT_UNIT]
  rw [mem_generate_valid_cells, hn] at hc
  obtain ⟨i, -, hmask, c, hcand, hk⟩ := hc
  have hi : i = 26 := getD_set_replicate (n := 29) (d := 26) hmask
  subst hi
  have hkey := long_tree_cells addr _ _ hk
  simp only at hcand
  have hcx : home_cell ((625 / 1000 : ℚ) * 2 ^ 28) 26 = 2 :=
    home_cell_eval (by norm_num) (by norm_num) (by norm_num)
  have hcy : home_cell ((105 / 1000 : ℚ) * 2 ^ 28) 26 = 0 :=
    home_cell_eval (by norm_num) (by norm_num) (by norm_num)
  have hl : ov_left ((625 / 1000 : ℚ) * 2 ^ 28) 26 = false :=
    ov_left_false_of_residual hcx (by norm_num [EXPANSION])
  have hr : ov_right ((625 / 1000 : ℚ) * 2 ^ 28) 26 = false :=
    ov_right_false_of_residual hcx (by norm_num [EXPANSION])
  have hlow : ov_lower ((105 / 1000 : ℚ) * 2 ^ 28) 26 = false :=
    ov_lower_false_of_home_zero hcy
  have hup : ov_upper ((105 / 1000 : ℚ) * 2 ^ 28) 26 = false :=
    ov_upper_false_of_residual hcy (by norm_num [EXPANSION])
  obtain ⟨h1, h2⟩ := candidate_coords_cases hcand
  rw [hl, hr, hcx] at h1
  rw [hlow, hup, hcy] at h2
  have e1 : c.1 = 2 := by
    rcases h1 with h | ⟨-, h⟩ | ⟨-, h⟩
    · exact h
    · exact Bool.noConfusion h
    · exact Bool.noConfusion h
  have e2 : c.2 = 0 := by
    rcases h2 with h | ⟨-, h⟩ | ⟨-, h⟩
    · exact h
    · exact Bool.noConfusion h
    · exact Bool.noConfusion h
  rw [e1, e2, show ((26 : Nat) : Int) = 26 from rfl,
    make_cell_coordinates_of_range (by decide) (by decide) (by decide) (by decide)
      (by decide) (by decide),
    make_cell_coordinates_of_range (by decide) (by decide) (by decide) (by decide)
      (by decide) (by decide)] at hkey
  omega

/-- A second input on which a stored item is not found: the rectangle
`((32.5, 10), (62.51, 11))` is stored in the cell `(26, 1, 0)` although it
reaches `0.5004` cells into column `2`; the point `(62.5, 10.5)`, strictly
inside it, lies `0.5` cells into column `2`, more than the `0.4995` cells
within which `generate_valid_cells` probes the left neighbour. -/
theorem long_stroke_not_found (addr : gpointer) :
    ev_mapping_tree_in_extents page_tree long_rect.x1 long_rect.y1 = true ∧
    ev_mapping_tree_in_extents page_tree long_rect.x2 long_rect.y2 = true ∧
    ev_mapping_tree_add page_tree addr 8192 long_rect hit_always NULL =
      AddResult.returned (long_tree addr) (make_cell_coordinates 26 1 0) ∧
    (long_rect.x1 < 625 / 10 ∧ 625 / 10 < long_rect.x2 ∧
      long_rect.y1 < 105 / 10 ∧ 105 / 10 < long_rect.y2) ∧
    ev_mapping_tree_in_extents (long_tree addr) (625 / 10) (105 / 10) = true ∧
    hit_always 8192 (625 / 10) (105 / 10) NULL = true ∧
    ev_mapping_tree_get (long_tree addr) (625 / 10) (105 / 10) = NULL := by
  refine ⟨?_, ?_, ?_, ?_, ?_, rfl, long_tree_get addr⟩
  · norm_num [ev_mapping_tree_in_extents, page_tree, ev_mapping_tree_new, long_rect]
  · norm_num [ev_mapping_tree_in_extents, page_tree, ev_mapping_tree_new, long_rect]
  · rw [add_of_search add_search_long]
    rfl
  · norm_num [long_rect]
  · norm_num [ev_mapping_tree_in_extents, long_tree, store_pair, page_tree,
      ev_mapping_tree_new]

/-! ## Removal of an item without reverse mapping -/

theorem remove_eq_of_run (item_field_at : gpointer → gpointer) (t : Tree) (item : gpointer) :
    ev_mapping_tree_remove item_field_at t item =
      if (ev_mapping_tree_remove_run item_field_at t item).returned then
        some (ev_mapping_tree_remove_run item_field_at t item).tree
      else none := by
  unfold ev_mapping_tree_remove ev_mapping_tree_remove_run
  cases t.reverse_index item with
  | none => rfl
  | some coords =>
    simp only
    cases g_list_find_custom ((t.cell_index coords).getD []) item
        (compare_item item_field_at) with
    | none => rfl
    | some pair => rfl

/-- C11 (removal of an unknown item) on the code: when the reverse index has
no mapping for the item, `g_hash_table_lookup` returns `NULL` and the first
statement of `ev_mapping_tree_remove` dereferences it.  There is no check and
no report (no `g_return_if_fail`, no message, no status): the call does not
return, which is the result `none` here, and it stops before its first write,
with the item list, the cell table, the reverse index, the depth mask and the
trace of the destructor as they were. -/
theorem remove_unknown_item_fails (item_field_at : gpointer → gpointer) (t : Tree)
    (item : gpointer) (h : t.reverse_index item = none) :
    ev_mapping_tree_remove item_field_at t item = none ∧
    (ev_mapping_tree_remove_run item_field_at t item).returned = false ∧
    (ev_mapping_tree_remove_run item_field_at t item).tree = t ∧
    (ev_mapping_tree_remove_run item_field_at t item).tree.items = t.items ∧
    (ev_mapping_tree_remove_run item_field_at t item).tree.cell_index = t.cell_index ∧
    (ev_mapping_tree_remove_run item_field_at t item).tree.reverse_index = t.reverse_index ∧
    (ev_mapping_tree_remove_run item_field_at t item).tree.depth_mask = t.depth_mask ∧
    (ev_mapping_tree_remove_run item_field_at t item).tree.destroyed = t.destroyed := by
  have hrun : ev_mapping_tree_remove_run item_field_at t item
      = { returned := false, tree := t } := by
    unfold ev_mapping_tree_remove_run
    rw [h]
  have hrem : ev_mapping_tree_remove item_field_at t item = none := by
    rw [remove_eq_of_run, hrun]
    rfl
  rw [hrun]
  exact ⟨hrem, rfl, rfl, rfl, rfl, rfl, rfl, rfl⟩

/-- The evaluation of C11 at the index of the test: the item `&l2` has no
reverse mapping after the first insertion, and its removal does not return. -/
theorem remove_unknown_item_fails_witness :
    (Test.tree1 8192).reverse_index Test.addr_l2 = none ∧
    ev_mapping_tree_remove (fun _ => word_of_one) (Test.tree1 8192) Test.addr_l2 = none ∧
    (ev_mapping_tree_remove_run (fun _ => word_of_one) (Test.tree1 8192) Test.addr_l2).tree =
      Test.tree1 8192 := by
  have h : (Test.tree1 8192).reverse_index Test.addr_l2 = none := by
    simp [Test.tree1, store_pair, Test.pair1, Test.tree0, ev_mapping_tree_new, Test.addr_l1,
      Test.addr_l2]
  exact ⟨h, (remove_unknown_item_fails (fun _ => word_of_one) (Test.tree1 8192) Test.addr_l2 h).1,
    (remove_unknown_item_fails (fun _ => word_of_one) (Test.tree1 8192) Test.addr_l2 h).2.2.1⟩

/-! ## Enumeration -/

theorem nth_off_end (t : Tree) (n : Nat) (h : ev_mapping_tree_length t ≤ n) :
    ev_mapping_tree_nth t n = NULL := by
  unfold ev_mapping_tree_nth
  rw [List.get?_eq_none.2 h]

theorem nth_in_range (t : Tree) (n : Nat) (h : n < ev_mapping_tree_length t) :
    ∃ pair, t.items.get? n = some pair ∧ ev_mapping_tree_nth t n = pair.addr := by
  unfold ev_mapping_tree_nth
  cases hg : t.items.get? n with
  | none => exact absurd (List.get?_eq_none.1 hg) (not_le.2 h)
  | some pair => exact ⟨pair, rfl, rfl⟩

theorem length_new (page : Nat) (extents : EvRectangle) :
    ev_mapping_tree_length (ev_mapping_tree_new page extents) = 0 := rfl

theorem length_store_pair (t : Tree) (p : ItemHitFunctionPair) (d cx cy : Int) :
    ev_mapping_tree_length (store_pair t p d cx cy) = ev_mapping_tree_length t + 1 := by
  simp [ev_mapping_tree_length, store_pair]

/-- C13 (enumeration) on the code: after the first insertion of the test the
length is `1` and `ev_mapping_tree_nth (tree, 1)` is `NULL`, but
`ev_mapping_tree_nth (tree, 0)` is the address of the `struct
ItemHitFunctionPair` that `ev_mapping_tree_add` allocated, not the item `&l1`
that was passed to it: `items` holds the pairs, and `g_list_nth_data` returns
the data of the node. -/
theorem nth_returns_pair_address (a1 : gpointer) (h : a1 ≠ Test.addr_l1) :
    ev_mapping_tree_add Test.tree0 a1 Test.addr_l1 Test.l1 (Test.is_on_line Test.rect_at) NULL =
      AddResult.returned (Test.tree1 a1) (make_cell_coordinates 26 1 3) ∧
    ev_mapping_tree_length (Test.tree1 a1) = 1 ∧
    ev_mapping_tree_nth (Test.tree1 a1) 1 = NULL ∧
    ev_mapping_tree_nth (Test.tree1 a1) 0 = a1 ∧
    ev_mapping_tree_nth (Test.tree1 a1) 0 ≠ Test.addr_l1 :=
  ⟨add_of_search Test.add_search_l1, rfl, rfl, rfl, h⟩

/-- Witness of the evaluation of C13, the pair being allocated at `8192`. -/
theorem nth_returns_pair_address_witness :
    (8192 : gpointer) ≠ Test.addr_l1 ∧
    ev_mapping_tree_nth (Test.tree1 8192) 0 = 8192 ∧
    ev_mapping_tree_nth (Test.tree1 8192) 0 ≠ Test.addr_l1 :=
  ⟨by decide, (nth_returns_pair_address 8192 (by decide)).2.2.2.1,
    (nth_returns_pair_address 8192 (by decide)).2.2.2.2⟩

/-! ## Reference counting -/

theorem ref_count_new (page : Nat) (extents : EvRectangle) :
    (ev_mapping_tree_new page extents).ref_count = 1 := rfl

theorem int32_of_eq {z : Int} (h0 : -2 ^ 31 ≤ z) (h1 : z < 2 ^ 31) : int32_of z = z := by
  unfold int32_of
  rw [Int.emod_eq_of_lt (by omega) (by omega)]
  omega

theorem ref_of_live (t : Tree) (h0 : 0 < t.ref_count) (h1 : t.ref_count < 2 ^ 31 - 1) :
    ev_mapping_tree_ref t = { t with ref_count := t.ref_count + 1 } := by
  unfold ev_mapping_tree_ref
  rw [if_pos h0, int32_of_eq (by omega) (by omega)]

theorem unref_of_shared (t : Tree) (h : 1 < t.ref_count) :
    ev_mapping_tree_unref t = UnrefResult.alive { t with ref_count := t.ref_count - 1 } := by
  unfold ev_mapping_tree_unref
  rw [if_pos (by omega), if_neg (by omega)]

theorem unref_of_last (t : Tree) (h : t.ref_count = 1) :
    ev_mapping_tree_unref t = UnrefResult.freed (t.items.foldl destroy_pair t.destroyed) := by
  unfold ev_mapping_tree_unref
  rw [if_pos (by omega), if_pos (by omega)]

/-- C14 (reference counting): a new index has reference count `1`; on a live
index (count positive, below the largest `gint` for `ref`) `ev_mapping_tree_ref`
adds exactly `1` to the count and `ev_mapping_tree_unref` either subtracts
exactly `1` and leaves everything else as it is, or frees the index; it frees
the index if and only if the count it reaches is `0`; an index with count `2`
is alive, with all its entries, after one `unref`. -/
theorem ref_count_state_machine :
    (∀ (page : Nat) (extents : EvRectangle),
      (ev_mapping_tree_new page extents).ref_count = 1) ∧
    (∀ t : Tree, 0 < t.ref_count → t.ref_count < 2 ^ 31 - 1 →
      ev_mapping_tree_ref t = { t with ref_count := t.ref_count + 1 }) ∧
    (∀ t : Tree, 0 < t.ref_count →
      ev_mapping_tree_unref t = UnrefResult.alive { t with ref_count := t.ref_count - 1 } ∨
      ∃ d, ev_mapping_tree_unref t = UnrefResult.freed d) ∧
    (∀ t : Tree, 0 < t.ref_count →
      ((∃ d, ev_mapping_tree_unref t = UnrefResult.freed d) ↔ t.ref_count - 1 = 0)) ∧
    (∀ t : Tree, t.ref_count = 2 →
      ev_mapping_tree_unref t = UnrefResult.alive { t with ref_count := 1 }) := by
  refine ⟨ref_count_new, ref_of_live, ?_, ?_, ?_⟩
  · intro t h
    by_cases h1 : t.ref_count = 1
    · exact Or.inr ⟨_, unref_of_last t h1⟩
    · exact Or.inl (unref_of_shared t (by omega))
  · intro t h
    constructor
    · rintro ⟨d, hd⟩
      by_contra hne
      rw [unref_of_shared t (by omega)] at hd
      exact UnrefResult.noConfusion hd
    · intro h1
      exact ⟨_, unref_of_last t (by omega)⟩
  · intro t h
    rw [unref_of_shared t (by omega), h]
    rfl

/-- Witness of C14: the index of the test, referenced once more, has count `2`;
one `unref` leaves it alive with count `1` and its two entries; the next `unref`
frees it. -/
theorem ref_count_state_machine_witness :
    (0 : Int) < (Test.tree2 8192 8224).ref_count ∧
    (Test.tree2 8192 8224).ref_count < 2 ^ 31 - 1 ∧
    shared_tree.ref_count = 2 ∧
    ev_mapping_tree_unref shared_tree = UnrefResult.alive (Test.tree2 8192 8224) ∧
    (Test.tree2 8192 8224).items = [Test.pair2 8224, Test.pair1 8192] ∧
    ((∃ d, ev_mapping_tree_unref (Test.tree2 8192 8224) = UnrefResult.freed d) ↔
      (Test.tree2 8192 8224).ref_count - 1 = 0) := by
  have h0 : (0 : Int) < (Test.tree2 8192 8224).ref_count := by decide
  have h1 : (Test.tree2 8192 8224).ref_count < 2 ^ 31 - 1 := by decide
  have h2 : shared_tree = { Test.tree2 8192 8224 with ref_count := 2 } := by
    unfold shared_tree
    rw [ref_count_state_machine.2.1 _ h0 h1]
    rfl
  refine ⟨h0, h1, ?_, ?_, rfl, ref_count_state_machine.2.2.2.1 _ h0⟩
  · rw [h2]
  · rw [ref_count_state_machine.2.2.2.2 shared_tree (by rw [h2]), h2]
    rfl

/-! ## The order of the entries -/

theorem sublist_eraseP_addr {l1 l2 : List ItemHitFunctionPair} (a : gpointer)
    (h : l1.Sublist l2) :
    (l1.eraseP (fun q => decide (q.addr = a))).Sublist
      (l2.eraseP (fun q => decide (q.addr = a))) := by
  induction h with
  | slnil => exact List.Sublist.refl _
  | @cons l1 l2 b h ih =>
    by_cases hb : b.addr = a
    · rw [List.eraseP_cons_of_pos (by simpa using hb)]
      exact (List.eraseP_sublist l1).trans h
    · rw [List.eraseP_cons_of_neg (by simpa using hb)]
      exact List.Sublist.cons _ ih
  | @cons₂ l1 l2 b h ih =>
    by_cases hb : b.addr = a
    · rw [List.eraseP_cons_of_pos (by simpa using hb),
        List.eraseP_cons_of_pos (by simpa using hb)]
      exact h
    · rw [List.eraseP_cons_of_neg (by simpa using hb),
        List.eraseP_cons_of_neg (by simpa using hb)]
      exact List.Sublist.cons₂ _ ih

theorem eraseP_addr_of_not_mem {l : List ItemHitFunctionPair} {a : gpointer}
    (h : ∀ q ∈ l, q.addr ≠ a) : l.eraseP (fun q => decide (q.addr = a)) = l :=
  List.eraseP_of_forall_not (fun q hq => by simpa using h q hq)

theorem cell_sublist_store_pair {t : Tree}
    (hs : ∀ k l, t.cell_index k = some l → l.Sublist t.items)
    (p : ItemHitFunctionPair) (d cx cy : Int) :
    ∀ k l, (store_pair t p d cx cy).cell_index k = some l →
      l.Sublist (store_pair t p d cx cy).items := by
  intro k l hk
  show l.Sublist (p :: t.items)
  rcases store_pair_cell_some hk with ⟨-, rfl⟩ | ⟨-, hk0⟩
  · apply List.Sublist.cons₂
    cases hc : t.cell_index (make_cell_coordinates d cx cy) with
    | none => exact List.nil_sublist _
    | some l0 => exact hs _ _ hc
  · exact List.Sublist.cons _ (hs k l hk0)

theorem cell_sublist_remove {item_field_at : gpointer → gpointer} {t t1 : Tree}
    {item : gpointer} (hw : WellFormed t)
    (hs : ∀ k l, t.cell_index k = some l → l.Sublist t.items)
    (h : ev_mapping_tree_remove item_field_at t item = some t1) :
    ∀ k l, t1.cell_index k = some l → l.Sublist t1.items := by
  obtain ⟨coords, cell, pair, -, hcell, hpair, -, rfl⟩ := remove_some_cases h
  intro k l hk
  obtain ⟨hkey, hk0⟩ := remove_cell_some hk
  show l.Sublist (t.items.eraseP (fun q => decide (q.addr = pair.addr)))
  have hne : ∀ q ∈ l, q.addr ≠ pair.addr := fun q hq hqa =>
    hkey (hw.cell_disjoint k coords l cell hk0 hcell q hq pair hpair hqa)
  rw [← eraseP_addr_of_not_mem hne]
  exact sublist_eraseP_addr _ (hs k l hk0)

theorem cell_sublist_of_reachable {t : Tree} (h : Reachable t) :
    ∀ k l, t.cell_index k = some l → l.Sublist t.items := by
  induction h with
  | new page extents =>
    intro k l hk
    simp [ev_mapping_tree_new] at hk
  | add addr item extents hit_func data key hr _ hadd ih =>
    rcases add_returned_cases hadd with ⟨rfl, -, -⟩ | ⟨d, cx, cy, -, rfl, -⟩
    · exact ih
    · exact cell_sublist_store_pair ih _ d cx cy
  | remove item_field_at item hr hrem ih =>
    exact cell_sublist_remove (wellFormed_of_reachable hr) ih hrem

theorem scan_cell_first_hit {x y : ℚ} {pre post : List ItemHitFunctionPair}
    {p : ItemHitFunctionPair} (hpre : ∀ q ∈ pre, q.hit_func q.item x y q.data = false)
    (hp : p.hit_func p.item x y p.data = true) :
    scan_cell x y (pre ++ p :: post) = some p.item := by
  induction pre with
  | nil => simp [scan_cell, hp]
  | cons q pre ih =>
    rw [List.cons_append]
    unfold scan_cell
    rw [hpre q (List.mem_cons_self _ _)]
    simp only [Bool.false_eq_true, if_false]
    exact ih (fun r hr => hpre r (List.mem_cons_of_mem _ hr))

theorem scan_cells_of_no_hit {x y : ℚ} {list : List (List ItemHitFunctionPair)}
    {cell : List ItemHitFunctionPair} (hall : ∀ c ∈ list, c = [] ∨ c = cell)
    (hs : scan_cell x y cell = none) : scan_cells x y list = none := by
  rw [scan_cells_eq_none]
  intro c hc q hq
  rw [scan_cell_eq_none] at hs
  rcases hall c hc with e | e
  · rw [e] at hq; simp at hq
  · rw [e] at hq; exact hs q hq

theorem scan_cells_single {x y : ℚ} {list : List (List ItemHitFunctionPair)}
    {cell : List ItemHitFunctionPair} (hall : ∀ c ∈ list, c = [] ∨ c = cell)
    (hmem : cell ∈ list) : scan_cells x y list = scan_cell x y cell := by
  induction list with
  | nil => simp at hmem
  | cons c rest ih =>
    have hrest : ∀ c1 ∈ rest, c1 = [] ∨ c1 = cell :=
      fun c1 hc1 => hall c1 (List.mem_cons_of_mem _ hc1)
    unfold scan_cells
    cases hs : scan_cell x y c with
    | some r =>
      rcases hall c (List.mem_cons_self _ _) with hc | hc
      · rw [hc] at hs; simp [scan_cell] at hs
      · rw [← hc, hs]
    | none =>
      simp only
      rcases List.mem_cons.1 hmem with h | h
      · rw [h, hs]
        exact scan_cells_of_no_hit hrest (h ▸ hs)
      · exact ih hrest h

theorem single_cell_eq_items {t : Tree} (hw : WellFormed t)
    (hs : ∀ k l, t.cell_index k = some l → l.Sublist t.items) {k : Int}
    {cell : List ItemHitFunctionPair} (hk : t.cell_index k = some cell)
    (hall : ∀ p ∈ t.items, in_cell t p k) : cell = t.items := by
  apply List.Sublist.eq_of_length_le (hs k cell hk)
  have hnd : t.items.Nodup := List.Nodup.of_map _ hw.addr_nodup
  have hsub : t.items ⊆ cell := by
    intro p hp
    obtain ⟨l, hl, hpl⟩ := hall p hp
    rw [hk] at hl
    rw [Option.some.inj hl]
    exact hpl
  exact (List.subperm_of_subset hnd hsub).length_le

/-- Order within one cell, as long as the lookup of the cell finds every stored
entry: in a reachable state whose entries all lie in the list that
`cell_index` holds for one cell, for a point inside the extents for which that
list is among those that `generate_valid_cells` returns, `ev_mapping_tree_get`
returns
the item of the first entry of `items` (the most recently inserted entry that
is still stored) whose hit function holds at the point; the entries behind it
have no influence on the result. -/
theorem get_last_inserted_first (t : Tree) (x y : ℚ) (k : Int)
    (cell : List ItemHitFunctionPair) (pre post : List ItemHitFunctionPair)
    (p : ItemHitFunctionPair) (hr : Reachable t)
    (hin : ev_mapping_tree_in_extents t x y = true)
    (hk : t.cell_index k = some cell) (hall : ∀ q ∈ t.items, in_cell t q k)
    (hprobe : cell ∈ generate_valid_cells t (ev_mapping_tree_normalize_coordinates t x y).x
      (ev_mapping_tree_normalize_coordinates t x y).y)
    (hitems : t.items = pre ++ p :: post)
    (hpre : ∀ q ∈ pre, q.hit_func q.item x y q.data = false)
    (hp : p.hit_func p.item x y p.data = true) :
    ev_mapping_tree_get t x y = p.item := by
  have hw := wellFormed_of_reachable hr
  have hs := cell_sublist_of_reachable hr
  have hcell : cell = t.items := single_cell_eq_items hw hs hk hall
  have hothers : ∀ c ∈ generate_valid_cells t (ev_mapping_tree_normalize_coordinates t x y).x
      (ev_mapping_tree_normalize_coordinates t x y).y, c = [] ∨ c = cell := by
    intro c hc
    rw [mem_generate_valid_cells] at hc
    obtain ⟨i, -, -, co, -, hco⟩ := hc
    by_cases hkey : make_cell_coordinates i co.1 co.2 = k
    · rw [hkey, hk] at hco
      exact Or.inr (Option.some.inj hco).symm
    · left
      cases c with
      | nil => rfl
      | cons q rest =>
        exfalso
        have hq : q ∈ t.items := hw.cell_sub _ _ hco q (List.mem_cons_self _ _)
        obtain ⟨l, hl, hql⟩ := hall q hq
        exact hkey (hw.cell_disjoint _ _ _ _ hco hl q (List.mem_cons_self _ _) q hql rfl)
  unfold ev_mapping_tree_get
  rw [if_pos hin]
  simp only
  rw [scan_cells_single hothers hprobe, hcell, hitems, scan_cell_first_hit hpre hp]

/-- In the index of the test both entries are in the cell of key `(26, 1, 3)`;
at `(-0.53, 1)` that cell is probed and the query returns the
item of the entry inserted last, `&l2`. -/
theorem get_last_inserted_first_witness :
    Reachable (Test.tree2 8192 8224) ∧
    ev_mapping_tree_in_extents (Test.tree2 8192 8224) (-53 / 100) 1 = true ∧
    (∀ q ∈ (Test.tree2 8192 8224).items,
      in_cell (Test.tree2 8192 8224) q (make_cell_coordinates 26 1 3)) ∧
    (Test.tree2 8192 8224).items = [] ++ Test.pair2 8224 :: [Test.pair1 8192] ∧
    ev_mapping_tree_get (Test.tree2 8192 8224) (-53 / 100) 1 = (Test.pair2 8224).item := by
  have hin : ev_mapping_tree_in_extents (Test.tree2 8192 8224) (-53 / 100) 1 = true := by
    rw [Test.tree2_in_extents]
    norm_num [ev_mapping_tree_in_extents, Test.tree0, ev_mapping_tree_new, Test.rect]
  have hall : ∀ q ∈ (Test.tree2 8192 8224).items,
      in_cell (Test.tree2 8192 8224) q (make_cell_coordinates 26 1 3) :=
    fun q hq => ⟨_, Test.tree2_cell 8192 8224, hq⟩
  exact ⟨Test.reachable_tree2 8192 8224 (by decide), hin, hall, rfl,
    get_last_inserted_first (Test.tree2 8192 8224) (-53 / 100) 1 (make_cell_coordinates 26 1 3)
      [Test.pair2 8224, Test.pair1 8192] [] [Test.pair1 8192] (Test.pair2 8224)
      (Test.reachable_tree2 8192 8224 (by decide)) hin (Test.tree2_cell 8192 8224) hall
      (Test.tree2_probe 8192 8224 _ _ (by norm_num) (by norm_num) (by norm_num) (by norm_num))
      rfl (fun q hq => by simp at hq) Test.hit_l2_on_line⟩

/-! ## The calls of the destructor -/

theorem add_loop_ne_fell_through (n1 n2 : EvPoint) (d s : Int) :
    add_loop n1 n2 3 0 d s ≠ LoopResult.fell_through := by
  simp only [add_loop]
  split_ifs <;> first | omega | simp

theorem add_search_ne_fell_through (t : Tree) (r : EvRectangle) :
    add_search t r ≠ LoopResult.fell_through := by
  unfold add_search
  exact add_loop_ne_fell_through _ _ _ _

theorem add_returned_stores {t t1 : Tree} {addr item : gpointer} {r : EvRectangle}
    {hit_func : EvMappingTreeHitFunction} {data : gpointer} {key : Int}
    (h : ev_mapping_tree_add t addr item r hit_func data = AddResult.returned t1 key) :
    ∃ d cx cy,
      t1 = store_pair t { addr := addr, hit_func := hit_func, item := item, data := data }
        d cx cy ∧ key = make_cell_coordinates d cx cy := by
  rcases add_returned_cases h with ⟨-, -, hf⟩ | ⟨d, cx, cy, -, h1, h2⟩
  · exact absurd hf (add_search_ne_fell_through t r)
  · exact ⟨d, cx, cy, h1, h2⟩

theorem wellFormed_congr {t t1 : Tree} (hi : t1.items = t.items)
    (hc : t1.cell_index = t.cell_index) (hw : WellFormed t) : WellFormed t1 := by
  constructor
  · rw [hi]; exact hw.addr_nodup
  · rw [hi, hc]; exact hw.cell_sub
  · rw [hc]; exact hw.cell_nodup
  · rw [hc]; exact hw.cell_disjoint

theorem ref_fields (t : Tree) :
    (ev_mapping_tree_ref t).items = t.items ∧
    (ev_mapping_tree_ref t).cell_index = t.cell_index ∧
    (ev_mapping_tree_ref t).reverse_index = t.reverse_index ∧
    (ev_mapping_tree_ref t).depth_mask = t.depth_mask ∧
    (ev_mapping_tree_ref t).destroyed = t.destroyed := by
  unfold ev_mapping_tree_ref
  split <;> exact ⟨rfl, rfl, rfl, rfl, rfl⟩

theorem unref_alive_fields {t t1 : Tree} (h : ev_mapping_tree_unref t = UnrefResult.alive t1) :
    t1.items = t.items ∧ t1.cell_index = t.cell_index ∧
    t1.reverse_index = t.reverse_index ∧ t1.depth_mask = t.depth_mask ∧
    t1.destroyed = t.destroyed := by
  unfold ev_mapping_tree_unref at h
  split_ifs at h
  · simp only [UnrefResult.alive.injEq] at h
    rw [← h]
    exact ⟨rfl, rfl, rfl, rfl, rfl⟩
  · simp only [UnrefResult.alive.injEq] at h
    rw [← h]
    exact ⟨rfl, rfl, rfl, rfl, rfl⟩

theorem unref_freed_trace {t : Tree} {d : List gpointer}
    (h : ev_mapping_tree_unref t = UnrefResult.freed d) :
    d = (t.items.map (fun p => p.item)).reverse ++ t.destroyed := by
  unfold ev_mapping_tree_unref at h
  split_ifs at h
  simp only [UnrefResult.freed.injEq] at h
  rw [← h]
  have : ∀ (l : List ItemHitFunctionPair) (acc : List gpointer),
      l.foldl destroy_pair acc = (l.map (fun p => p.item)).reverse ++ acc := by
    intro l
    induction l with
    | nil => intro acc; rfl
    | cons q l ih =>
      intro acc
      rw [List.foldl_cons, ih, List.map_cons, List.reverse_cons, List.append_assoc]
      rfl
  exact this _ _

theorem wellFormed_of_run {t : Tree} {added : List gpointer} (h : Run t added) :
    WellFormed t := by
  induction h with
  | new page extents => exact wellFormed_new page extents
  | add addr item extents hit_func data key _ hf hadd ih => exact wellFormed_add ih hf hadd
  | remove item_field_at item _ hrem ih => exact wellFormed_remove ih hrem
  | ref _ ih => exact wellFormed_congr (ref_fields _).1 (ref_fields _).2.1 ih
  | unref _ hun ih =>
    exact wellFormed_congr (unref_alive_fields hun).1 (unref_alive_fields hun).2.1 ih

theorem perm_eraseP_addr {l : List ItemHitFunctionPair} {p : ItemHitFunctionPair}
    (hn : (l.map (fun q => q.addr)).Nodup) (hp : p ∈ l) :
    (l.map (fun q => q.item)).Perm
      (p.item :: (l.eraseP (fun q => decide (q.addr = p.addr))).map (fun q => q.item)) := by
  induction l with
  | nil => simp at hp
  | cons q l ih =>
    by_cases hq : q.addr = p.addr
    · have e : q = p := eq_of_addr_eq hn (List.mem_cons_self _ _) hp hq
      rw [List.eraseP_cons_of_pos (by simpa using hq), List.map_cons, e]
    · rw [List.eraseP_cons_of_neg (by simpa using hq), List.map_cons, List.map_cons]
      have hpl : p ∈ l := by
        rcases List.mem_cons.1 hp with e | h
        · exact absurd (by rw [e]) hq
        · exact h
      rw [List.map_cons, List.nodup_cons] at hn
      exact ((ih hn.2 hpl).cons q.item).trans (List.Perm.swap _ _ _)

theorem perm_of_run {t : Tree} {added : List gpointer} (h : Run t added) :
    (t.items.map (fun p => p.item) ++ t.destroyed).Perm added := by
  induction h with
  | new page extents => simp [ev_mapping_tree_new]
  | add addr item extents hit_func data key _ hf hadd ih =>
    obtain ⟨d, cx, cy, rfl, -⟩ := add_returned_stores hadd
    exact ih.cons item
  | remove item_field_at item hr hrem ih =>
    have hw := wellFormed_of_run hr
    obtain ⟨coords, cell, pair, -, hcell, hpair, -, rfl⟩ := remove_some_cases hrem
    have hp := perm_eraseP_addr hw.addr_nodup (hw.cell_sub coords cell hcell pair hpair)
    refine List.Perm.trans ?_ ih
    refine List.Perm.trans ?_ (hp.symm.append_right _)
    simp only [List.cons_append]
    exact List.perm_middle
  | ref _ ih =>
    rw [(ref_fields _).1, (ref_fields _).2.2.2.2]
    exact ih
  | unref _ hun ih =>
    rw [(unref_alive_fields hun).1, (unref_alive_fields hun).2.2.2.2]
    exact ih

theorem run_twice_tree : Run twice_tree [8192, 8192] := by
  have h1 : Run (store_pair Test.tree0 (corner_pair 16) 0 0 0) [8192] :=
    Run.add 16 8192 lower_corner hit_always NULL _ (Run.new 1 Test.rect)
      (fun p hp => by simp [ev_mapping_tree_new] at hp)
      (add_of_search Test.add_search_lower_corner)
  refine Run.add 48 8192 upper_corner hit_always NULL _ h1 ?_
    (add_of_search ((add_search_extents Test.tree0 _ rfl upper_corner).trans
      Test.add_search_upper_corner))
  intro p hp
  simp only [store_pair, Test.tree0, ev_mapping_tree_new, List.mem_singleton] at hp
  rw [hp]
  decide

/-- C15 (destructor exactly once) on the code: the item `8192` is added twice
to the index of the test (at the lower and at the upper corner of the extents);
`ev_mapping_tree_add` allocates an entry for each call without looking for an
entry of the item, and the `unref` that brings the count to zero runs
`destroy_pair` on both entries: the destructor is called twice on that
item. -/
theorem twice_added_destroyed_twice :
    Run twice_tree [8192, 8192] ∧
    ev_mapping_tree_unref twice_tree = UnrefResult.freed [8192, 8192] ∧
    ¬ ([8192, 8192] : List gpointer).Nodup ∧
    ([8192, 8192] : List gpointer).count 8192 = 2 := by
  refine ⟨run_twice_tree, ?_, by decide, by decide⟩
  rw [unref_of_last twice_tree rfl]
  rfl

/-! ## The hit test of the ink annotation -/

theorem is_on_line_of_nonneg_projection (rect_at : gpointer → EvRectangle)
    (width_at : gpointer → ℚ) (a : gpointer) (x y : ℚ) (data : gpointer)
    (hproj : 0 ≤ (x - (rect_at a).x1) * ((rect_at a).x2 - (rect_at a).x1) +
      (y - (rect_at a).y1) * ((rect_at a).y2 - (rect_at a).y1)) :
    Ink.is_on_line rect_at width_at a x y data =
      Ink.spec_is_on_line (rect_at a) (width_at data * (1 / 2)) x y := by
  unfold Ink.is_on_line Ink.spec_is_on_line Ink.spec_sq_distance Ink.squared_distance
  simp only
  generalize (rect_at a).x1 = x1 at *
  generalize (rect_at a).y1 = y1 at *
  generalize (rect_at a).x2 = x2 at *
  generalize (rect_at a).y2 = y2 at *
  generalize width_at data * (1 / 2) * (width_at data * (1 / 2)) = H
  have hB : (x - x2) * (x - x2) + (y - y2) * (y - y2) =
      ((x - x1) * (x - x1) + (y - y1) * (y - y1)) -
        2 * ((x - x1) * (x2 - x1) + (y - y1) * (y2 - y1)) +
        ((x2 - x1) * (x2 - x1) + (y2 - y1) * (y2 - y1)) := by ring
  generalize hL : (x2 - x1) * (x2 - x1) + (y2 - y1) * (y2 - y1) = L at *
  generalize hP : (x - x1) * (x2 - x1) + (y - y1) * (y2 - y1) = P at *
  generalize hA : (x - x1) * (x - x1) + (y - y1) * (y - y1) = A at *
  rw [hB]
  have hL0 : 0 ≤ L := by
    rw [← hL]; exact add_nonneg (mul_self_nonneg _) (mul_self_nonneg _)
  rw [Bool.eq_iff_iff]
  simp only [decide_eq_true_eq]
  by_cases hz : L = 0
  · simp only [hz, ne_eq, not_true_eq_false, false_and, if_false, min_le_iff]
    split_ifs <;> simp_all
  · have hLpos : 0 < L := lt_of_le_of_ne hL0 (Ne.symm hz)
    have hq : P * P / L * L = P * P := by field_simp
    rcases lt_trichotomy P L with hlt | heq | hgt
    · have hperpA : A - P * P / L ≤ A := by
        have : 0 ≤ P * P / L := div_nonneg (mul_self_nonneg P) hL0
        linarith
      have hperpB : A - P * P / L ≤ A - 2 * P + L := by
        have : (L - P) * (L - P) / L = L - 2 * P + P * P / L := by field_simp; ring
        have h2 : 0 ≤ (L - P) * (L - P) / L := div_nonneg (mul_self_nonneg _) hL0
        linarith
      by_cases hperp : A - P * P / L ≤ H
      · simp [hz, hlt, hperp, hproj, hlt.le]
      · have h1 : ¬ A ≤ H := fun h => hperp (le_trans hperpA h)
        have h2 : ¬ A - 2 * P + L ≤ H := fun h => hperp (le_trans hperpB h)
        simp [hz, hlt, hperp, hproj, hlt.le, h1, h2]
    · subst heq
      have hperp : A - P * P / P = A - 2 * P + P := by field_simp; ring
      simp only [ne_eq, hz, not_false_eq_true, lt_self_iff_false, false_and, and_false,
        if_false, hproj, le_refl, and_self, if_true, hperp]
      constructor
      · intro h
        by_cases h3 : A ≤ H ∨ A - 2 * P + P ≤ H
        · rcases h3 with h3 | h3
          · linarith
          · exact h3
        · rw [if_neg h3] at h
          exact Bool.noConfusion h
      · intro h
        rw [if_pos (Or.inr h)]
    · have hnle : ¬ P ≤ L := not_le.2 hgt
      have hnlt : ¬ P < L := not_lt.2 hgt.le
      simp only [ne_eq, hz, not_false_eq_true, hnlt, false_and, and_false, if_false, hnle,
        min_le_iff]
      split_ifs <;> simp_all


/-- C16 (the hit test is the distance to the segment) on the code: for the
segment from `(0, 0)` to `(1, 0)`, half-width `0.05` and the point `(-5, 0)`,
which lies on the line through the segment at distance `5` before its start,
the squared distance to the segment is `25` and the test of the specification
fails, but `is_on_line` returns true: it takes the perpendicular distance to
the line whenever the projection is below the squared length, without asking
that it be non-negative.  The `is_on_line` of the test program does the same. -/
theorem is_on_line_behind_start :
    (0 : ℚ) ≤ 1 / 10 * (1 / 2) ∧
    Ink.spec_sq_distance unit_segment (-5) 0 = 25 ∧
    Ink.spec_is_on_line unit_segment (1 / 10 * (1 / 2)) (-5) 0 = false ∧
    Ink.is_on_line (fun _ => unit_segment) (fun _ => 1 / 10) 4096 (-5) 0 8192 = true ∧
    Test.is_on_line (fun _ => unit_segment) 4096 (-5) 0 NULL = true := by
  refine ⟨by norm_num, ?_, ?_, ?_, ?_⟩
  · norm_num [Ink.spec_sq_distance, Ink.squared_distance, unit_segment]
  · norm_num [Ink.spec_is_on_line, Ink.spec_sq_distance, Ink.squared_distance, unit_segment]
  · norm_num [Ink.is_on_line, Ink.squared_distance, unit_segment]
  · norm_num [Test.is_on_line, Test.squared_distance, unit_segment]

/-! ## The index of the ink annotation -/

namespace Ink

theorem foldl_paths (paths : List (List EvPoint)) (b : Bounds) :
    paths.foldl (fun b path => path.foldl bounds_step b) b =
      paths.flatten.foldl bounds_step b := by
  induction paths generalizing b with
  | nil => rfl
  | cons path rest ih => rw [List.foldl_cons, ih, List.flatten_cons, List.foldl_append]

theorem bounds_step_of_started (b : Bounds) (p : EvPoint) (h : b.first_time = false) :
    bounds_step b p =
      { first_time := false
        min_x := min b.min_x p.x
        min_y := min b.min_y p.y
        max_x := max b.max_x p.x
        max_y := max b.max_y p.y } := by
  simp [bounds_step, h]

theorem bounds_step_of_first (b : Bounds) (p : EvPoint) (h : b.first_time = true) :
    bounds_step b p =
      { first_time := false, min_x := p.x, min_y := p.y, max_x := p.x, max_y := p.y } := by
  simp [bounds_step, h]

theorem foldl_started (points : List EvPoint) (b : Bounds) (h : b.first_time = false) :
    (points.foldl bounds_step b).first_time = false ∧
    ((points.foldl bounds_step b).min_x ≤ b.min_x ∧
      b.max_x ≤ (points.foldl bounds_step b).max_x ∧
      (points.foldl bounds_step b).min_y ≤ b.min_y ∧
      b.max_y ≤ (points.foldl bounds_step b).max_y) ∧
    (∀ p ∈ points,
      (points.foldl bounds_step b).min_x ≤ p.x ∧ p.x ≤ (points.foldl bounds_step b).max_x ∧
      (points.foldl bounds_step b).min_y ≤ p.y ∧ p.y ≤ (points.foldl bounds_step b).max_y) ∧
    (((points.foldl bounds_step b).min_x = b.min_x ∨
        ∃ p ∈ points, (points.foldl bounds_step b).min_x = p.x) ∧
      ((points.foldl bounds_step b).max_x = b.max_x ∨
        ∃ p ∈ points, (points.foldl bounds_step b).max_x = p.x) ∧
      ((points.foldl bounds_step b).min_y = b.min_y ∨
        ∃ p ∈ points, (points.foldl bounds_step b).min_y = p.y) ∧
      ((points.foldl bounds_step b).max_y = b.max_y ∨
        ∃ p ∈ points, (points.foldl bounds_step b).max_y = p.y)) := by
  induction points generalizing b with
  | nil => simp [h]
  | cons q rest ih =>
    rw [List.foldl_cons, bounds_step_of_started b q h]
    obtain ⟨h1, ⟨h2, h3, h4, h5⟩, h6, h7, h8, h9, h10⟩ :=
      ih { first_time := false
           min_x := min b.min_x q.x
           min_y := min b.min_y q.y
           max_x := max b.max_x q.x
           max_y := max b.max_y q.y } rfl
    simp only at h2 h3 h4 h5 h7 h8 h9 h10
    refine ⟨h1, ⟨?_, ?_, ?_, ?_⟩, ?_, ?_, ?_, ?_, ?_⟩
    · exact le_trans h2 (min_le_left _ _)
    · exact le_trans (le_max_left _ _) h3
    · exact le_trans h4 (min_le_left _ _)
    · exact le_trans (le_max_left _ _) h5
    · intro p hp
      rcases List.mem_cons.1 hp with e | hp
      · rw [e]
        exact ⟨le_trans h2 (min_le_right _ _), le_trans (le_max_right _ _) h3,
          le_trans h4 (min_le_right _ _), le_trans (le_max_right _ _) h5⟩
      · exact h6 p hp
    · rcases h7 with e | ⟨p, hp, e⟩
      · rcases min_choice b.min_x q.x with m | m
        · left; rw [e, m]
        · right; exact ⟨q, List.mem_cons_self _ _, by rw [e, m]⟩
      · right; exact ⟨p, List.mem_cons_of_mem _ hp, e⟩
    · rcases h8 with e | ⟨p, hp, e⟩
      · rcases max_choice b.max_x q.x with m | m
        · left; rw [e, m]
        · right; exact ⟨q, List.mem_cons_self _ _, by rw [e, m]⟩
      · right; exact ⟨p, List.mem_cons_of_mem _ hp, e⟩
    · rcases h9 with e | ⟨p, hp, e⟩
      · rcases min_choice b.min_y q.y with m | m
        · left; rw [e, m]
        · right; exact ⟨q, List.mem_cons_self _ _, by rw [e, m]⟩
      · right; exact ⟨p, List.mem_cons_of_mem _ hp, e⟩
    · rcases h10 with e | ⟨p, hp, e⟩
      · rcases max_choice b.max_y q.y with m | m
        · left; rw [e, m]
        · right; exact ⟨q, List.mem_cons_self _ _, by rw [e, m]⟩
      · right; exact ⟨p, List.mem_cons_of_mem _ hp, e⟩

theorem bounds_of_points (paths : List (List EvPoint)) :
    (∀ p ∈ paths.flatten,
      (bounds_of paths).min_x ≤ p.x ∧ p.x ≤ (bounds_of paths).max_x ∧
      (bounds_of paths).min_y ≤ p.y ∧ p.y ≤ (bounds_of paths).max_y) ∧
    (paths.flatten ≠ [] →
      (∃ p ∈ paths.flatten, (bounds_of paths).min_x = p.x) ∧
      (∃ p ∈ paths.flatten, (bounds_of paths).max_x = p.x) ∧
      (∃ p ∈ paths.flatten, (bounds_of paths).min_y = p.y) ∧
      (∃ p ∈ paths.flatten, (bounds_of paths).max_y = p.y)) := by
  unfold bounds_of
  rw [foldl_paths]
  cases hf : paths.flatten with
  | nil => simp
  | cons q rest =>
    rw [List.foldl_cons, bounds_step_of_first _ q rfl]
    obtain ⟨-, ⟨h2, h3, h4, h5⟩, h6, h7, h8, h9, h10⟩ :=
      foldl_started rest
        { first_time := false, min_x := q.x, min_y := q.y, max_x := q.x, max_y := q.y } rfl
    simp only at h2 h3 h4 h5 h7 h8 h9 h10
    constructor
    · intro p hp
      rcases List.mem_cons.1 hp with e | hp
      · rw [e]; exact ⟨h2, h3, h4, h5⟩
      · exact h6 p hp
    · intro _
      refine ⟨?_, ?_, ?_, ?_⟩
      · rcases h7 with e | ⟨p, hp, e⟩
        · exact ⟨q, List.mem_cons_self _ _, e⟩
        · exact ⟨p, List.mem_cons_of_mem _ hp, e⟩
      · rcases h8 with e | ⟨p, hp, e⟩
        · exact ⟨q, List.mem_cons_self _ _, e⟩
        · exact ⟨p, List.mem_cons_of_mem _ hp, e⟩
      · rcases h9 with e | ⟨p, hp, e⟩
        · exact ⟨q, List.mem_cons_self _ _, e⟩
        · exact ⟨p, List.mem_cons_of_mem _ hp, e⟩
      · rcases h10 with e | ⟨p, hp, e⟩
        · exact ⟨q, List.mem_cons_self _ _, e⟩
        · exact ⟨p, List.mem_cons_of_mem _ hp, e⟩

theorem mem_segment_calls {half_width : ℚ} {path : List EvPoint}
    {call : EvRectangle × EvRectangle} (h : call ∈ segment_calls half_width path) :
    ∃ prev ∈ path, ∃ p ∈ path,
      call.1 = { x1 := prev.x, x2 := p.x, y1 := prev.y, y2 := p.y } ∧
      call.2 = { x1 := min p.x prev.x - half_width
                 x2 := max p.x prev.x + half_width
                 y1 := min p.y prev.y - half_width
                 y2 := max p.y prev.y + half_width } := by
  induction path with
  | nil => simp [segment_calls] at h
  | cons a rest ih =>
    cases rest with
    | nil => simp [segment_calls] at h
    | cons b rest2 =>
      rw [segment_calls, List.mem_cons] at h
      rcases h with e | h
      · exact ⟨a, List.mem_cons_self _ _, b, List.mem_cons_of_mem _ (List.mem_cons_self _ _),
          by rw [e], by rw [e]⟩
      · obtain ⟨prev, hprev, p, hp, e1, e2⟩ := ih h
        exact ⟨prev, List.mem_cons_of_mem _ hprev, p, List.mem_cons_of_mem _ hp, e1, e2⟩

theorem length_segment_calls (half_width : ℚ) (path : List EvPoint) :
    (segment_calls half_width path).length = path.length - 1 := by
  induction path with
  | nil => rfl
  | cons a rest ih =>
    cases rest with
    | nil => rfl
    | cons b rest2 =>
      rw [segment_calls, List.length_cons, ih]
      simp

end Ink

/-- C17 (the rectangles of the ink annotation): for every list of paths and
every width `w ≥ 0`, `ev_annotation_ink_set_paths` creates the index with the
extents `(min_x - w/2, min_y - w/2, max_x + w/2, max_y + w/2)`, where `min_x`,
`max_x`, `min_y`, `max_y` bound the coordinates of all the points of the paths
and are attained when there is a point; each call of `ev_mapping_tree_add` is
made for two consecutive points of a path, with the bounding box of the two
points expanded by `w/2`, and both corners of that rectangle lie inside the
extents. -/
theorem set_paths_rects_in_extents (paths : List (List EvPoint)) (width : ℚ)
    (hw : 0 ≤ width) :
    (Ink.ev_annotation_ink_set_paths paths width).1.extents = Ink.extents_of paths width ∧
    (∀ p ∈ paths.flatten,
      (Ink.extents_of paths width).x1 + width / 2 ≤ p.x ∧
      p.x ≤ (Ink.extents_of paths width).x2 - width / 2 ∧
      (Ink.extents_of paths width).y1 + width / 2 ≤ p.y ∧
      p.y ≤ (Ink.extents_of paths width).y2 - width / 2) ∧
    (paths.flatten ≠ [] →
      (∃ p ∈ paths.flatten, (Ink.extents_of paths width).x1 = p.x - width / 2) ∧
      (∃ p ∈ paths.flatten, (Ink.extents_of paths width).x2 = p.x + width / 2) ∧
      (∃ p ∈ paths.flatten, (Ink.extents_of paths width).y1 = p.y - width / 2) ∧
      (∃ p ∈ paths.flatten, (Ink.extents_of paths width).y2 = p.y + width / 2)) ∧
    (∀ call ∈ (Ink.ev_annotation_ink_set_paths paths width).2,
      (∃ path ∈ paths, ∃ prev ∈ path, ∃ p ∈ path,
        call.1 = { x1 := prev.x, x2 := p.x, y1 := prev.y, y2 := p.y } ∧
        call.2 = { x1 := min p.x prev.x - width / 2
                   x2 := max p.x prev.x + width / 2
                   y1 := min p.y prev.y - width / 2
                   y2 := max p.y prev.y + width / 2 }) ∧
      ev_mapping_tree_in_extents (Ink.ev_annotation_ink_set_paths paths width).1
        call.2.x1 call.2.y1 = true ∧
      ev_mapping_tree_in_extents (Ink.ev_annotation_ink_set_paths paths width).1
        call.2.x2 call.2.y2 = true) := by
  obtain ⟨hb, hatt⟩ := Ink.bounds_of_points paths
  refine ⟨rfl, ?_, ?_, ?_⟩
  · intro p hp
    obtain ⟨h1, h2, h3, h4⟩ := hb p hp
    simp only [Ink.extents_of]
    exact ⟨by linarith, by linarith, by linarith, by linarith⟩
  · intro hne
    obtain ⟨⟨p1, hp1, e1⟩, ⟨p2, hp2, e2⟩, ⟨p3, hp3, e3⟩, ⟨p4, hp4, e4⟩⟩ := hatt hne
    simp only [Ink.extents_of]
    exact ⟨⟨p1, hp1, by rw [e1]⟩, ⟨p2, hp2, by rw [e2]⟩, ⟨p3, hp3, by rw [e3]⟩,
      ⟨p4, hp4, by rw [e4]⟩⟩
  · intro call hcall
    simp only [Ink.ev_annotation_ink_set_paths, List.mem_flatten, List.mem_map] at hcall
    obtain ⟨calls, ⟨path, hpath, rfl⟩, hmem⟩ := hcall
    obtain ⟨prev, hprev, p, hp, e1, e2⟩ := Ink.mem_segment_calls hmem
    have hprev1 := hb prev (List.mem_flatten.2 ⟨path, hpath, hprev⟩)
    have hp1 := hb p (List.mem_flatten.2 ⟨path, hpath, hp⟩)
    refine ⟨⟨path, hpath, prev, hprev, p, hp, e1, e2⟩, ?_, ?_⟩
    · rw [in_extents_iff, e2]
      simp only [Ink.ev_annotation_ink_set_paths, ev_mapping_tree_new, Ink.extents_of]
      have a1 := min_le_left p.x prev.x
      have a2 : (Ink.bounds_of paths).min_x ≤ min p.x prev.x := le_min hp1.1 hprev1.1
      have a3 := min_le_left p.y prev.y
      have a4 : (Ink.bounds_of paths).min_y ≤ min p.y prev.y := le_min hp1.2.2.1 hprev1.2.2.1
      refine ⟨by linarith, by linarith [hp1.2.1], by linarith, by linarith [hp1.2.2.2]⟩
    · rw [in_extents_iff, e2]
      simp only [Ink.ev_annotation_ink_set_paths, ev_mapping_tree_new, Ink.extents_of]
      have a1 := le_max_left p.x prev.x
      have a2 : max p.x prev.x ≤ (Ink.bounds_of paths).max_x := max_le hp1.2.1 hprev1.2.1
      have a3 := le_max_left p.y prev.y
      have a4 : max p.y prev.y ≤ (Ink.bounds_of paths).max_y := max_le hp1.2.2.2 hprev1.2.2.2
      refine ⟨by linarith [hp1.1], by linarith, by linarith [hp1.2.2.1], by linarith⟩

/-- Witness of C17: one path of two points, `(0, 0)` and `(1, 2)`, and width
`0.1`: the only rectangle passed to `add` has its corners inside the extents. -/
theorem set_paths_rects_in_extents_witness :
    (0 : ℚ) ≤ 1 / 10 ∧
    (Ink.ev_annotation_ink_set_paths [[⟨0, 0⟩, ⟨1, 2⟩]] (1 / 10)).2.length = 1 ∧
    ∀ call ∈ (Ink.ev_annotation_ink_set_paths [[⟨0, 0⟩, ⟨1, 2⟩]] (1 / 10)).2,
      ev_mapping_tree_in_extents (Ink.ev_annotation_ink_set_paths [[⟨0, 0⟩, ⟨1, 2⟩]] (1 / 10)).1
        call.2.x1 call.2.y1 = true ∧
      ev_mapping_tree_in_extents (Ink.ev_annotation_ink_set_paths [[⟨0, 0⟩, ⟨1, 2⟩]] (1 / 10)).1
        call.2.x2 call.2.y2 = true :=
  ⟨by norm_num, rfl, fun call hcall =>
    ((set_paths_rects_in_extents [[⟨0, 0⟩, ⟨1, 2⟩]] (1 / 10) (by norm_num)).2.2.2
      call hcall).2⟩

/-! ## Entries do not move -/

theorem remove_some_of_found {item_field_at : gpointer → gpointer} {t : Tree}
    {item : gpointer} {coords : Int} {cell : List ItemHitFunctionPair}
    {p : ItemHitFunctionPair} (hr : t.reverse_index item = some coords)
    (hc : t.cell_index coords = some cell) (hp : p ∈ cell)
    (ha : p.addr = item_field_at item) :
    ∃ t1, ev_mapping_tree_remove item_field_at t item = some t1 := by
  unfold ev_mapping_tree_remove
  rw [hr]
  simp only [hc, Option.getD_some]
  cases hf : g_list_find_custom cell item (compare_item item_field_at) with
  | some pair => exact ⟨_, rfl⟩
  | none =>
    exfalso
    unfold g_list_find_custom at hf
    rw [List.find?_eq_none] at hf
    have := hf p hp
    simp only [decide_eq_true_eq, compare_item_eq_zero] at this
    exact this ha

/-! ## How far a stored rectangle reaches past its cell -/

theorem axis_stored_bounds {a b : ℚ} {s : Int} (ha : 0 ≤ a) (hb : 0 ≤ b) (hs : 0 < s)
    (h : axis_fits a b s = true) :
    (((min (corner_cell a s) (corner_cell b s) : Int) : ℚ) * s - margin_of s ≤ a ∧
      a < ((min (corner_cell a s) (corner_cell b s) : Int) : ℚ) * s + 2 * s - margin_of s) ∧
    (((min (corner_cell a s) (corner_cell b s) : Int) : ℚ) * s - margin_of s ≤ b ∧
      b < ((min (corner_cell a s) (corner_cell b s) : Int) : ℚ) * s + 2 * s - margin_of s) := by
  have hs' : (0 : ℚ) < s := by exact_mod_cast hs
  have hab := (axis_fits_iff ha hb hs).1 h
  rw [abs_le] at hab
  have h1 := corner_residual_ge ha hs
  have h2 := corner_residual_lt ha hs
  have h3 := corner_residual_ge hb hs
  have h4 := corner_residual_lt hb hs
  unfold corner_residual at h1 h2 h3 h4
  push_cast at h1 h2 h3 h4
  have hma : ((min (corner_cell a s) (corner_cell b s) : Int) : ℚ) ≤ (corner_cell a s : ℚ) := by
    exact_mod_cast min_le_left _ _
  have hmb : ((min (corner_cell a s) (corner_cell b s) : Int) : ℚ) ≤ (corner_cell b s : ℚ) := by
    exact_mod_cast min_le_right _ _
  have hua : (corner_cell a s : ℚ) ≤ ((min (corner_cell a s) (corner_cell b s) : Int) : ℚ) + 1 := by
    have : corner_cell a s ≤ min (corner_cell a s) (corner_cell b s) + 1 := by
      rcases le_total (corner_cell a s) (corner_cell b s) with hc | hc
      · rw [min_eq_left hc]; omega
      · rw [min_eq_right hc]; omega
    exact_mod_cast this
  have hub : (corner_cell b s : ℚ) ≤ ((min (corner_cell a s) (corner_cell b s) : Int) : ℚ) + 1 := by
    have : corner_cell b s ≤ min (corner_cell a s) (corner_cell b s) + 1 := by
      rcases le_total (corner_cell a s) (corner_cell b s) with hc | hc
      · rw [min_eq_left hc]; omega
      · rw [min_eq_right hc]; omega
    exact_mod_cast this
  refine ⟨⟨?_, ?_⟩, ?_, ?_⟩ <;> nlinarith

/-- C19 (loose-cell containment), the failing input: on the index of a page
of 100 by 100 the rectangle `((32.5, 10), (62.51, 11))` lies inside the
extents and `ev_mapping_tree_add` stores it at depth 26 in the cell `(1, 0)`;
its normalized corner `x2 = 0.6251 * 2^28` lies beyond
`(1 + 1) * 2^26 + margin`, the upper end of the cell enlarged by the margin
`0.999 * 2^26 / 2`, although the lower ends and the y axis are within the
enlarged cell. -/
theorem long_stroke_exceeds_margin (addr : gpointer) :
    ev_mapping_tree_in_extents page_tree long_rect.x1 long_rect.y1 = true ∧
    ev_mapping_tree_in_extents page_tree long_rect.x2 long_rect.y2 = true ∧
    ev_mapping_tree_add page_tree addr 8192 long_rect hit_always NULL =
      AddResult.returned (long_tree addr) (make_cell_coordinates 26 1 0) ∧
    margin_of (2 ^ 26) = 999 / 1000 * 2 ^ 26 / 2 ∧
    (ev_mapping_tree_normalize_coordinates page_tree long_rect.x2 long_rect.y2).x
      = 6251 / 10000 * 2 ^ 28 ∧
    ((1 : ℚ) + 1) * 2 ^ 26 + margin_of (2 ^ 26) <
      (ev_mapping_tree_normalize_coordinates page_tree long_rect.x2 long_rect.y2).x ∧
    (1 : ℚ) * 2 ^ 26 - margin_of (2 ^ 26) ≤
      (ev_mapping_tree_normalize_coordinates page_tree long_rect.x1 long_rect.y1).x ∧
    ((0 : ℚ) * 2 ^ 26 - margin_of (2 ^ 26) ≤
        (ev_mapping_tree_normalize_coordinates page_tree long_rect.x1 long_rect.y1).y ∧
      (ev_mapping_tree_normalize_coordinates page_tree long_rect.x2 long_rect.y2).y ≤
        ((0 : ℚ) + 1) * 2 ^ 26 + margin_of (2 ^ 26)) := by
  rw [normalize_long_first, normalize_long_second]
  refine ⟨?_, ?_, ?_, ?_, rfl, ?_, ?_, ?_, ?_⟩
  · norm_num [ev_mapping_tree_in_extents, page_tree, ev_mapping_tree_new, long_rect]
  · norm_num [ev_mapping_tree_in_extents, page_tree, ev_mapping_tree_new, long_rect]
  · rw [add_of_search add_search_long]
    rfl
  · norm_num [margin_of, EXPANSION]
  · norm_num [margin_of, EXPANSION]
  · norm_num [margin_of, EXPANSION]
  · norm_num [margin_of, EXPANSION]
  · norm_num [margin_of, EXPANSION]

/-! ## The number of cells probed at one depth -/

theorem length_diagonal_coords (y : ℚ) (i : Nat) (X : Int) :
    (diagonal_coords y i X).length ≤ 1 := by
  unfold diagonal_coords
  split_ifs <;> simp

theorem length_foldl_TEST_AND_ADD_COORDS (t : Tree) (i : Nat) (coords : List (Int × Int))
    (acc : List (List ItemHitFunctionPair)) :
    (coords.foldl (TEST_AND_ADD_COORDS t i) acc).length ≤ acc.length + coords.length := by
  induction coords generalizing acc with
  | nil => simp
  | cons c cs ih =>
    rw [List.foldl_cons]
    refine le_trans (ih _) ?_
    unfold TEST_AND_ADD_COORDS
    cases t.cell_index (make_cell_coordinates i c.1 c.2) with
    | none => simp only [List.length_cons]; omega
    | some cell => simp only [List.length_cons]; omega

/-- C20 (at most four cells per depth): at every depth `i` the loop body of
`generate_valid_cells` runs `TEST_AND_ADD_COORDS` for at most 4 cells: the
home cell, then at most one horizontal neighbour `(cx ± 1, cy)`, at most one
diagonal neighbour `(cx ± 1, cy ± 1)` and at most one vertical neighbour
`(cx, cy ± 1)`; hence one iteration adds at most 4 cell lists to the
accumulated list, and none when the mask bit of the depth is not set. -/
theorem at_most_four_cells_per_depth (x y : ℚ) (i : Nat) :
    (candidate_coords x y i).length ≤ 4 ∧
    (∃ h d v : List (Int × Int),
      candidate_coords x y i = (home_cell x i, home_cell y i) :: (h ++ d ++ v) ∧
      h.length ≤ 1 ∧ d.length ≤ 1 ∧ v.length ≤ 1 ∧
      (∀ c ∈ h, (c.1 = home_cell x i - 1 ∨ c.1 = home_cell x i + 1) ∧ c.2 = home_cell y i) ∧
      (∀ c ∈ d, (c.1 = home_cell x i - 1 ∨ c.1 = home_cell x i + 1) ∧
        (c.2 = home_cell y i - 1 ∨ c.2 = home_cell y i + 1)) ∧
      (∀ c ∈ v, c.1 = home_cell x i ∧
        (c.2 = home_cell y i - 1 ∨ c.2 = home_cell y i + 1))) ∧
    (∀ (t : Tree) (acc : List (List ItemHitFunctionPair)),
      (cells_at_depth t x y acc i).length ≤ acc.length + 4 ∧
      (t.depth_mask.getD i false = false → cells_at_depth t x y acc i = acc)) := by
  have hstruct : ∃ h d v : List (Int × Int),
      candidate_coords x y i = (home_cell x i, home_cell y i) :: (h ++ d ++ v) ∧
      h.length ≤ 1 ∧ d.length ≤ 1 ∧ v.length ≤ 1 ∧
      (∀ c ∈ h, (c.1 = home_cell x i - 1 ∨ c.1 = home_cell x i + 1) ∧ c.2 = home_cell y i) ∧
      (∀ c ∈ d, (c.1 = home_cell x i - 1 ∨ c.1 = home_cell x i + 1) ∧
        (c.2 = home_cell y i - 1 ∨ c.2 = home_cell y i + 1)) ∧
      (∀ c ∈ v, c.1 = home_cell x i ∧
        (c.2 = home_cell y i - 1 ∨ c.2 = home_cell y i + 1)) := by
    have hv : ∃ v : List (Int × Int),
        (if ov_upper y i then [(home_cell x i, home_cell y i + 1)]
          else if ov_lower y i then [(home_cell x i, home_cell y i - 1)] else []) = v ∧
        v.length ≤ 1 ∧
        ∀ c ∈ v, c.1 = home_cell x i ∧
          (c.2 = home_cell y i - 1 ∨ c.2 = home_cell y i + 1) := by
      refine ⟨_, rfl, ?_, ?_⟩
      · split_ifs <;> simp
      · intro c hc
        split_ifs at hc <;> simp at hc <;> subst hc <;> simp
    have hd : ∀ X : Int, (X = home_cell x i - 1 ∨ X = home_cell x i + 1) →
        ∀ c ∈ diagonal_coords y i X, (c.1 = home_cell x i - 1 ∨ c.1 = home_cell x i + 1) ∧
          (c.2 = home_cell y i - 1 ∨ c.2 = home_cell y i + 1) := by
      intro X hX c hc
      unfold diagonal_coords at hc
      split_ifs at hc <;> simp at hc <;> subst hc <;> simp [hX]
    obtain ⟨v, hveq, hvlen, hvmem⟩ := hv
    unfold candidate_coords
    rw [hveq]
    by_cases hl : ov_left x i = true
    · refine ⟨[(home_cell x i - 1, home_cell y i)], diagonal_coords y i (home_cell x i - 1), v,
        ?_, by simp, length_diagonal_coords _ _ _, hvlen, ?_, hd _ (Or.inl rfl), hvmem⟩
      · simp [hl]
      · intro c hc
        simp at hc
        subst hc
        simp
    · by_cases hr : ov_right x i = true
      · refine ⟨[(home_cell x i + 1, home_cell y i)], diagonal_coords y i (home_cell x i + 1), v,
          ?_, by simp, length_diagonal_coords _ _ _, hvlen, ?_, hd _ (Or.inr rfl), hvmem⟩
        · simp [hl, hr]
        · intro c hc
          simp at hc
          subst hc
          simp
      · refine ⟨[], [], v, ?_, by simp, by simp, hvlen, ?_, ?_, hvmem⟩
        · simp [hl, hr]
        · intro c hc; simp at hc
        · intro c hc; simp at hc
  have hlen : (candidate_coords x y i).length ≤ 4 := by
    obtain ⟨h, d, v, heq, hh, hd, hv, -⟩ := hstruct
    rw [heq]
    simp only [List.length_cons, List.length_append]
    omega
  refine ⟨hlen, hstruct, ?_⟩
  intro t acc
  constructor
  · unfold cells_at_depth
    split_ifs
    · exact le_trans (length_foldl_TEST_AND_ADD_COORDS t i _ acc) (by omega)
    · omega
  · intro hm
    unfold cells_at_depth
    rw [hm]
    simp

/-- Witness of C20: the point `(1, 1)` at depth `0`, on the new index of the
test (no mask bit set: nothing is added) and on the index after the first
insertion at depth `26` (mask bit set: at most 4 lists are added). -/
theorem at_most_four_cells_per_depth_witness :
    (candidate_coords 1 1 0).length ≤ 4 ∧
    Test.tree0.depth_mask.getD 0 false = false ∧
    cells_at_depth Test.tree0 1 1 [] 0 = [] ∧
    (Test.tree1 8192).depth_mask.getD 26 false = true ∧
    (cells_at_depth (Test.tree1 8192) 1 1 [] 26).length ≤ 4 :=
  ⟨(at_most_four_cells_per_depth 1 1 0).1, rfl,
    ((at_most_four_cells_per_depth 1 1 0).2.2 Test.tree0 []).2 rfl, rfl,
    ((at_most_four_cells_per_depth 1 1 26).2.2 (Test.tree1 8192) []).1⟩

/-! ## The first guess of the depth -/

theorem ceil_log2_le_iff {span : ℚ} (h : 0 < span) (k : Int) :
    ceil_log2 span ≤ k ↔ span ≤ (2 : ℚ) ^ k := by
  unfold ceil_log2
  rw [← Int.le_zpow_iff_clog_le (b := 2) (by norm_num) h]
  norm_num

theorem attempt_fits_self (n : EvPoint) (s : Int) : attempt_fits n n s = true := by
  simp [attempt_fits, axis_fits]

theorem add_search_degenerate (t : Tree) (r : EvRectangle) (hx : r.x2 = r.x1)
    (hy : r.y2 = r.y1) :
    add_search t r = LoopResult.accepted 0
      (corner_cell (ev_mapping_tree_normalize_coordinates t r.x1 r.y1).x 1)
      (corner_cell (ev_mapping_tree_normalize_coordinates t r.x1 r.y1).y 1) := by
  unfold add_search
  rw [hx, hy]
  simp only
  have hspan : span_of (ev_mapping_tree_normalize_coordinates t r.x1 r.y1)
      (ev_mapping_tree_normalize_coordinates t r.x1 r.y1) = 0 := by
    simp [span_of]
  rw [hspan, initial_depth_zero]
  simp [add_loop, attempt_fits_self]

/-- The first guess of the depth in exact arithmetic: for a rectangle inside
non-degenerate extents, the loop of `ev_mapping_tree_add` starts at the depth
`initial_depth span` with `span = max (|dx|, |dy|)` of the normalized corners
and the cell size `2 ^ depth`; that depth is `max (0, ceil_log2 span - 1)`,
where for a positive span `ceil_log2 span` is the least integer `k` with
`span ≤ 2 ^ k`; the call stores the item at that depth or at the next one.
For a rectangle whose two corners are equal the span is `0`, the first guess
is `0`, the first attempt accepts, and the item is stored at depth `0`. -/
theorem add_starts_at_initial_depth (t : Tree) (addr item : gpointer) (r : EvRectangle)
    (hit_func : EvMappingTreeHitFunction) (data : gpointer)
    (hx : t.extents.x1 < t.extents.x2) (hy : t.extents.y1 < t.extents.y2)
    (h1 : ev_mapping_tree_in_extents t r.x1 r.y1 = true)
    (h2 : ev_mapping_tree_in_extents t r.x2 r.y2 = true) :
    add_search t r =
      add_loop (ev_mapping_tree_normalize_coordinates t r.x1 r.y1)
        (ev_mapping_tree_normalize_coordinates t r.x2 r.y2) 3 0
        (initial_depth (span_of (ev_mapping_tree_normalize_coordinates t r.x1 r.y1)
          (ev_mapping_tree_normalize_coordinates t r.x2 r.y2)))
        (2 ^ (initial_depth (span_of (ev_mapping_tree_normalize_coordinates t r.x1 r.y1)
          (ev_mapping_tree_normalize_coordinates t r.x2 r.y2))).toNat) ∧
    span_of (ev_mapping_tree_normalize_coordinates t r.x1 r.y1)
        (ev_mapping_tree_normalize_coordinates t r.x2 r.y2) =
      max |(ev_mapping_tree_normalize_coordinates t r.x1 r.y1).x -
            (ev_mapping_tree_normalize_coordinates t r.x2 r.y2).x|
        |(ev_mapping_tree_normalize_coordinates t r.x1 r.y1).y -
            (ev_mapping_tree_normalize_coordinates t r.x2 r.y2).y| ∧
    (∀ span : ℚ, 0 < span →
      initial_depth span = max 0 (ceil_log2 span - 1) ∧
      ∀ k : Int, ceil_log2 span ≤ k ↔ span ≤ (2 : ℚ) ^ k) ∧
    initial_depth 0 = 0 ∧
    (∃ d cx cy : Int,
      (d = initial_depth (span_of (ev_mapping_tree_normalize_coordinates t r.x1 r.y1)
            (ev_mapping_tree_normalize_coordinates t r.x2 r.y2)) ∨
        d = initial_depth (span_of (ev_mapping_tree_normalize_coordinates t r.x1 r.y1)
            (ev_mapping_tree_normalize_coordinates t r.x2 r.y2)) + 1) ∧
      ev_mapping_tree_add t addr item r hit_func data =
        AddResult.returned
          (store_pair t { addr := addr, hit_func := hit_func, item := item, data := data }
            d cx cy)
          (make_cell_coordinates d cx cy)) ∧
    (r.x2 = r.x1 → r.y2 = r.y1 →
      span_of (ev_mapping_tree_normalize_coordinates t r.x1 r.y1)
        (ev_mapping_tree_normalize_coordinates t r.x2 r.y2) = 0 ∧
      attempt_fits (ev_mapping_tree_normalize_coordinates t r.x1 r.y1)
        (ev_mapping_tree_normalize_coordinates t r.x2 r.y2) (2 ^ 0) = true ∧
      ev_mapping_tree_add t addr item r hit_func data =
        AddResult.returned
          (store_pair t { addr := addr, hit_func := hit_func, item := item, data := data }
            0 (corner_cell (ev_mapping_tree_normalize_coordinates t r.x1 r.y1).x 1)
            (corner_cell (ev_mapping_tree_normalize_coordinates t r.x1 r.y1).y 1))
          (make_cell_coordinates 0
            (corner_cell (ev_mapping_tree_normalize_coordinates t r.x1 r.y1).x 1)
            (corner_cell (ev_mapping_tree_normalize_coordinates t r.x1 r.y1).y 1))) := by
  refine ⟨rfl, rfl, ?_, initial_depth_zero, ?_, ?_⟩
  · intro span hspan
    refine ⟨?_, ceil_log2_le_iff hspan⟩
    unfold initial_depth
    rw [if_neg (ne_of_gt hspan)]
  · obtain ⟨d, s, hd, -, -, hs⟩ := add_search_cases t r hx hy h1 h2
    exact ⟨d, _, _, hd, add_of_search hs⟩
  · intro ex ey
    refine ⟨?_, ?_, add_of_search (add_search_degenerate t r ex ey)⟩
    · rw [ex, ey]; simp [span_of]
    · rw [ex, ey]; exact attempt_fits_self _ _

/-- The rectangle reduced to the lower corner of the extents of the test is
stored at depth `0` in the cell `(0, 0)`. -/
theorem add_starts_at_initial_depth_witness :
    Test.tree0.extents.x1 < Test.tree0.extents.x2 ∧
    Test.tree0.extents.y1 < Test.tree0.extents.y2 ∧
    ev_mapping_tree_in_extents Test.tree0 lower_corner.x1 lower_corner.y1 = true ∧
    ev_mapping_tree_in_extents Test.tree0 lower_corner.x2 lower_corner.y2 = true ∧
    lower_corner.x2 = lower_corner.x1 ∧ lower_corner.y2 = lower_corner.y1 ∧
    ev_mapping_tree_add Test.tree0 16 8192 lower_corner hit_always NULL =
      AddResult.returned
        (store_pair Test.tree0
          { addr := 16, hit_func := hit_always, item := 8192, data := NULL } 0
          (corner_cell (ev_mapping_tree_normalize_coordinates Test.tree0
            lower_corner.x1 lower_corner.y1).x 1)
          (corner_cell (ev_mapping_tree_normalize_coordinates Test.tree0
            lower_corner.x1 lower_corner.y1).y 1))
        (make_cell_coordinates 0
          (corner_cell (ev_mapping_tree_normalize_coordinates Test.tree0
            lower_corner.x1 lower_corner.y1).x 1)
          (corner_cell (ev_mapping_tree_normalize_coordinates Test.tree0
            lower_corner.x1 lower_corner.y1).y 1)) := by
  have hx : Test.tree0.extents.x1 < Test.tree0.extents.x2 := by
    norm_num [Test.tree0, Test.rect, ev_mapping_tree_new]
  have hy : Test.tree0.extents.y1 < Test.tree0.extents.y2 := by
    norm_num [Test.tree0, Test.rect, ev_mapping_tree_new]
  have hin : ev_mapping_tree_in_extents Test.tree0 lower_corner.x1 lower_corner.y1 = true := by
    norm_num [ev_mapping_tree_in_extents, Test.tree0, Test.rect, ev_mapping_tree_new,
      lower_corner]
  exact ⟨hx, hy, hin, hin, rfl, rfl,
    ((add_starts_at_initial_depth Test.tree0 16 8192 lower_corner hit_always NULL hx hy
      hin hin).2.2.2.2.2 rfl rfl).2.2⟩

/-! ## The range of the normalized coordinates -/

theorem normalize_eq (t : Tree) (x y : ℚ) :
    (ev_mapping_tree_normalize_coordinates t x y).x =
      (x - t.extents.x1) / (t.extents.x2 - t.extents.x1) * 2 ^ 28 ∧
    (ev_mapping_tree_normalize_coordinates t x y).y =
      (y - t.extents.y1) / (t.extents.y2 - t.extents.y1) * 2 ^ 28 := by
  unfold ev_mapping_tree_normalize_coordinates SMALLEST_QT_UNIT
  simp only [one_div, div_inv_eq_mul, and_self]

theorem scaled_mono {lo hi v w : ℚ} (h : lo < hi) (hvw : v ≤ w) :
    (v - lo) / (hi - lo) * 2 ^ 28 ≤ (w - lo) / (hi - lo) * 2 ^ 28 := by
  have h0 : 0 < hi - lo := by linarith
  have : (v - lo) / (hi - lo) ≤ (w - lo) / (hi - lo) :=
    div_le_div_of_nonneg_right (by linarith) h0.le
  nlinarith

theorem scaled_strict_mono {lo hi v w : ℚ} (h : lo < hi) (hvw : v < w) :
    (v - lo) / (hi - lo) * 2 ^ 28 < (w - lo) / (hi - lo) * 2 ^ 28 := by
  have h0 : 0 < hi - lo := by linarith
  have : (v - lo) / (hi - lo) < (w - lo) / (hi - lo) :=
    div_lt_div_of_pos_right (by linarith) h0
  nlinarith

/-- The range of the normalization in exact arithmetic: for extents with
`x1 < x2` and `y1 < y2`, each normalized coordinate is `(v - lo) / (hi - lo) * 2^28` for its
axis; it is monotone (and strictly monotone) in `v`; the lower extent maps to
`0` and the upper extent to `2^28`; for a point inside the inclusive extents
both coordinates lie in `[0, 2^28]`, hence in `[0, 2^29)`. -/
theorem normalize_coordinates_range (t : Tree) (hx : t.extents.x1 < t.extents.x2)
    (hy : t.extents.y1 < t.extents.y2) :
    (∀ x y : ℚ,
      (ev_mapping_tree_normalize_coordinates t x y).x =
        (x - t.extents.x1) / (t.extents.x2 - t.extents.x1) * 2 ^ 28 ∧
      (ev_mapping_tree_normalize_coordinates t x y).y =
        (y - t.extents.y1) / (t.extents.y2 - t.extents.y1) * 2 ^ 28) ∧
    (∀ x y x1 y1 : ℚ,
      (x ≤ x1 → (ev_mapping_tree_normalize_coordinates t x y).x ≤
        (ev_mapping_tree_normalize_coordinates t x1 y1).x) ∧
      (y ≤ y1 → (ev_mapping_tree_normalize_coordinates t x y).y ≤
        (ev_mapping_tree_normalize_coordinates t x1 y1).y) ∧
      (x < x1 → (ev_mapping_tree_normalize_coordinates t x y).x <
        (ev_mapping_tree_normalize_coordinates t x1 y1).x) ∧
      (y < y1 → (ev_mapping_tree_normalize_coordinates t x y).y <
        (ev_mapping_tree_normalize_coordinates t x1 y1).y)) ∧
    (∀ x y : ℚ,
      (ev_mapping_tree_normalize_coordinates t t.extents.x1 y).x = 0 ∧
      (ev_mapping_tree_normalize_coordinates t x t.extents.y1).y = 0 ∧
      (ev_mapping_tree_normalize_coordinates t t.extents.x2 y).x = 2 ^ 28 ∧
      (ev_mapping_tree_normalize_coordinates t x t.extents.y2).y = 2 ^ 28) ∧
    (∀ x y : ℚ, ev_mapping_tree_in_extents t x y = true →
      (0 ≤ (ev_mapping_tree_normalize_coordinates t x y).x ∧
        (ev_mapping_tree_normalize_coordinates t x y).x ≤ 2 ^ 28 ∧
        (ev_mapping_tree_normalize_coordinates t x y).x < 2 ^ 29) ∧
      (0 ≤ (ev_mapping_tree_normalize_coordinates t x y).y ∧
        (ev_mapping_tree_normalize_coordinates t x y).y ≤ 2 ^ 28 ∧
        (ev_mapping_tree_normalize_coordinates t x y).y < 2 ^ 29)) := by
  have h0x : t.extents.x2 - t.extents.x1 ≠ 0 := by
    have : 0 < t.extents.x2 - t.extents.x1 := by linarith
    exact ne_of_gt this
  have h0y : t.extents.y2 - t.extents.y1 ≠ 0 := by
    have : 0 < t.extents.y2 - t.extents.y1 := by linarith
    exact ne_of_gt this
  refine ⟨normalize_eq t, ?_, ?_, ?_⟩
  · intro x y x1 y1
    rw [(normalize_eq t x y).1, (normalize_eq t x y).2, (normalize_eq t x1 y1).1,
      (normalize_eq t x1 y1).2]
    exact ⟨scaled_mono hx, scaled_mono hy, scaled_strict_mono hx, scaled_strict_mono hy⟩
  · intro x y
    rw [(normalize_eq t t.extents.x1 y).1, (normalize_eq t x t.extents.y1).2,
      (normalize_eq t t.extents.x2 y).1, (normalize_eq t x t.extents.y2).2]
    refine ⟨by simp, by simp, ?_, ?_⟩
    · rw [div_self h0x, one_mul]
    · rw [div_self h0y, one_mul]
  · intro x y hin
    rw [in_extents_iff] at hin
    have ax := normalize_x_nonneg (y := y) hx hin.1
    have bx := normalize_x_le (y := y) hx hin.2.1
    have ay := normalize_y_nonneg (x := x) hy hin.2.2.1
    have b := normalize_y_le (x := x) hy hin.2.2.2
    exact ⟨⟨ax, bx, lt_of_le_of_lt bx (by norm_num)⟩, ay, b, lt_of_le_of_lt b (by norm_num)⟩

/-- The normalization in exact arithmetic at the extents of the test and the
first corner of the first line of the test. -/
theorem normalize_coordinates_range_witness :
    Test.tree0.extents.x1 < Test.tree0.extents.x2 ∧
    Test.tree0.extents.y1 < Test.tree0.extents.y2 ∧
    ev_mapping_tree_in_extents Test.tree0 Test.l1.x1 Test.l1.y1 = true ∧
    0 ≤ (ev_mapping_tree_normalize_coordinates Test.tree0 Test.l1.x1 Test.l1.y1).x ∧
    (ev_mapping_tree_normalize_coordinates Test.tree0 Test.l1.x1 Test.l1.y1).x < 2 ^ 29 :=
  ⟨Test.tree0_extents_x, Test.tree0_extents_y, Test.l1_first_in_extents,
    ((normalize_coordinates_range Test.tree0 Test.tree0_extents_x Test.tree0_extents_y).2.2.2
      _ _ Test.l1_first_in_extents).1.1,
    ((normalize_coordinates_range Test.tree0 Test.tree0_extents_x Test.tree0_extents_y).2.2.2
      _ _ Test.l1_first_in_extents).1.2.2⟩

/-! ## The residual test of the insertion -/

/-- C27 (the residual test is vacuous): for a positive cell size `s`, the
margin `0.999 * s / 2` and non-negative normalized corners, the corner cell is
`⌊(n + margin) / s⌋`, each residual `n - s * ⌊(n + margin) / s⌋` lies in
`[-margin, s - margin)`, so `MAX (r1, r2) < 2 * margin` holds on both axes, and
the attempt is accepted if and only if the corner cells differ by at most `1`
on the x axis and by at most `1` on the y axis. -/
theorem residual_test_vacuous (n1 n2 : EvPoint) (s : Int) (hs : 0 < s)
    (h1x : 0 ≤ n1.x) (h1y : 0 ≤ n1.y) (h2x : 0 ≤ n2.x) (h2y : 0 ≤ n2.y) :
    margin_of s = 999 / 1000 * (s : ℚ) / 2 ∧
    (∀ n : ℚ, 0 ≤ n →
      corner_cell n s = ⌊(n + margin_of s) / (s : ℚ)⌋ ∧
      corner_residual n s = n - (s : ℚ) * (⌊(n + margin_of s) / (s : ℚ)⌋ : Int) ∧
      - margin_of s ≤ corner_residual n s ∧
      corner_residual n s < (s : ℚ) - margin_of s) ∧
    max (corner_residual n1.x s) (corner_residual n2.x s) < 2 * margin_of s ∧
    max (corner_residual n1.y s) (corner_residual n2.y s) < 2 * margin_of s ∧
    (attempt_fits n1 n2 s = true ↔
      |corner_cell n1.x s - corner_cell n2.x s| ≤ 1 ∧
      |corner_cell n1.y s - corner_cell n2.y s| ≤ 1) := by
  refine ⟨?_, ?_, residual_test_holds h1x h2x hs, residual_test_holds h1y h2y hs, ?_⟩
  · unfold margin_of EXPANSION; ring
  · intro n hn
    refine ⟨corner_cell_eq_floor hn hs, ?_, corner_residual_ge hn hs, corner_residual_lt hn hs⟩
    unfold corner_residual
    rw [corner_cell_eq_floor hn hs]
    push_cast
    ring
  · unfold attempt_fits
    rw [Bool.and_eq_true, axis_fits_iff h1x h2x hs, axis_fits_iff h1y h2y hs]

/-- Witness of C27: the normalized corners of the long stroke at the cell size
`2^26`, where the corner cells are `1` and `2` on the x axis and `0` on the y
axis, and the attempt is accepted. -/
theorem residual_test_vacuous_witness :
    (0 : Int) < 2 ^ 26 ∧
    (attempt_fits ⟨325 / 1000 * 2 ^ 28, 10 / 100 * 2 ^ 28⟩
        ⟨6251 / 10000 * 2 ^ 28, 11 / 100 * 2 ^ 28⟩ (2 ^ 26) = true ↔
      |corner_cell (325 / 1000 * 2 ^ 28) (2 ^ 26) -
          corner_cell (6251 / 10000 * 2 ^ 28) (2 ^ 26)| ≤ 1 ∧
      |corner_cell (10 / 100 * 2 ^ 28) (2 ^ 26) -
          corner_cell (11 / 100 * 2 ^ 28) (2 ^ 26)| ≤ 1) :=
  ⟨by norm_num,
    (residual_test_vacuous ⟨325 / 1000 * 2 ^ 28, 10 / 100 * 2 ^ 28⟩
      ⟨6251 / 10000 * 2 ^ 28, 11 / 100 * 2 ^ 28⟩ (2 ^ 26) (by norm_num) (by norm_num)
      (by norm_num) (by norm_num) (by norm_num)).2.2.2.2⟩

/-! ## The depth mask -/

theorem getD_set_of_ne (l : List Bool) (n i : Nat) (b : Bool) (h : i ≠ n) :
    (l.set n b).getD i false = l.getD i false := by
  rw [List.getD_eq_getElem?_getD, List.getD_eq_getElem?_getD, List.getElem?_set]
  rw [if_neg (fun e => h e.symm)]

theorem getD_set_self (l : List Bool) (n : Nat) (b : Bool) (h : n < l.length) :
    (l.set n b).getD n false = b := by
  rw [List.getD_eq_getElem?_getD, List.getElem?_set]
  simp [h]

theorem getD_set_true_of_getD (l : List Bool) (n i : Nat)
    (h : l.getD i false = true) : (l.set n true).getD i false = true := by
  by_cases hi : i = n
  · subst hi
    have hlen : i < l.length := by
      by_contra hge
      rw [List.getD_eq_getElem?_getD, List.getElem?_eq_none (not_lt.1 hge)] at h
      simp at h
    exact getD_set_self l i true hlen
  · rw [getD_set_of_ne l n i true hi]
    exact h

theorem length_depth_mask_of_reachable {t : Tree} (h : Reachable t) :
    t.depth_mask.length = MAX_DEPTH := by
  induction h with
  | new page extents => simp [ev_mapping_tree_new]
  | add addr item extents hit_func data key _ _ hadd ih =>
    obtain ⟨d, cx, cy, rfl, -⟩ := add_returned_stores hadd
    simp only [store_pair, List.length_set]
    exact ih
  | remove item_field_at item _ hrem ih =>
    obtain ⟨coords, cell, pair, -, -, -, -, rfl⟩ := remove_some_cases hrem
    exact ih

/-- C23 (the depth mask is monotone): a call of `ev_mapping_tree_remove` that
returns leaves `depth_mask` as it was; a call of `ev_mapping_tree_add` that
returns, storing at depth `d`, leaves a mask of the same length that differs
from the old one at most in the bit of `d`, which is true afterwards;
`ev_mapping_tree_ref` and an `ev_mapping_tree_unref` that leaves the index
alive do not change the mask; hence no operation resets a bit that is true.
In every reachable state the mask has `MAX_DEPTH = 29` bits. -/
theorem depth_mask_monotone (t : Tree) :
    (∀ (item_field_at : gpointer → gpointer) (item : gpointer) (t1 : Tree),
      ev_mapping_tree_remove item_field_at t item = some t1 →
      t1.depth_mask = t.depth_mask) ∧
    (∀ (addr item : gpointer) (r : EvRectangle) (hit_func : EvMappingTreeHitFunction)
        (data : gpointer) (t1 : Tree) (key : Int),
      ev_mapping_tree_add t addr item r hit_func data = AddResult.returned t1 key →
      ∃ d cx cy : Int, add_search t r = LoopResult.accepted d cx cy ∧
        key = make_cell_coordinates d cx cy ∧
        t1.depth_mask = t.depth_mask.set d.toNat true ∧
        t1.depth_mask.length = t.depth_mask.length ∧
        (∀ i, i ≠ d.toNat → t1.depth_mask.getD i false = t.depth_mask.getD i false) ∧
        (d.toNat < t.depth_mask.length → t1.depth_mask.getD d.toNat false = true) ∧
        (∀ i, t.depth_mask.getD i false = true → t1.depth_mask.getD i false = true)) ∧
    (ev_mapping_tree_ref t).depth_mask = t.depth_mask ∧
    (∀ t1, ev_mapping_tree_unref t = UnrefResult.alive t1 → t1.depth_mask = t.depth_mask) ∧
    (Reachable t → t.depth_mask.length = MAX_DEPTH ∧ MAX_DEPTH = 29) := by
  refine ⟨?_, ?_, (ref_fields t).2.2.2.1, ?_, ?_⟩
  · intro item_field_at item t1 hrem
    obtain ⟨coords, cell, pair, -, -, -, -, rfl⟩ := remove_some_cases hrem
    rfl
  · intro addr item r hit_func data t1 key hadd
    rcases add_returned_cases hadd with ⟨-, -, hf⟩ | ⟨d, cx, cy, hs, rfl, rfl⟩
    · exact absurd hf (add_search_ne_fell_through t r)
    · refine ⟨d, cx, cy, hs, rfl, rfl, ?_, ?_, ?_, ?_⟩
      · simp only [store_pair, List.length_set]
      · intro i hi
        exact getD_set_of_ne _ _ _ _ hi
      · intro hlt
        exact getD_set_self _ _ _ hlt
      · intro i hi
        exact getD_set_true_of_getD _ _ _ hi
  · intro t1 h
    exact (unref_alive_fields h).2.2.2.1
  · intro h
    exact ⟨length_depth_mask_of_reachable h, rfl⟩

theorem tree1_mask_26 (a1 : gpointer) : (Test.tree1 a1).depth_mask.getD 26 false = true := by
  simp [Test.tree1, store_pair, Test.tree0, ev_mapping_tree_new, MAX_DEPTH]

/-- Witness of C23: the first insertion of the test sets bit `26`, and a
removal from the resulting tree that returns leaves the mask as it is. -/
theorem depth_mask_monotone_witness :
    (∃ t1 key, ev_mapping_tree_add Test.tree0 8192 Test.addr_l1 Test.l1
        (Test.is_on_line Test.rect_at) NULL = AddResult.returned t1 key ∧
      t1.depth_mask.getD 26 false = true ∧
      ∀ i, Test.tree0.depth_mask.getD i false = true → t1.depth_mask.getD i false = true) ∧
    (∃ t1, ev_mapping_tree_remove (fun _ => 8192) (Test.tree1 8192) Test.addr_l1 = some t1 ∧
      t1.depth_mask = (Test.tree1 8192).depth_mask) := by
  constructor
  · obtain ⟨d, cx, cy, -, -, -, -, -, -, hmono⟩ :=
      (depth_mask_monotone Test.tree0).2.1 _ _ _ _ _ _ _ (Test.add_l1 8192)
    exact ⟨_, _, Test.add_l1 8192, tree1_mask_26 8192, hmono⟩
  · have hfound : ∃ t1, ev_mapping_tree_remove (fun _ => 8192) (Test.tree1 8192)
        Test.addr_l1 = some t1 :=
      remove_some_of_found (Test.tree1_reverse 8192) (Test.tree1_cell 8192)
        (List.mem_singleton.2 rfl) rfl
    obtain ⟨t1, h1⟩ := hfound
    exact ⟨t1, h1, (depth_mask_monotone (Test.tree1 8192)).1 _ _ _ h1⟩

/-! ## The depth mask as an optimisation -/

theorem depth_of_key {a d x y cx cy : Int} (ha0 : 0 ≤ a) (ha : a ≤ 28) (hd0 : 0 ≤ d)
    (hd : d ≤ 28) (h : make_cell_coordinates a x y = make_cell_coordinates d cx cy) :
    a = d := by
  have hx0 := Int.emod_nonneg x (show (2 : Int) ^ 29 ≠ 0 by norm_num)
  have hx1 := Int.emod_lt_of_pos x (show (0 : Int) < 2 ^ 29 by norm_num)
  have hy0 := Int.emod_nonneg y (show (2 : Int) ^ 29 ≠ 0 by norm_num)
  have hy1 := Int.emod_lt_of_pos y (show (0 : Int) < 2 ^ 29 by norm_num)
  have hcx0 := Int.emod_nonneg cx (show (2 : Int) ^ 29 ≠ 0 by norm_num)
  have hcx1 := Int.emod_lt_of_pos cx (show (0 : Int) < 2 ^ 29 by norm_num)
  have hcy0 := Int.emod_nonneg cy (show (2 : Int) ^ 29 ≠ 0 by norm_num)
  have hcy1 := Int.emod_lt_of_pos cy (show (0 : Int) < 2 ^ 29 by norm_num)
  unfold make_cell_coordinates int64_of at h
  have h1 : a % 2 ^ 8 = a := Int.emod_eq_of_lt ha0 (by omega)
  have h2 : d % 2 ^ 8 = d := Int.emod_eq_of_lt hd0 (by omega)
  rw [h1, h2] at h
  have h3 : (a * 2 ^ 58 + 2 ^ 63) % 2 ^ 64 = a * 2 ^ 58 + 2 ^ 63 :=
    Int.emod_eq_of_lt (by omega) (by omega)
  have h4 : (d * 2 ^ 58 + 2 ^ 63) % 2 ^ 64 = d * 2 ^ 58 + 2 ^ 63 :=
    Int.emod_eq_of_lt (by omega) (by omega)
  rw [h3, h4] at h
  omega

theorem add_search_in_extents (t : Tree) (r : EvRectangle)
    (hx : t.extents.x1 < t.extents.x2) (hy : t.extents.y1 < t.extents.y2)
    (h1 : ev_mapping_tree_in_extents t r.x1 r.y1 = true)
    (h2 : ev_mapping_tree_in_extents t r.x2 r.y2 = true) :
    ∃ d cx cy : Int, 0 ≤ d ∧ d ≤ 28 ∧ 0 ≤ cx ∧ cx ≤ 2 ^ 28 ∧ 0 ≤ cy ∧ cy ≤ 2 ^ 28 ∧
      add_search t r = LoopResult.accepted d cx cy := by
  obtain ⟨d, s, hd, hs, hfit, hsearch⟩ := add_search_cases t r hx hy h1 h2
  rw [in_extents_iff] at h1 h2
  have h1x := normalize_x_nonneg (y := r.y1) hx h1.1
  have h1y := normalize_y_nonneg (x := r.x1) hy h1.2.2.1
  have h2x := normalize_x_nonneg (y := r.y2) hx h2.1
  have h2y := normalize_y_nonneg (x := r.x2) hy h2.2.2.1
  have b1x := normalize_x_le (y := r.y1) hx h1.2.1
  have b1y := normalize_y_le (x := r.x1) hy h1.2.2.2
  have b2x := normalize_x_le (y := r.y2) hx h2.2.1
  have b2y := normalize_y_le (x := r.x2) hy h2.2.2.2
  have hd0 := initial_depth_nonneg (span_of (ev_mapping_tree_normalize_coordinates t r.x1 r.y1)
    (ev_mapping_tree_normalize_coordinates t r.x2 r.y2))
  have hd27 := initial_depth_le (span_of_le h1x h1y h2x h2y b1x b1y b2x b2y)
  have hspos : 0 < s := hs ▸ (by positivity)
  have c1 := corner_cell_nonneg h1x hspos
  have c2 := corner_cell_nonneg h1y hspos
  have c3 := corner_cell_nonneg h2x hspos
  have c4 := corner_cell_nonneg h2y hspos
  have e1 := corner_cell_le h1x hspos b1x
  have e2 := corner_cell_le h1y hspos b1y
  exact ⟨d, _, _, by omega, by omega, le_min c1 c3, le_trans (min_le_left _ _) e1,
    le_min c2 c4, le_trans (min_le_left _ _) e2, hsearch⟩

/-- The invariant behind the mask: every key of `cell_index` is the key of a
cell of a depth in `0..28` whose mask bit is set. -/
theorem mask_of_reachableInExtents {t : Tree} (h : ReachableInExtents t) :
    (t.extents.x1 < t.extents.x2 ∧ t.extents.y1 < t.extents.y2) ∧
    t.depth_mask.length = MAX_DEPTH ∧
    ∀ k l, t.cell_index k = some l →
      ∃ d cx cy : Int, 0 ≤ d ∧ d ≤ 28 ∧ 0 ≤ cx ∧ cx ≤ 2 ^ 28 ∧ 0 ≤ cy ∧ cy ≤ 2 ^ 28 ∧
        k = make_cell_coordinates d cx cy ∧ t.depth_mask.getD d.toNat false = true := by
  induction h with
  | new page extents hx hy =>
    refine ⟨⟨hx, hy⟩, by simp [ev_mapping_tree_new], ?_⟩
    intro k l hk
    simp [ev_mapping_tree_new] at hk
  | add addr item r hit_func data key _ h1 h2 hadd ih =>
    rename_i t t1 _
    obtain ⟨⟨hx, hy⟩, hlen, hinv⟩ := ih
    obtain ⟨d, cx, cy, hd0, hd28, hcx0, hcx1, hcy0, hcy1, hs⟩ :=
      add_search_in_extents t r hx hy h1 h2
    rw [add_of_search hs] at hadd
    simp only [AddResult.returned.injEq] at hadd
    obtain ⟨rfl, -⟩ := hadd
    refine ⟨⟨hx, hy⟩, ?_, ?_⟩
    · simp only [store_pair, List.length_set]
      exact hlen
    · intro k l hk
      rcases store_pair_cell_some hk with ⟨hkey, -⟩ | ⟨-, hk0⟩
      · refine ⟨d, cx, cy, hd0, hd28, hcx0, hcx1, hcy0, hcy1, hkey, ?_⟩
        simp only [store_pair]
        apply getD_set_self
        rw [hlen]
        unfold MAX_DEPTH
        omega
      · obtain ⟨d1, cx1, cy1, a1, a2, a3, a4, a5, a6, a7, a8⟩ := hinv k l hk0
        refine ⟨d1, cx1, cy1, a1, a2, a3, a4, a5, a6, a7, ?_⟩
        simp only [store_pair]
        exact getD_set_true_of_getD _ _ _ a8
  | remove item_field_at item _ hrem ih =>
    rename_i t t1 _
    obtain ⟨hext, hlen, hinv⟩ := ih
    obtain ⟨coords, cell, pair, -, hcell, -, -, rfl⟩ := remove_some_cases hrem
    refine ⟨hext, hlen, ?_⟩
    intro k l hk
    exact hinv k l (remove_cell_some hk).2

theorem cells_at_depth_eq_unmasked {t : Tree} (h : ReachableInExtents t) (x y : ℚ)
    (acc : List (List ItemHitFunctionPair)) {i : Nat} (hi : i < MAX_DEPTH) :
    cells_at_depth t x y acc i = spec_cells_at_depth_unmasked t x y acc i := by
  unfold cells_at_depth spec_cells_at_depth_unmasked
  by_cases hm : t.depth_mask.getD i false = true
  · rw [if_pos hm]
  · rw [if_neg hm]
    have hnone : ∀ c : Int × Int, t.cell_index (make_cell_coordinates i c.1 c.2) = none := by
      intro c
      cases hc : t.cell_index (make_cell_coordinates i c.1 c.2) with
      | none => rfl
      | some l =>
        exfalso
        obtain ⟨d, cx, cy, hd0, hd28, -, -, -, -, hkey, hbit⟩ :=
          (mask_of_reachableInExtents h).2.2 _ l hc
        have hi28 : (i : Int) ≤ 28 := by
          unfold MAX_DEPTH at hi
          omega
        have hid : (i : Int) = d := depth_of_key (Int.natCast_nonneg i) hi28 hd0 hd28 hkey
        rw [← hid, Int.toNat_natCast] at hbit
        exact hm hbit
    generalize candidate_coords x y i = coords
    induction coords generalizing acc with
    | nil => rfl
    | cons c cs ih =>
      rw [List.foldl_cons]
      have : TEST_AND_ADD_COORDS t i acc c = acc := by
        unfold TEST_AND_ADD_COORDS
        rw [hnone c]
      rw [this]
      exact ih acc

theorem foldl_cells_eq_unmasked {t : Tree} (h : ReachableInExtents t) (x y : ℚ)
    (depths : List Nat) (hd : ∀ i ∈ depths, i < MAX_DEPTH)
    (acc : List (List ItemHitFunctionPair)) :
    depths.foldl (cells_at_depth t x y) acc =
      depths.foldl (spec_cells_at_depth_unmasked t x y) acc := by
  induction depths generalizing acc with
  | nil => rfl
  | cons i depths ih =>
    rw [List.foldl_cons, List.foldl_cons,
      cells_at_depth_eq_unmasked h x y acc (hd i (List.mem_cons_self _ _))]
    exact ih (fun j hj => hd j (List.mem_cons_of_mem _ hj)) _

theorem generate_eq_all_depths {t : Tree} (h : ReachableInExtents t) (x y : ℚ) :
    generate_valid_cells t x y = spec_generate_all_depths t x y := by
  unfold generate_valid_cells spec_generate_all_depths
  exact foldl_cells_eq_unmasked h x y _ (fun i hi => List.mem_range.1 hi) []

/-- The depth mask where every rectangle added lies inside the extents: in
every state reachable from a new index with non-degenerate extents by
insertions of rectangles inside the extents and by removals, every key of `cell_index` (in particular
every cell that holds an entry) is the key of a cell `(d, cx, cy)` with `d` in
`0..28` whose bit in `depth_mask` is set; hence `generate_valid_cells` returns
the same list as the variant that probes all 29 depths, and
`ev_mapping_tree_get` returns the same result as the variant of it over all
depths, at every point. -/
theorem depth_mask_only_optimisation (t : Tree) (h : ReachableInExtents t) :
    (∀ k l, t.cell_index k = some l →
      ∃ d cx cy : Int, 0 ≤ d ∧ d ≤ 28 ∧ 0 ≤ cx ∧ cx ≤ 2 ^ 28 ∧ 0 ≤ cy ∧ cy ≤ 2 ^ 28 ∧
        k = make_cell_coordinates d cx cy ∧ k = d * 2 ^ 58 + cx * 2 ^ 29 + cy ∧
        t.depth_mask.getD d.toNat false = true) ∧
    (∀ x y : ℚ, generate_valid_cells t x y = spec_generate_all_depths t x y) ∧
    (∀ x y : ℚ, ev_mapping_tree_get t x y = spec_get_all_depths t x y) := by
  refine ⟨?_, generate_eq_all_depths h, ?_⟩
  · intro k l hk
    obtain ⟨d, cx, cy, a1, a2, a3, a4, a5, a6, a7, a8⟩ :=
      (mask_of_reachableInExtents h).2.2 k l hk
    refine ⟨d, cx, cy, a1, a2, a3, a4, a5, a6, a7, ?_, a8⟩
    rw [a7, make_cell_coordinates_of_range a1 a2 a3 (by omega) a5 (by omega)]
  · intro x y
    unfold ev_mapping_tree_get spec_get_all_depths
    simp only [generate_eq_all_depths h]

namespace Test

theorem reachableInExtents_tree2 (a1 a2 : gpointer) : ReachableInExtents (tree2 a1 a2) := by
  have h0 : ReachableInExtents tree0 :=
    ReachableInExtents.new 1 rect (by norm_num [rect]) (by norm_num [rect])
  have h1 : ReachableInExtents (tree1 a1) :=
    ReachableInExtents.add a1 addr_l1 l1 (is_on_line rect_at) NULL _ h0
      l1_first_in_extents l1_second_in_extents (add_l1 a1)
  refine ReachableInExtents.add a2 addr_l2 l2 (is_on_line rect_at) NULL _ h1 ?_ ?_ (add_l2 a1 a2)
  · norm_num [ev_mapping_tree_in_extents, tree1, store_pair, tree0, rect, ev_mapping_tree_new,
      l2]
  · norm_num [ev_mapping_tree_in_extents, tree1, store_pair, tree0, rect, ev_mapping_tree_new,
      l2]

end Test

/-- The two forms of the query on the tree of the test after both insertions,
at the start `(-0.73, 1)` of the second line, where both return `&l2`. -/
theorem depth_mask_only_optimisation_witness :
    ReachableInExtents (Test.tree2 8192 8224) ∧
    spec_get_all_depths (Test.tree2 8192 8224) (-73 / 100) 1 = Test.addr_l2 ∧
    ev_mapping_tree_get (Test.tree2 8192 8224) (-73 / 100) 1 =
      spec_get_all_depths (Test.tree2 8192 8224) (-73 / 100) 1 := by
  have h := (depth_mask_only_optimisation (Test.tree2 8192 8224)
    (Test.reachableInExtents_tree2 8192 8224)).2.2 (-73 / 100) 1
  refine ⟨Test.reachableInExtents_tree2 8192 8224, ?_, h⟩
  rw [← h]
  exact Test.get_at_start

/-! ## The `else if` of the neighbour probing -/

theorem boundary_conditions_exclusive (v : ℚ) (i : Nat) :
    ¬ (home_residual v i / (((2 ^ i : Int) : ℚ) * (1 / 2)) ≤ EXPANSION ∧
      (((2 ^ i : Int) : ℚ) - home_residual v i) / (((2 ^ i : Int) : ℚ) * (1 / 2))
        ≤ EXPANSION) := by
  rintro ⟨h1, h2⟩
  have hs : (0 : ℚ) < ((2 ^ i : Int) : ℚ) := by push_cast; positivity
  have hh : (0 : ℚ) < ((2 ^ i : Int) : ℚ) * (1 / 2) := by positivity
  rw [div_le_iff₀ hh] at h1 h2
  unfold EXPANSION at h1 h2
  nlinarith

theorem ov_right_independent_eq (x : ℚ) (i : Nat) :
    spec_ov_right_independent x i = ov_right x i := by
  unfold spec_ov_right_independent ov_right
  by_cases hl : ov_left x i = true
  · have hlow : home_residual x i / (((2 ^ i : Int) : ℚ) * (1 / 2)) ≤ EXPANSION := by
      unfold ov_left at hl
      rw [Bool.and_eq_true, decide_eq_true_eq, decide_eq_true_eq] at hl
      exact hl.2
    have hup : ¬ ((((2 ^ i : Int) : ℚ) - home_residual x i) / (((2 ^ i : Int) : ℚ) * (1 / 2))
        ≤ EXPANSION) := fun h => boundary_conditions_exclusive x i ⟨hlow, h⟩
    rw [hl, decide_eq_false hup]
    simp
  · rw [Bool.not_eq_true] at hl
    rw [hl]
    simp

theorem ov_upper_independent_eq (y : ℚ) (i : Nat) :
    spec_ov_upper_independent y i = ov_upper y i := by
  unfold spec_ov_upper_independent ov_upper
  by_cases hl : ov_lower y i = true
  · have hlow : home_residual y i / (((2 ^ i : Int) : ℚ) * (1 / 2)) ≤ EXPANSION := by
      unfold ov_lower at hl
      rw [Bool.and_eq_true, decide_eq_true_eq, decide_eq_true_eq] at hl
      exact hl.2
    have hup : ¬ ((((2 ^ i : Int) : ℚ) - home_residual y i) / (((2 ^ i : Int) : ℚ) * (1 / 2))
        ≤ EXPANSION) := fun h => boundary_conditions_exclusive y i ⟨hlow, h⟩
    rw [hl, decide_eq_false hup]
    simp
  · rw [Bool.not_eq_true] at hl
    rw [hl]
    simp

theorem ov_left_right_exclusive (x : ℚ) (i : Nat) :
    ¬ (ov_left x i = true ∧ ov_right x i = true) := by
  rintro ⟨h1, h2⟩
  unfold ov_right at h2
  rw [h1] at h2
  simp at h2

theorem ov_lower_upper_exclusive (y : ℚ) (i : Nat) :
    ¬ (ov_lower y i = true ∧ ov_upper y i = true) := by
  rintro ⟨h1, h2⟩
  unfold ov_upper at h2
  rw [h1] at h2
  simp at h2

theorem diagonal_independent_eq (y : ℚ) (i : Nat) (X : Int) :
    spec_diagonal_independent y i X = diagonal_coords y i X := by
  unfold spec_diagonal_independent diagonal_coords
  rw [ov_upper_independent_eq]
  have hex := ov_lower_upper_exclusive y i
  by_cases hu : ov_upper y i = true
  · have hl : ov_lower y i = false := by
      rw [← Bool.not_eq_true]
      exact fun h => hex ⟨h, hu⟩
    simp [hu, hl]
  · rw [Bool.not_eq_true] at hu
    simp [hu]

/-- C28 (the `else if` of the neighbour probing loses nothing): at every depth
and for every normalized coordinate, the lower-boundary condition
`r / (cell_size * 0.5) <= EXPANSION` and the upper-boundary condition
`(cell_size - r) / (cell_size * 0.5) <= EXPANSION` are never both true; so the
flags `ov_right` and `ov_upper` computed by independent `if`s equal the flags
of the code, `ov_left` and `ov_right` (and `ov_lower` and `ov_upper`) are never
both set, and the loop body with every `else if` replaced by an independent
`if` runs `TEST_AND_ADD_COORDS` on the same cells in the same order. -/
theorem else_if_loses_nothing (x y : ℚ) (i : Nat) :
    ¬ (home_residual x i / (((2 ^ i : Int) : ℚ) * (1 / 2)) ≤ EXPANSION ∧
      (((2 ^ i : Int) : ℚ) - home_residual x i) / (((2 ^ i : Int) : ℚ) * (1 / 2))
        ≤ EXPANSION) ∧
    ¬ (home_residual y i / (((2 ^ i : Int) : ℚ) * (1 / 2)) ≤ EXPANSION ∧
      (((2 ^ i : Int) : ℚ) - home_residual y i) / (((2 ^ i : Int) : ℚ) * (1 / 2))
        ≤ EXPANSION) ∧
    spec_ov_right_independent x i = ov_right x i ∧
    spec_ov_upper_independent y i = ov_upper y i ∧
    ¬ (ov_left x i = true ∧ ov_right x i = true) ∧
    ¬ (ov_lower y i = true ∧ ov_upper y i = true) ∧
    spec_candidate_coords_independent x y i = candidate_coords x y i ∧
    (∀ (t : Tree) (acc : List (List ItemHitFunctionPair)),
      (spec_candidate_coords_independent x y i).foldl (TEST_AND_ADD_COORDS t i) acc =
        (candidate_coords x y i).foldl (TEST_AND_ADD_COORDS t i) acc) := by
  have hcand : spec_candidate_coords_independent x y i = candidate_coords x y i := by
    unfold spec_candidate_coords_independent candidate_coords
    rw [ov_right_independent_eq, ov_upper_independent_eq, diagonal_independent_eq,
      diagonal_independent_eq]
    have hx := ov_left_right_exclusive x i
    have hy := ov_lower_upper_exclusive y i
    cases h1 : ov_left x i <;> cases h2 : ov_right x i <;>
      cases h3 : ov_upper y i <;> cases h4 : ov_lower y i <;>
      simp_all
  refine ⟨boundary_conditions_exclusive x i, boundary_conditions_exclusive y i,
    ov_right_independent_eq x i, ov_upper_independent_eq y i, ov_left_right_exclusive x i,
    ov_lower_upper_exclusive y i, hcand, ?_⟩
  intro t acc
  rw [hcand]

/-- Witness of C28: the point `(1, 1)` at depth `0`, which lies on the lower
boundary of its home cell `(1, 1)` on both axes. -/
theorem else_if_loses_nothing_witness :
    spec_candidate_coords_independent 1 1 0 = candidate_coords 1 1 0 ∧
    spec_ov_right_independent 1 0 = ov_right 1 0 :=
  ⟨(else_if_loses_nothing 1 1 0).2.2.2.2.2.2.1, (else_if_loses_nothing 1 1 0).2.2.1⟩

/-! ## The two axes of the neighbour probing -/

theorem ov_lower_eq_ov_left (v : ℚ) (i : Nat) : ov_lower v i = ov_left v i := rfl

theorem ov_upper_eq_ov_right {v : ℚ} {i : Nat} (h : home_cell v i ≠ max_cell i - 1) :
    ov_upper v i = ov_right v i := by
  unfold ov_upper ov_right
  rw [ov_lower_eq_ov_left]
  have : (home_cell v i < max_cell i) ↔ (home_cell v i < max_cell i - 1) := by omega
  simp only [this]

theorem ov_upper_eval {y : ℚ} {i : Nat} {c : Int} (hc : home_cell y i = c)
    (hl : ov_lower y i = false) (hm : c < max_cell i)
    (hr : (2 : ℚ) ^ i - (y - (c : ℚ) * 2 ^ i) ≤ EXPANSION * ((2 : ℚ) ^ i * (1 / 2))) :
    ov_upper y i = true := by
  have hp : (0 : ℚ) < (2 : ℚ) ^ i * (1 / 2) := by positivity
  have : (((2 ^ i : Int) : ℚ) - home_residual y i) / (((2 ^ i : Int) : ℚ) * (1 / 2))
      ≤ EXPANSION := by
    unfold home_residual
    rw [hc]
    push_cast
    rw [div_le_iff₀ hp]
    exact hr
  simp only [ov_upper, hl, hc, hm, this, Bool.not_false, decide_True, Bool.and_self]

theorem candidates_transposed_of_inner {x y : ℚ} {i : Nat}
    (hx : home_cell x i ≠ max_cell i - 1) (hy : home_cell y i ≠ max_cell i - 1)
    (c : Int × Int) :
    c ∈ candidate_coords y x i ↔ c.swap ∈ candidate_coords x y i := by
  unfold candidate_coords diagonal_coords
  rw [ov_upper_eq_ov_right hx, ov_upper_eq_ov_right hy, ov_lower_eq_ov_left,
    ov_lower_eq_ov_left]
  have ex := ov_left_right_exclusive x i
  have ey := ov_left_right_exclusive y i
  obtain ⟨a, b⟩ := c
  generalize home_cell x i = p
  generalize home_cell y i = q
  revert ex ey
  generalize ov_left x i = l1
  generalize ov_right x i = r1
  generalize ov_left y i = l2
  generalize ov_right y i = r2
  intro ex ey
  cases l1 <;> cases r1 <;> cases l2 <;> cases r2 <;>
    simp only [Prod.swap, List.mem_append, List.mem_cons, List.mem_singleton,
      List.not_mem_nil, Prod.mk.injEq, if_true, if_false, Bool.false_eq_true, or_false,
      false_or, and_self, not_true_eq_false, not_false_eq_true, List.append_nil,
      List.singleton_append, List.cons_append, List.nil_append] at ex ey ⊢ <;>
    tauto

theorem home_cell_edge_x : home_cell (995 / 1000 * 2 ^ 28) 27 = 1 :=
  home_cell_eval (by norm_num) (by norm_num) (by norm_num)

theorem home_cell_quarter : home_cell (2 ^ 26) 27 = 0 :=
  home_cell_eval (by norm_num) (by norm_num) (by norm_num)

theorem candidates_edge_column :
    candidate_coords (995 / 1000 * 2 ^ 28) (2 ^ 26) 27 = [(1, 0)] := by
  have hl : ov_left (995 / 1000 * 2 ^ 28) 27 = false :=
    ov_left_false_of_residual home_cell_edge_x (by norm_num [EXPANSION])
  have hr : ov_right (995 / 1000 * 2 ^ 28) 27 = false :=
    ov_right_false_of_edge home_cell_edge_x (by rw [max_cell_27]; norm_num)
  have hlo : ov_lower (2 ^ 26) 27 = false := ov_lower_false_of_home_zero home_cell_quarter
  have hup : ov_upper (2 ^ 26) 27 = false :=
    ov_upper_false_of_residual home_cell_quarter (by norm_num [EXPANSION])
  simp only [candidate_coords, diagonal_coords, hl, hr, hlo, hup, home_cell_edge_x,
    home_cell_quarter]
  rfl

theorem candidates_edge_row :
    candidate_coords (2 ^ 26) (995 / 1000 * 2 ^ 28) 27 = [(0, 1), (0, 2)] := by
  have hl : ov_left (2 ^ 26) 27 = false := ov_left_false_of_home_zero home_cell_quarter
  have hr : ov_right (2 ^ 26) 27 = false :=
    ov_right_false_of_residual home_cell_quarter (by norm_num [EXPANSION])
  have hlo : ov_lower (995 / 1000 * 2 ^ 28) 27 = false :=
    ov_left_false_of_residual home_cell_edge_x (by norm_num [EXPANSION])
  have hup : ov_upper (995 / 1000 * 2 ^ 28) 27 = true :=
    ov_upper_eval home_cell_edge_x hlo (by rw [max_cell_27]; norm_num)
      (by norm_num [EXPANSION])
  simp only [candidate_coords, diagonal_coords, hl, hr, hlo, hup, home_cell_edge_x,
    home_cell_quarter]
  rfl

/-- C25 (the probing rule on the two axes) on the code: on a page of 100 by
100 the point `(99.5, 25)` and its transpose `(25, 99.5)` lie inside the
extents, with normalized coordinates `0.995 * 2^28` and `2^26`.  At depth 27
(`maxX = maxY = 2`) the candidates for `(0.995 * 2^28, 2^26)` are the home
cell `(1, 0)` alone: the right neighbour is guarded by `cx < maxX - 1`.  The
candidates for the transposed point are `(0, 1)` and the upper neighbour
`(0, 2)`, guarded by `cy < maxY`.  So the candidates of the transposed point
are not the transposes of the candidates of the point. -/
theorem probing_differs_between_axes :
    ev_mapping_tree_in_extents page_tree (995 / 10) 25 = true ∧
    ev_mapping_tree_in_extents page_tree 25 (995 / 10) = true ∧
    ev_mapping_tree_normalize_coordinates page_tree (995 / 10) 25 =
      ⟨995 / 1000 * 2 ^ 28, 2 ^ 26⟩ ∧
    ev_mapping_tree_normalize_coordinates page_tree 25 (995 / 10) =
      ⟨2 ^ 26, 995 / 1000 * 2 ^ 28⟩ ∧
    max_cell 27 = 2 ∧
    candidate_coords (995 / 1000 * 2 ^ 28) (2 ^ 26) 27 = [(1, 0)] ∧
    candidate_coords (2 ^ 26) (995 / 1000 * 2 ^ 28) 27 = [(0, 1), (0, 2)] ∧
    ((0 : Int), (2 : Int)) ∈ candidate_coords (2 ^ 26) (995 / 1000 * 2 ^ 28) 27 ∧
    ((2 : Int), (0 : Int)) ∉ candidate_coords (995 / 1000 * 2 ^ 28) (2 ^ 26) 27 := by
  refine ⟨?_, ?_, ?_, ?_, max_cell_27, candidates_edge_column, candidates_edge_row, ?_, ?_⟩
  · norm_num [ev_mapping_tree_in_extents, page_tree, ev_mapping_tree_new]
  · norm_num [ev_mapping_tree_in_extents, page_tree, ev_mapping_tree_new]
  · norm_num [ev_mapping_tree_normalize_coordinates, page_tree, ev_mapping_tree_new,
      SMALLEST_QT_UNIT]
  · norm_num [ev_mapping_tree_normalize_coordinates, page_tree, ev_mapping_tree_new,
      SMALLEST_QT_UNIT]
  · rw [candidates_edge_row]
    decide
  · rw [candidates_edge_column]
    decide

/-! ## Coverage of a stored cell by the probing -/

theorem home_cell_bounds {x : ℚ} (i : Nat) (hx : 0 ≤ x) :
    ((home_cell x i : Int) : ℚ) * 2 ^ i ≤ x ∧ x < (((home_cell x i : Int) : ℚ) + 1) * 2 ^ i := by
  unfold home_cell
  rw [to_int_of_nonneg hx]
  have hp : (0 : Int) < 2 ^ i := by positivity
  have hz : 0 ≤ ⌊x⌋ := Int.floor_nonneg.2 hx
  rw [Int.tdiv_eq_ediv hz hp.le]
  have h1 : ⌊x⌋ / 2 ^ i * 2 ^ i ≤ ⌊x⌋ := Int.ediv_mul_le _ (ne_of_gt hp)
  have h2 : ⌊x⌋ < (⌊x⌋ / 2 ^ i + 1) * 2 ^ i := Int.lt_ediv_add_one_mul_self _ hp
  have h3 : ⌊x⌋ + 1 ≤ (⌊x⌋ / 2 ^ i + 1) * 2 ^ i := h2
  have f1 := Int.floor_le x
  have f2 := Int.lt_floor_add_one x
  have g1 : ((⌊x⌋ / 2 ^ i * 2 ^ i : Int) : ℚ) ≤ (⌊x⌋ : ℚ) := by exact_mod_cast h1
  have g3 : ((⌊x⌋ + 1 : Int) : ℚ) ≤ (((⌊x⌋ / 2 ^ i + 1) * 2 ^ i : Int) : ℚ) := by
    exact_mod_cast h3
  push_cast at g1 g3
  constructor
  · linarith
  · linarith

theorem home_cell_near {n : ℚ} {d : Nat} {c : Int} (hn : 0 ≤ n)
    (h1 : (c : ℚ) * 2 ^ d - margin_of (2 ^ d) ≤ n)
    (h2 : n ≤ ((c : ℚ) + 1) * 2 ^ d + margin_of (2 ^ d)) :
    home_cell n d = c - 1 ∨ home_cell n d = c ∨ home_cell n d = c + 1 := by
  obtain ⟨b1, b2⟩ := home_cell_bounds d hn
  have hs : (0 : ℚ) < 2 ^ d := by positivity
  have hm : margin_of (2 ^ d) = 999 / 1000 * 2 ^ d / 2 := by
    unfold margin_of EXPANSION; push_cast; ring
  rw [hm] at h1 h2
  have lo : c - 1 ≤ home_cell n d := by
    by_contra hcon
    have : home_cell n d + 1 ≤ c - 1 := by omega
    have hq : ((home_cell n d : Int) : ℚ) + 1 ≤ (c : ℚ) - 1 := by exact_mod_cast this
    nlinarith
  have hi : home_cell n d ≤ c + 1 := by
    by_contra hcon
    have : c + 2 ≤ home_cell n d := by omega
    have hq : (c : ℚ) + 2 ≤ ((home_cell n d : Int) : ℚ) := by exact_mod_cast this
    nlinarith
  omega

theorem lower_flag_of_near {n : ℚ} {d : Nat} {c : Int} (hc0 : 0 ≤ c)
    (hh : home_cell n d = c + 1)
    (h2 : n ≤ ((c : ℚ) + 1) * 2 ^ d + margin_of (2 ^ d)) : ov_left n d = true := by
  have hp : (0 : ℚ) < ((2 ^ d : Int) : ℚ) * (1 / 2) := by push_cast; positivity
  have hm : margin_of (2 ^ d) = 999 / 1000 * 2 ^ d / 2 := by
    unfold margin_of EXPANSION; push_cast; ring
  rw [hm] at h2
  have hcond : home_residual n d / (((2 ^ d : Int) : ℚ) * (1 / 2)) ≤ EXPANSION := by
    unfold home_residual
    rw [hh, div_le_iff₀ hp]
    unfold EXPANSION
    push_cast
    linarith
  unfold ov_left
  rw [hh, decide_eq_true hcond, decide_eq_true (show c + 1 > 0 by omega)]
  rfl

theorem upper_condition_of_near {n : ℚ} {d : Nat} {c : Int} (hh : home_cell n d = c - 1)
    (h1 : (c : ℚ) * 2 ^ d - margin_of (2 ^ d) ≤ n) :
    (((2 ^ d : Int) : ℚ) - home_residual n d) / (((2 ^ d : Int) : ℚ) * (1 / 2))
      ≤ EXPANSION := by
  have hp : (0 : ℚ) < ((2 ^ d : Int) : ℚ) * (1 / 2) := by push_cast; positivity
  have hm : margin_of (2 ^ d) = 999 / 1000 * 2 ^ d / 2 := by
    unfold margin_of EXPANSION; push_cast; ring
  rw [hm] at h1
  unfold home_residual
  rw [hh, div_le_iff₀ hp]
  unfold EXPANSION
  push_cast
  linarith

theorem ov_left_false_of_upper_condition {n : ℚ} {d : Nat}
    (h : (((2 ^ d : Int) : ℚ) - home_residual n d) / (((2 ^ d : Int) : ℚ) * (1 / 2))
      ≤ EXPANSION) : ov_left n d = false := by
  rw [← Bool.not_eq_true]
  intro hl
  unfold ov_left at hl
  rw [Bool.and_eq_true, decide_eq_true_eq, decide_eq_true_eq] at hl
  exact boundary_conditions_exclusive n d ⟨hl.2, h⟩

theorem axis_x_covered {n : ℚ} {d : Nat} {c : Int} (hn : 0 ≤ n) (hc0 : 0 ≤ c)
    (hc : c < max_cell d)
    (h1 : (c : ℚ) * 2 ^ d - margin_of (2 ^ d) ≤ n)
    (h2 : n ≤ ((c : ℚ) + 1) * 2 ^ d + margin_of (2 ^ d)) :
    c = home_cell n d ∨ (c = home_cell n d - 1 ∧ ov_left n d = true) ∨
      (c = home_cell n d + 1 ∧ ov_left n d = false ∧ ov_right n d = true) := by
  rcases home_cell_near hn h1 h2 with hh | hh | hh
  · right; right
    have hup := upper_condition_of_near hh h1
    have hl := ov_left_false_of_upper_condition hup
    refine ⟨by omega, hl, ?_⟩
    unfold ov_right
    rw [hl, decide_eq_true hup, hh, decide_eq_true (show c - 1 < max_cell d - 1 by omega)]
    rfl
  · left; exact hh.symm
  · right; left
    exact ⟨by omega, lower_flag_of_near hc0 hh h2⟩

theorem axis_y_covered {n : ℚ} {d : Nat} {c : Int} (hn : 0 ≤ n) (hc0 : 0 ≤ c)
    (hc : c ≤ max_cell d)
    (h1 : (c : ℚ) * 2 ^ d - margin_of (2 ^ d) ≤ n)
    (h2 : n ≤ ((c : ℚ) + 1) * 2 ^ d + margin_of (2 ^ d)) :
    c = home_cell n d ∨ (c = home_cell n d - 1 ∧ ov_lower n d = true ∧ ov_upper n d = false) ∨
      (c = home_cell n d + 1 ∧ ov_upper n d = true) := by
  rcases home_cell_near hn h1 h2 with hh | hh | hh
  · right; right
    have hup := upper_condition_of_near hh h1
    have hl : ov_lower n d = false := ov_left_false_of_upper_condition hup
    refine ⟨by omega, ?_⟩
    unfold ov_upper
    rw [hl, decide_eq_true hup, hh, decide_eq_true (show c - 1 < max_cell d by omega)]
    rfl
  · left; exact hh.symm
  · right; left
    have hlow : ov_lower n d = true := lower_flag_of_near hc0 hh h2
    refine ⟨by omega, hlow, ?_⟩
    rw [← Bool.not_eq_true]
    exact fun hu => ov_lower_upper_exclusive n d ⟨hlow, hu⟩

theorem cell_mem_candidates {x y : ℚ} {d : Nat} {cx cy : Int}
    (hx : cx = home_cell x d ∨ (cx = home_cell x d - 1 ∧ ov_left x d = true) ∨
      (cx = home_cell x d + 1 ∧ ov_left x d = false ∧ ov_right x d = true))
    (hy : cy = home_cell y d ∨
      (cy = home_cell y d - 1 ∧ ov_lower y d = true ∧ ov_upper y d = false) ∨
      (cy = home_cell y d + 1 ∧ ov_upper y d = true)) :
    (cx, cy) ∈ candidate_coords x y d := by
  unfold candidate_coords diagonal_coords
  rcases hx with rfl | ⟨rfl, hl⟩ | ⟨rfl, hl, hr⟩ <;>
    rcases hy with rfl | ⟨rfl, hlo, hup⟩ | ⟨rfl, hup⟩ <;>
    simp [*]

/-- C26 (probe coverage): let `d < 29` be a depth whose mask bit is set and
`(cx, cy)` the coordinates of a cell of that depth with `0 ≤ cx < maxX` and
`0 ≤ cy ≤ maxY` (`maxX = maxY = 2^28 / 2^d`) whose key is in `cell_index`.
For every point inside non-degenerate extents whose normalized coordinates
lie, on each axis, in `[c * 2^d - m, (c + 1) * 2^d + m]` for the coordinate
`c` of the cell and `m = 0.999 * 2^d / 2`, the loop body of
`generate_valid_cells` runs `TEST_AND_ADD_COORDS` on `(cx, cy)` at depth `d`,
and the list of the cell is in the list that `generate_valid_cells`
returns. -/
theorem probe_coverage (t : Tree) (x y : ℚ) (d : Nat) (cx cy : Int)
    (l : List ItemHitFunctionPair)
    (hx : t.extents.x1 < t.extents.x2) (hy : t.extents.y1 < t.extents.y2)
    (hin : ev_mapping_tree_in_extents t x y = true)
    (hd : d < MAX_DEPTH) (hmask : t.depth_mask.getD d false = true)
    (hcell : t.cell_index (make_cell_coordinates d cx cy) = some l)
    (hcx0 : 0 ≤ cx) (hcx : cx < (2 : Int) ^ 28 / 2 ^ d)
    (hcy0 : 0 ≤ cy) (hcy : cy ≤ (2 : Int) ^ 28 / 2 ^ d)
    (hx1 : (cx : ℚ) * 2 ^ d - 999 / 1000 * 2 ^ d / 2 ≤
      (ev_mapping_tree_normalize_coordinates t x y).x)
    (hx2 : (ev_mapping_tree_normalize_coordinates t x y).x ≤
      ((cx : ℚ) + 1) * 2 ^ d + 999 / 1000 * 2 ^ d / 2)
    (hy1 : (cy : ℚ) * 2 ^ d - 999 / 1000 * 2 ^ d / 2 ≤
      (ev_mapping_tree_normalize_coordinates t x y).y)
    (hy2 : (ev_mapping_tree_normalize_coordinates t x y).y ≤
      ((cy : ℚ) + 1) * 2 ^ d + 999 / 1000 * 2 ^ d / 2) :
    (cx, cy) ∈ candidate_coords (ev_mapping_tree_normalize_coordinates t x y).x
      (ev_mapping_tree_normalize_coordinates t x y).y d ∧
    l ∈ generate_valid_cells t (ev_mapping_tree_normalize_coordinates t x y).x
      (ev_mapping_tree_normalize_coordinates t x y).y := by
  rw [in_extents_iff] at hin
  have hnx := normalize_x_nonneg (y := y) hx hin.1
  have hny := normalize_y_nonneg (x := x) hy hin.2.2.1
  have hm : margin_of (2 ^ d) = 999 / 1000 * 2 ^ d / 2 := by
    unfold margin_of EXPANSION; push_cast; ring
  have hmax : max_cell d = (2 : Int) ^ 28 / 2 ^ d := by
    unfold max_cell MAX_DEPTH
    exact Int.tdiv_eq_ediv (by positivity) (by positivity)
  rw [← hm] at hx1 hx2 hy1 hy2
  rw [← hmax] at hcx hcy
  have hmem := cell_mem_candidates (axis_x_covered hnx hcx0 hcx hx1 hx2)
    (axis_y_covered hny hcy0 hcy hy1 hy2)
  refine ⟨hmem, ?_⟩
  rw [mem_generate_valid_cells]
  exact ⟨d, hd, hmask, (cx, cy), hmem, hcell⟩

/-- Witness of C26: the tree of the test after both insertions, the cell
`(26, 1, 3)` that holds both entries, and the start `(-0.73, 1)` of the second
line, whose normalized coordinates `(0.54 * 2^26, 3 * 2^26)` lie in the home
cell `(0, 3)`, within the margin of the cell `(1, 3)`. -/
theorem probe_coverage_witness :
    ev_mapping_tree_in_extents (Test.tree2 8192 8224) (-73 / 100) 1 = true ∧
    (Test.tree2 8192 8224).depth_mask.getD 26 false = true ∧
    (Test.tree2 8192 8224).cell_index (make_cell_coordinates 26 1 3) =
      some [Test.pair2 8224, Test.pair1 8192] ∧
    [Test.pair2 8224, Test.pair1 8192] ∈ generate_valid_cells (Test.tree2 8192 8224)
      (ev_mapping_tree_normalize_coordinates (Test.tree2 8192 8224) (-73 / 100) 1).x
      (ev_mapping_tree_normalize_coordinates (Test.tree2 8192 8224) (-73 / 100) 1).y := by
  have hin : ev_mapping_tree_in_extents (Test.tree2 8192 8224) (-73 / 100) 1 = true := by
    rw [Test.tree2_in_extents]
    norm_num [ev_mapping_tree_in_extents, Test.tree0, ev_mapping_tree_new, Test.rect]
  refine ⟨hin, Test.tree2_mask 8192 8224, Test.tree2_cell 8192 8224, ?_⟩
  exact (probe_coverage (Test.tree2 8192 8224) (-73 / 100) 1 26 1 3 _
    Test.tree0_extents_x Test.tree0_extents_y hin (by decide) (Test.tree2_mask 8192 8224)
    (Test.tree2_cell 8192 8224) (by norm_num) (by norm_num) (by norm_num) (by norm_num)
    (by rw [Test.tree2_normalize]; norm_num) (by rw [Test.tree2_normalize]; norm_num)
    (by rw [Test.tree2_normalize]; norm_num) (by rw [Test.tree2_normalize]; norm_num)).2

/-! ## The search of the removal in the cell list -/

theorem find_custom_eq_find_addr (item_field_at : gpointer → gpointer)
    (cell : List ItemHitFunctionPair) (item : gpointer) :
    g_list_find_custom cell item (compare_item item_field_at) =
      cell.find? (fun p => decide (p.addr = item_field_at item)) := by
  unfold g_list_find_custom
  congr 1
  funext p
  rw [Bool.eq_iff_iff, decide_eq_true_eq, decide_eq_true_eq, compare_item_eq_zero]

namespace Test

theorem tree2_reverse_l1 (a1 a2 : gpointer) :
    (tree2 a1 a2).reverse_index addr_l1 = some (make_cell_coordinates 26 1 3) := by
  have hne : addr_l1 ≠ (pair2 a2).item := show addr_l1 ≠ addr_l2 by decide
  have h : (tree2 a1 a2).reverse_index addr_l1 = (tree1 a1).reverse_index addr_l1 := by
    simp only [tree2, store_pair]
    exact Function.update_noteq hne _ _
  rw [h, tree1_reverse]

end Test

/-- C30 (the search of the removal) on the code: in the tree of the test after
both insertions, the list of the cell `(26, 1, 3)` that `ev_mapping_tree_remove`
searches for `&l1` holds the pairs of `&l2` and `&l1`.  `g_list_find_custom`
calls `compare_item (pair, item)`, and `compare_item` compares the address of
the pair with the word that it reads through the item as if the item were a
pair.  So the search returns the first pair whose address is that word: no
node when the word is the address of neither pair, although the entry with
the item `&l1` is in the list, and the pair of `&l2` when the word is the
address of that pair. -/
theorem find_custom_misses_item_entry (item_field_at : gpointer → gpointer)
    (a1 a2 : gpointer) :
    (Test.tree2 a1 a2).reverse_index Test.addr_l1 = some (make_cell_coordinates 26 1 3) ∧
    (Test.tree2 a1 a2).cell_index (make_cell_coordinates 26 1 3) =
      some [Test.pair2 a2, Test.pair1 a1] ∧
    (Test.pair1 a1 ∈ [Test.pair2 a2, Test.pair1 a1] ∧ (Test.pair1 a1).item = Test.addr_l1) ∧
    (item_field_at Test.addr_l1 ≠ a1 → item_field_at Test.addr_l1 ≠ a2 →
      compare_item item_field_at (Test.pair1 a1).addr Test.addr_l1 ≠ 0 ∧
      g_list_find_custom [Test.pair2 a2, Test.pair1 a1] Test.addr_l1
        (compare_item item_field_at) = none ∧
      ev_mapping_tree_remove item_field_at (Test.tree2 a1 a2) Test.addr_l1 = none) ∧
    (item_field_at Test.addr_l1 = a2 →
      g_list_find_custom [Test.pair2 a2, Test.pair1 a1] Test.addr_l1
        (compare_item item_field_at) = some (Test.pair2 a2) ∧
      (Test.pair2 a2).item ≠ Test.addr_l1) := by
  refine ⟨Test.tree2_reverse_l1 a1 a2, Test.tree2_cell a1 a2,
    ⟨List.mem_cons_of_mem _ (List.mem_singleton.2 rfl), rfl⟩, ?_, ?_⟩
  · intro h1 h2
    have hfind : g_list_find_custom [Test.pair2 a2, Test.pair1 a1] Test.addr_l1
        (compare_item item_field_at) = none := by
      rw [find_custom_eq_find_addr, List.find?_eq_none]
      intro p hp
      simp only [List.mem_cons, List.mem_singleton, List.not_mem_nil, or_false] at hp
      rcases hp with rfl | rfl
      · simpa [Test.pair2] using fun e => h2 e.symm
      · simpa [Test.pair1] using fun e => h1 e.symm
    refine ⟨?_, hfind, ?_⟩
    · intro h0
      rw [compare_item_eq_zero] at h0
      exact h1 h0.symm
    · unfold ev_mapping_tree_remove
      rw [Test.tree2_reverse_l1]
      simp only [Test.tree2_cell, Option.getD_some, hfind]
  · intro h
    refine ⟨?_, show Test.addr_l2 ≠ Test.addr_l1 by decide⟩
    rw [find_custom_eq_find_addr, h]
    simp [Test.pair2]

/-- Witness of C30: the pairs are allocated at `8192` and `8224`, and the word
read at the offset of the field `item` from `&l1` is the bit pattern of the
double `l1.y1 = 1.0`. -/
theorem find_custom_misses_item_entry_witness :
    word_of_one ≠ 8192 ∧ word_of_one ≠ 8224 ∧
    (Test.pair1 8192).item = Test.addr_l1 ∧
    g_list_find_custom [Test.pair2 8224, Test.pair1 8192] Test.addr_l1
      (compare_item (fun _ => word_of_one)) = none ∧
    g_list_find_custom [Test.pair2 8224, Test.pair1 8192] Test.addr_l1
      (compare_item (fun _ => 8224)) = some (Test.pair2 8224) :=
  ⟨by decide, by decide, rfl,
    ((find_custom_misses_item_entry (fun _ => word_of_one) 8192 8224).2.2.2.1
      (by decide) (by decide)).2.1,
    ((find_custom_misses_item_entry (fun _ => 8224) 8192 8224).2.2.2.2 rfl).1⟩

/-! ## The index after a removal that returned -/

theorem tree1_reverse_self (a1 a2 : gpointer) :
    (Test.tree1 a1).reverse_index (self_pair a2).item = none := by
  have hne : (self_pair a2).item ≠ (Test.pair1 a1).item :=
    show self_item ≠ Test.addr_l1 by decide
  simp only [Test.tree1, store_pair, Function.update_noteq hne]
  rfl

theorem self_tree_cell_index (a1 a2 : gpointer) :
    (self_tree a1 a2).cell_index =
      Function.update (fun _ => none) (make_cell_coordinates 26 1 3)
        (some [self_pair a2, Test.pair1 a1]) := by
  unfold self_tree
  rw [cell_index_store_pair_unmapped 26 1 3 (tree1_reverse_self a1 a2), Test.tree1_cell_index,
    Function.update_same, Function.update_idem]
  rfl

theorem add_self (a1 a2 : gpointer) :
    ev_mapping_tree_add (Test.tree1 a1) a2 self_item Test.l2 hit_always NULL =
      AddResult.returned (self_tree a1 a2) (make_cell_coordinates 26 1 3) := by
  have h : add_search (Test.tree1 a1) Test.l2 = LoopResult.accepted 26 1 3 := by
    rw [add_search_extents Test.tree0 (Test.tree1 a1) rfl, Test.add_search_l2]
  rw [add_of_search h]
  rfl

theorem self_tree_reverse (a1 a2 : gpointer) :
    (self_tree a1 a2).reverse_index self_item = some (make_cell_coordinates 26 1 3) := by
  simp only [self_tree, store_pair, self_pair, Function.update_same]

theorem self_tree_reverse_l1 (a1 a2 : gpointer) :
    (self_tree a1 a2).reverse_index Test.addr_l1 = some (make_cell_coordinates 26 1 3) := by
  have hne : Test.addr_l1 ≠ (self_pair a2).item := show Test.addr_l1 ≠ self_item by decide
  have h : (self_tree a1 a2).reverse_index Test.addr_l1 =
      (Test.tree1 a1).reverse_index Test.addr_l1 := by
    simp only [self_tree, store_pair]
    exact Function.update_noteq hne _ _
  rw [h, Test.tree1_reverse]

theorem remove_self (a1 a2 : gpointer) :
    ev_mapping_tree_remove (fun _ => a2) (self_tree a1 a2) self_item =
      some (removed_tree a1 a2) := by
  unfold ev_mapping_tree_remove
  rw [self_tree_reverse]
  simp only [self_tree_cell_index, Function.update_same, Option.getD_some]
  have hf : g_list_find_custom [self_pair a2, Test.pair1 a1] self_item
      (compare_item (fun _ => a2)) = some (self_pair a2) := by
    rw [find_custom_eq_find_addr]
    simp [self_pair]
  rw [hf]
  simp only [removed_tree, self_tree_cell_index]
  rfl

theorem removed_tree_items (a1 a2 : gpointer) :
    (removed_tree a1 a2).items = [Test.pair1 a1] := by
  show ([self_pair a2, Test.pair1 a1] : List ItemHitFunctionPair).eraseP
    (fun q => decide (q.addr = a2)) = [Test.pair1 a1]
  rw [List.eraseP_cons_of_pos (by simp [self_pair])]

theorem removed_tree_cell_index (a1 a2 : gpointer) (k : Int) :
    (removed_tree a1 a2).cell_index k = none := by
  show forget_key (self_tree a1 a2).cell_index (some (make_cell_coordinates 26 1 3)) k = none
  rw [cell_index_remove_apply, self_tree_cell_index]
  by_cases hk : k = make_cell_coordinates 26 1 3
  · rw [if_pos hk]
  · rw [if_neg hk, Function.update_noteq hk]

theorem removed_tree_reverse_l1 (a1 a2 : gpointer) :
    (removed_tree a1 a2).reverse_index Test.addr_l1 = some (make_cell_coordinates 26 1 3) := by
  have hne : Test.addr_l1 ≠ self_item := by decide
  show Function.update (self_tree a1 a2).reverse_index self_item none Test.addr_l1 = _
  rw [Function.update_noteq hne, self_tree_reverse_l1]

theorem removed_tree_get (a1 a2 : gpointer) (x y : ℚ) :
    ev_mapping_tree_get (removed_tree a1 a2) x y = NULL := by
  apply get_eq_NULL_of_no_hit
  intro cell hcell
  rw [mem_generate_valid_cells] at hcell
  obtain ⟨i, -, -, c, -, hc⟩ := hcell
  rw [removed_tree_cell_index] at hc
  exact Option.noConfusion hc

theorem hit_l1_at_start :
    Test.is_on_line Test.rect_at Test.addr_l1 (-1 / 2) 1 NULL = true := by
  norm_num [Test.is_on_line, Test.rect_at, Test.addr_l1, Test.l1, Test.squared_distance]

theorem removed_tree_normalize (a1 a2 : gpointer) :
    ev_mapping_tree_normalize_coordinates (removed_tree a1 a2) (-1 / 2) 1 =
      ⟨2 ^ 26, 3 * 2 ^ 26⟩ := by
  simp only [ev_mapping_tree_normalize_coordinates, removed_tree, self_tree, Test.tree1,
    store_pair, Test.tree0, ev_mapping_tree_new, Test.rect, SMALLEST_QT_UNIT, EvPoint.mk.injEq]
  constructor <;> norm_num

/-- C12 (order within one cell) on the code: the index of the test holds the
entries of `&l1` and, inserted after it with the bounds of `l2`, of
`self_item`, both in the cell `(26, 1, 3)`.  The removal of `self_item`
returns; the entry of `&l1` is still stored, its reverse mapping is the key of
that cell, the mask bit of depth 26 is set, the point `(-0.5, 1)` lies inside
the extents with home cell `(1, 3)` at depth 26, so that the cell is probed,
and the hit function of the entry holds there.  But the key pointer of the
cell dangles after the removal, the lookup finds no list, and
`ev_mapping_tree_get` returns `NULL` instead of `&l1`. -/
theorem get_after_remove_misses_entry :
    ev_mapping_tree_add (Test.tree1 8192) 8224 self_item Test.l2 hit_always NULL =
      AddResult.returned (self_tree 8192 8224) (make_cell_coordinates 26 1 3) ∧
    (self_tree 8192 8224).items = [self_pair 8224, Test.pair1 8192] ∧
    (self_tree 8192 8224).cell_index (make_cell_coordinates 26 1 3) =
      some [self_pair 8224, Test.pair1 8192] ∧
    ev_mapping_tree_remove (fun _ => 8224) (self_tree 8192 8224) self_item =
      some (removed_tree 8192 8224) ∧
    (removed_tree 8192 8224).items = [Test.pair1 8192] ∧
    (removed_tree 8192 8224).reverse_index (Test.pair1 8192).item =
      some (make_cell_coordinates 26 1 3) ∧
    (removed_tree 8192 8224).depth_mask.getD 26 false = true ∧
    ev_mapping_tree_in_extents (removed_tree 8192 8224) (-1 / 2) 1 = true ∧
    ((1 : Int), (3 : Int)) ∈ candidate_coords
      (ev_mapping_tree_normalize_coordinates (removed_tree 8192 8224) (-1 / 2) 1).x
      (ev_mapping_tree_normalize_coordinates (removed_tree 8192 8224) (-1 / 2) 1).y 26 ∧
    (Test.pair1 8192).hit_func (Test.pair1 8192).item (-1 / 2) 1 (Test.pair1 8192).data = true ∧
    (removed_tree 8192 8224).cell_index (make_cell_coordinates 26 1 3) = none ∧
    ev_mapping_tree_get (removed_tree 8192 8224) (-1 / 2) 1 = NULL ∧
    NULL ≠ (Test.pair1 8192).item := by
  refine ⟨add_self 8192 8224, rfl, ?_, remove_self 8192 8224, removed_tree_items 8192 8224,
    removed_tree_reverse_l1 8192 8224, rfl, ?_, ?_, hit_l1_at_start,
    removed_tree_cell_index 8192 8224 _, removed_tree_get 8192 8224 _ _, ?_⟩
  · rw [self_tree_cell_index, Function.update_same]
  · norm_num [ev_mapping_tree_in_extents, removed_tree, self_tree, Test.tree1, store_pair,
      Test.tree0, ev_mapping_tree_new, Test.rect]
  · rw [removed_tree_normalize]
    have hx : home_cell ((2 : ℚ) ^ 26) 26 = 1 :=
      home_cell_eval (by norm_num) (by norm_num) (by norm_num)
    have hy : home_cell ((3 : ℚ) * 2 ^ 26) 26 = 3 :=
      home_cell_eval (by norm_num) (by norm_num) (by norm_num)
    have := home_mem_candidates ((2 : ℚ) ^ 26) (3 * 2 ^ 26) 26
    rw [hx, hy] at this
    exact this
  · show (0 : gpointer) ≠ Test.addr_l1
    decide

/-- C18 (entries never move) on the code: in the index that holds `&l1` and
`self_item` in the cell `(26, 1, 3)`, the entry of `&l1` is in the list of
that cell.  After the removal of `self_item` has returned, the entry of the
other item `&l1` is still in `items` and its reverse mapping is still the key
of the cell, but the key pointer of the cell dangles: a lookup of the cell
finds nothing and the entry is in the list of no cell. -/
theorem remove_loses_cell_of_other_entries :
    in_cell (self_tree 8192 8224) (Test.pair1 8192) (make_cell_coordinates 26 1 3) ∧
    (self_tree 8192 8224).reverse_index Test.addr_l1 = some (make_cell_coordinates 26 1 3) ∧
    ev_mapping_tree_remove (fun _ => 8224) (self_tree 8192 8224) self_item =
      some (removed_tree 8192 8224) ∧
    (Test.pair1 8192).item ≠ self_item ∧
    Test.pair1 8192 ∈ (removed_tree 8192 8224).items ∧
    (removed_tree 8192 8224).reverse_index Test.addr_l1 =
      some (make_cell_coordinates 26 1 3) ∧
    (removed_tree 8192 8224).cell_index (make_cell_coordinates 26 1 3) = none ∧
    (∀ k, ¬ in_cell (removed_tree 8192 8224) (Test.pair1 8192) k) := by
  refine ⟨⟨[self_pair 8224, Test.pair1 8192], ?_,
      List.mem_cons_of_mem _ (List.mem_singleton.2 rfl)⟩,
    self_tree_reverse_l1 8192 8224, remove_self 8192 8224, ?_, ?_,
    removed_tree_reverse_l1 8192 8224, removed_tree_cell_index 8192 8224 _, ?_⟩
  · rw [self_tree_cell_index, Function.update_same]
  · show Test.addr_l1 ≠ self_item
    decide
  · rw [removed_tree_items]
    exact List.mem_singleton.2 rfl
  · rintro k ⟨l, hl, -⟩
    rw [removed_tree_cell_index] at hl
    exact Option.noConfusion hl

/-! ## A cell past the last slot of the depth mask -/

theorem normalize_wide_first :
    ev_mapping_tree_normalize_coordinates Test.tree0 wide_rect.x1 wide_rect.y1 = ⟨0, 0⟩ := by
  norm_num [ev_mapping_tree_normalize_coordinates, Test.tree0, ev_mapping_tree_new, Test.rect,
    wide_rect, SMALLEST_QT_UNIT]

theorem normalize_wide_second :
    ev_mapping_tree_normalize_coordinates Test.tree0 wide_rect.x2 wide_rect.y2 =
      ⟨3 * 2 ^ 28, 0⟩ := by
  norm_num [ev_mapping_tree_normalize_coordinates, Test.tree0, ev_mapping_tree_new, Test.rect,
    wide_rect, SMALLEST_QT_UNIT]

theorem add_search_wide :
    add_search Test.tree0 wide_rect = LoopResult.accepted 29 0 0 := by
  have h := add_search_eval_first Test.tree0 wide_rect 29 (2 ^ 29) 0 0 1 0
    normalize_wide_first normalize_wide_second
    (by norm_num) (by norm_num) (by norm_num) (by norm_num)
    (by
      have hspan : span_of (⟨0, 0⟩ : EvPoint) ⟨3 * 2 ^ 28, 0⟩ = 3 * 2 ^ 28 := by
        norm_num [span_of]
      rw [hspan]
      exact initial_depth_eq _ 30 (by norm_num) (by norm_num) (by norm_num))
    (by decide)
    (corner_cell_eval (by norm_num) (by norm_num) (by norm_num [margin_of, EXPANSION])
      (by norm_num [margin_of, EXPANSION]))
    (corner_cell_eval (by norm_num) (by norm_num) (by norm_num [margin_of, EXPANSION])
      (by norm_num [margin_of, EXPANSION]))
    (corner_cell_eval (by norm_num) (by norm_num) (by norm_num [margin_of, EXPANSION])
      (by norm_num [margin_of, EXPANSION]))
    (corner_cell_eval (by norm_num) (by norm_num) (by norm_num [margin_of, EXPANSION])
      (by norm_num [margin_of, EXPANSION]))
    (by norm_num) (by norm_num)
  simpa using h

theorem key_29_0_0 : make_cell_coordinates 29 0 0 = 29 * 2 ^ 58 := by
  unfold make_cell_coordinates int64_of
  norm_num

/-- C24 (the depth mask is only an optimisation) on the code: in the index of
the test the rectangle from the lower corner of the extents to `(5, -2)` ends
outside the extents; `ev_mapping_tree_add` makes no check, accepts depth 29 at
the first attempt and returns the key of the cell `(29, 0, 0)`.  The state is
reachable and the cell holds the entry, but the depth mask has the 29 slots
`0 .. 28`, the store `g_array_index (tree->depth_mask, gboolean, 29) = TRUE`
lies past its last element, and no slot of the mask is set: a cell that holds
an entry has no mask bit. -/
theorem cell_without_mask_bit (addr : gpointer) :
    ev_mapping_tree_in_extents Test.tree0 wide_rect.x2 wide_rect.y2 = false ∧
    ev_mapping_tree_add Test.tree0 addr 8192 wide_rect hit_always NULL =
      AddResult.returned (wide_tree addr) (29 * 2 ^ 58) ∧
    Reachable (wide_tree addr) ∧
    make_cell_coordinates 29 0 0 = 29 * 2 ^ 58 ∧
    (wide_tree addr).cell_index (make_cell_coordinates 29 0 0) = some [corner_pair addr] ∧
    (wide_tree addr).reverse_index 8192 = some (make_cell_coordinates 29 0 0) ∧
    (wide_tree addr).depth_mask.length = MAX_DEPTH ∧
    MAX_DEPTH = 29 ∧
    (∀ i, (wide_tree addr).depth_mask.getD i false = false) := by
  have hadd : ev_mapping_tree_add Test.tree0 addr 8192 wide_rect hit_always NULL =
      AddResult.returned (wide_tree addr) (29 * 2 ^ 58) := by
    rw [add_of_search add_search_wide, key_29_0_0]
    rfl
  refine ⟨?_, hadd, ?_, key_29_0_0, ?_, ?_, rfl, rfl, ?_⟩
  · norm_num [ev_mapping_tree_in_extents, Test.tree0, ev_mapping_tree_new, Test.rect,
      wide_rect]
  · exact Reachable.add addr 8192 wide_rect hit_always NULL _ (Reachable.new 1 Test.rect)
      (fun p hp => by simp [ev_mapping_tree_new] at hp) hadd
  · unfold wide_tree
    rw [cell_index_store_pair_unmapped 29 0 0
      (show Test.tree0.reverse_index (corner_pair addr).item = none from rfl),
      Function.update_same]
    rfl
  · simp only [wide_tree, store_pair, corner_pair, Function.update_same]
  · intro i
    have h : (wide_tree addr).depth_mask = List.replicate 29 false := by
      simp [wide_tree, store_pair, Test.tree0, ev_mapping_tree_new, MAX_DEPTH]
    rw [h, List.getD_eq_getElem?_getD, List.getElem?_replicate]
    split <;> rfl

/-! ## The first guess computed in doubles -/

theorem guess_span : span_of guess_n1 guess_n2 = 2 ^ 26 + 1 / 2 ^ 25 := by
  norm_num [span_of, guess_n1, guess_n2, abs_of_neg]

theorem guess_cells_25 :
    corner_cell guess_n1.x (2 ^ 25) = 5 ∧ corner_cell guess_n2.x (2 ^ 25) = 7 ∧
    corner_cell guess_n1.y (2 ^ 25) = 0 ∧ corner_cell guess_n2.y (2 ^ 25) = 0 := by
  refine ⟨?_, ?_, ?_, ?_⟩ <;>
  exact corner_cell_eval (by norm_num [guess_n1, guess_n2]) (by norm_num)
    (by norm_num [margin_of, EXPANSION, guess_n1, guess_n2])
    (by norm_num [margin_of, EXPANSION, guess_n1, guess_n2])

theorem guess_cells_26 :
    corner_cell guess_n1.x (2 ^ 26) = 2 ∧ corner_cell guess_n2.x (2 ^ 26) = 4 ∧
    corner_cell guess_n1.y (2 ^ 26) = 0 ∧ corner_cell guess_n2.y (2 ^ 26) = 0 := by
  refine ⟨?_, ?_, ?_, ?_⟩ <;>
  exact corner_cell_eval (by norm_num [guess_n1, guess_n2]) (by norm_num)
    (by norm_num [margin_of, EXPANSION, guess_n1, guess_n2])
    (by norm_num [margin_of, EXPANSION, guess_n1, guess_n2])

theorem guess_cells_27 :
    corner_cell guess_n1.x (2 ^ 27) = 1 ∧ corner_cell guess_n2.x (2 ^ 27) = 2 ∧
    corner_cell guess_n1.y (2 ^ 27) = 0 ∧ corner_cell guess_n2.y (2 ^ 27) = 0 := by
  refine ⟨?_, ?_, ?_, ?_⟩ <;>
  exact corner_cell_eval (by norm_num [guess_n1, guess_n2]) (by norm_num)
    (by norm_num [margin_of, EXPANSION, guess_n1, guess_n2])
    (by norm_num [margin_of, EXPANSION, guess_n1, guess_n2])

theorem guess_nonneg :
    0 ≤ guess_n1.x ∧ 0 ≤ guess_n1.y ∧ 0 ≤ guess_n2.x ∧ 0 ≤ guess_n2.y := by
  norm_num [guess_n1, guess_n2]

theorem guess_fits_25 : attempt_fits guess_n1 guess_n2 (2 ^ 25) = false := by
  obtain ⟨h1x, h1y, h2x, h2y⟩ := guess_nonneg
  obtain ⟨e1x, e2x, e1y, e2y⟩ := guess_cells_25
  rw [attempt_fits_eval h1x h1y h2x h2y (by norm_num) e1x e1y e2x e2y]
  decide

theorem guess_fits_26 : attempt_fits guess_n1 guess_n2 (2 ^ 26) = false := by
  obtain ⟨h1x, h1y, h2x, h2y⟩ := guess_nonneg
  obtain ⟨e1x, e2x, e1y, e2y⟩ := guess_cells_26
  rw [attempt_fits_eval h1x h1y h2x h2y (by norm_num) e1x e1y e2x e2y]
  decide

theorem guess_fits_27 : attempt_fits guess_n1 guess_n2 (2 ^ 27) = true := by
  obtain ⟨h1x, h1y, h2x, h2y⟩ := guess_nonneg
  obtain ⟨e1x, e2x, e1y, e2y⟩ := guess_cells_27
  rw [attempt_fits_eval h1x h1y h2x h2y (by norm_num) e1x e1y e2x e2y]
  decide

/-- C21 (initial depth guess) on the code: for the extents `(0, 0, 10, 10)` and
the rectangle `((6.25125, 0), (8.75125, 0))`, which lies inside them, the code
computes in `double` the normalized corners `guess_n1` and `guess_n2`, whose
span is `2^26 + 2^-25`.  The formula of the claim gives the first guess 26
for this span, and the loop started there accepts the cell `(27, 1, 0)` at the
second attempt.  The code evaluates `ceil (log (span) / log (2))` in `double`,
where the quotient is exactly `26.0`, and starts at depth 25: the corner cells
are `5` and `7` at depth 25, `2` and `4` at depth 26, no attempt fits, and the
third iteration stops at `g_assert (i < 2)`. -/
theorem first_guess_in_doubles_aborts :
    span_of guess_n1 guess_n2 = 2 ^ 26 + 1 / 2 ^ 25 ∧
    (2 : ℚ) ^ 26 < span_of guess_n1 guess_n2 ∧
    initial_depth (span_of guess_n1 guess_n2) = 26 ∧
    add_loop guess_n1 guess_n2 3 0 26 (2 ^ 26) = LoopResult.accepted 27 1 0 ∧
    corner_cell guess_n1.x (2 ^ 25) = 5 ∧ corner_cell guess_n2.x (2 ^ 25) = 7 ∧
    corner_cell guess_n1.x (2 ^ 26) = 2 ∧ corner_cell guess_n2.x (2 ^ 26) = 4 ∧
    add_loop guess_n1 guess_n2 3 0 25 (2 ^ 25) = LoopResult.assert_failed := by
  refine ⟨guess_span, ?_, ?_, ?_, guess_cells_25.1, guess_cells_25.2.1, guess_cells_26.1,
    guess_cells_26.2.1, ?_⟩
  · rw [guess_span]
    norm_num
  · rw [guess_span]
    exact initial_depth_eq _ 27 (by norm_num) (by norm_num) (by norm_num)
  · have h26 := guess_fits_26
    have h27 := guess_fits_27
    obtain ⟨e1x, e2x, e1y, e2y⟩ := guess_cells_27
    norm_num at h26 h27 e1x e2x e1y e2y
    simp [add_loop, h26, h27, e1x, e2x, e1y, e2y]
  · have h25 := guess_fits_25
    have h26 := guess_fits_26
    norm_num at h25 h26
    simp [add_loop, h25, h26]

/-! ## The key of the cell that the loop accepts -/

theorem add_loop_accepted_cases {n1 n2 : EvPoint} {d0 s0 d cx cy : Int}
    (h : add_loop n1 n2 3 0 d0 s0 = LoopResult.accepted d cx cy) :
    ∃ s, ((d = d0 ∧ s = s0) ∨ (d = d0 + 1 ∧ s = s0 * 2 ∧ attempt_fits n1 n2 s0 = false)) ∧
      attempt_fits n1 n2 s = true ∧
      cx = min (corner_cell n1.x s) (corner_cell n2.x s) ∧
      cy = min (corner_cell n1.y s) (corner_cell n2.y s) := by
  simp only [add_loop] at h
  by_cases h1 : attempt_fits n1 n2 s0 = true
  · simp only [h1, if_true] at h
    norm_num at h
    exact ⟨s0, Or.inl ⟨h.1.symm, rfl⟩, h1, h.2.1.symm, h.2.2.symm⟩
  · by_cases h2 : attempt_fits n1 n2 (s0 * 2) = true
    · simp only [h1, h2, if_true, if_false] at h
      norm_num at h
      exact ⟨s0 * 2, Or.inr ⟨h.1.symm, rfl, by simpa using h1⟩, h2, h.2.1.symm, h.2.2.symm⟩
    · simp [h1, h2] at h

theorem two_pow_succ_toNat {d : Int} (hd : 0 ≤ d) :
    (2 : Int) ^ (d + 1).toNat = 2 ^ d.toNat * 2 := by
  have : (d + 1).toNat = d.toNat + 1 := by omega
  rw [this, pow_succ]

theorem add_loop_accepted_depth {n1 n2 : EvPoint} {d0 d cx cy : Int} (hd0 : 0 ≤ d0)
    (h : add_loop n1 n2 3 0 d0 (2 ^ d0.toNat) = LoopResult.accepted d cx cy) :
    (d = d0 ∨ (d = d0 + 1 ∧ attempt_fits n1 n2 (2 ^ d0.toNat) = false)) ∧
      attempt_fits n1 n2 (2 ^ d.toNat) = true ∧
      cx = min (corner_cell n1.x (2 ^ d.toNat)) (corner_cell n2.x (2 ^ d.toNat)) ∧
      cy = min (corner_cell n1.y (2 ^ d.toNat)) (corner_cell n2.y (2 ^ d.toNat)) := by
  obtain ⟨s, hs, hfit, hcx, hcy⟩ := add_loop_accepted_cases h
  rcases hs with ⟨e1, e2⟩ | ⟨e1, e2, e3⟩
  · subst e1 e2
    exact ⟨Or.inl rfl, hfit, hcx, hcy⟩
  · have e : s = 2 ^ d.toNat := by rw [e2, e1, two_pow_succ_toNat hd0]
    subst e
    exact ⟨Or.inr ⟨e1, e3⟩, hfit, hcx, hcy⟩

theorem corner_cell_le_one {n : ℚ} (hn : 0 ≤ n) (h : n ≤ 2 ^ 28) :
    corner_cell n (2 ^ 28) ≤ 1 := by
  rw [corner_cell_eq_floor hn (by norm_num)]
  have h2 : (n + margin_of (2 ^ 28)) / (((2 : Int) ^ 28 : Int) : ℚ) < 2 := by
    rw [div_lt_iff₀ (by norm_num)]
    unfold margin_of EXPANSION
    push_cast
    linarith
  have h4 : ⌊(n + margin_of (2 ^ 28)) / (((2 : Int) ^ 28 : Int) : ℚ)⌋ < 2 :=
    Int.floor_lt.2 (by exact_mod_cast h2)
  omega

theorem attempt_fits_top {n1 n2 : EvPoint} (h1x : 0 ≤ n1.x) (h1y : 0 ≤ n1.y)
    (h2x : 0 ≤ n2.x) (h2y : 0 ≤ n2.y) (b1x : n1.x ≤ 2 ^ 28) (b1y : n1.y ≤ 2 ^ 28)
    (b2x : n2.x ≤ 2 ^ 28) (b2y : n2.y ≤ 2 ^ 28) :
    attempt_fits n1 n2 (2 ^ 28) = true := by
  rw [attempt_fits_eval h1x h1y h2x h2y (by norm_num) rfl rfl rfl rfl]
  have a1 := corner_cell_nonneg h1x (show (0 : Int) < 2 ^ 28 by norm_num)
  have a2 := corner_cell_nonneg h1y (show (0 : Int) < 2 ^ 28 by norm_num)
  have a3 := corner_cell_nonneg h2x (show (0 : Int) < 2 ^ 28 by norm_num)
  have a4 := corner_cell_nonneg h2y (show (0 : Int) < 2 ^ 28 by norm_num)
  have c1 := corner_cell_le_one h1x b1x
  have c2 := corner_cell_le_one h1y b1y
  have c3 := corner_cell_le_one h2x b2x
  have c4 := corner_cell_le_one h2y b2y
  rw [Bool.and_eq_true, decide_eq_true_eq, decide_eq_true_eq, abs_le, abs_le]
  omega

theorem add_loop_range {n1 n2 : EvPoint} {d0 d cx cy : Int}
    (h1x : 0 ≤ n1.x) (h1y : 0 ≤ n1.y) (h2x : 0 ≤ n2.x) (h2y : 0 ≤ n2.y)
    (b1x : n1.x ≤ 2 ^ 28) (b1y : n1.y ≤ 2 ^ 28) (hd0 : 0 ≤ d0) (hd28 : d0 ≤ 28)
    (b2x : n2.x ≤ 2 ^ 28) (b2y : n2.y ≤ 2 ^ 28)
    (h : add_loop n1 n2 3 0 d0 (2 ^ d0.toNat) = LoopResult.accepted d cx cy) :
    0 ≤ d ∧ d ≤ 28 ∧ 0 ≤ cx ∧ cx ≤ 2 ^ 28 ∧ 0 ≤ cy ∧ cy ≤ 2 ^ 28 := by
  obtain ⟨hd, -, hcx, hcy⟩ := add_loop_accepted_depth hd0 h
  have hspos : (0 : Int) < 2 ^ d.toNat := by positivity
  have c1 := corner_cell_nonneg h1x hspos
  have c2 := corner_cell_nonneg h1y hspos
  have c3 := corner_cell_nonneg h2x hspos
  have c4 := corner_cell_nonneg h2y hspos
  have e1 := corner_cell_le h1x hspos b1x
  have e2 := corner_cell_le h1y hspos b1y
  have hd' : 0 ≤ d ∧ d ≤ 28 := by
    rcases hd with e | ⟨e, hno⟩
    · omega
    · refine ⟨by omega, ?_⟩
      by_contra hgt
      have e28 : d0 = 28 := by omega
      rw [e28] at hno
      have hfit := attempt_fits_top h1x h1y h2x h2y b1x b1y b2x b2y
      have e : ((2 : Int) ^ (28 : Int).toNat) = 2 ^ 28 := rfl
      rw [e, hfit] at hno
      exact Bool.noConfusion hno
  rw [hcx, hcy]
  exact ⟨hd'.1, hd'.2, le_min c1 c3, le_trans (min_le_left _ _) e1, le_min c2 c4,
    le_trans (min_le_left _ _) e2⟩

theorem key_facts_of_range {d cx cy : Int} (hd0 : 0 ≤ d) (hd28 : d ≤ 28) (hcx0 : 0 ≤ cx)
    (hcx1 : cx ≤ 2 ^ 28) (hcy0 : 0 ≤ cy) (hcy1 : cy ≤ 2 ^ 28) :
    d.toNat < MAX_DEPTH ∧
    (d % 2 ^ 8 = d ∧ cx % 2 ^ 29 = cx ∧ cy % 2 ^ 29 = cy) ∧
    make_cell_coordinates d cx cy = d * 2 ^ 58 + cx * 2 ^ 29 + cy ∧
    (make_cell_coordinates d cx cy / 2 ^ 58 = d ∧
      make_cell_coordinates d cx cy / 2 ^ 29 % 2 ^ 29 = cx ∧
      make_cell_coordinates d cx cy % 2 ^ 29 = cy) ∧
    0 ≤ make_cell_coordinates d cx cy ∧
    make_cell_coordinates d cx cy ≠ -1 := by
  have hkey := make_cell_coordinates_of_range hd0 hd28 hcx0 (show cx < 2 ^ 29 by omega) hcy0
    (show cy < 2 ^ 29 by omega)
  refine ⟨?_, ⟨?_, ?_, ?_⟩, hkey, ?_, ?_, ?_⟩
  · unfold MAX_DEPTH; omega
  · exact Int.emod_eq_of_lt hd0 (by omega)
  · exact Int.emod_eq_of_lt hcx0 (by omega)
  · exact Int.emod_eq_of_lt hcy0 (by omega)
  · rw [hkey]
    refine ⟨?_, ?_, ?_⟩ <;> omega
  · rw [hkey]; omega
  · rw [hkey]; omega

theorem add_search_accepted_depth {t : Tree} {r : EvRectangle} {d cx cy : Int}
    (h : add_search t r = LoopResult.accepted d cx cy) :
    0 ≤ d ∧
      attempt_fits (ev_mapping_tree_normalize_coordinates t r.x1 r.y1)
        (ev_mapping_tree_normalize_coordinates t r.x2 r.y2) (2 ^ d.toNat) = true ∧
      cx = min (corner_cell (ev_mapping_tree_normalize_coordinates t r.x1 r.y1).x (2 ^ d.toNat))
        (corner_cell (ev_mapping_tree_normalize_coordinates t r.x2 r.y2).x (2 ^ d.toNat)) ∧
      cy = min (corner_cell (ev_mapping_tree_normalize_coordinates t r.x1 r.y1).y (2 ^ d.toNat))
        (corner_cell (ev_mapping_tree_normalize_coordinates t r.x2 r.y2).y (2 ^ d.toNat)) := by
  unfold add_search at h
  have hd0 := initial_depth_nonneg (span_of (ev_mapping_tree_normalize_coordinates t r.x1 r.y1)
    (ev_mapping_tree_normalize_coordinates t r.x2 r.y2))
  obtain ⟨hd, hfit, hcx, hcy⟩ := add_loop_accepted_depth hd0 h
  refine ⟨?_, hfit, hcx, hcy⟩
  rcases hd with e | ⟨e, -⟩ <;> omega

/-- C4 (returned key): when the loop of `ev_mapping_tree_add`, started at any
first guess `d0` for any normalized corners, accepts, it does so at the depth
`d0` or `d0 + 1`, the test of the `if` holds at that depth, and `(cx, cy)` is
the component-wise minimum of the two corner cells at that depth.  Whenever
`ev_mapping_tree_add` returns, it has stored the pair in the cell `(d, cx, cy)`
so chosen and the value returned is `make_cell_coordinates (d, cx, cy)`, which
for a depth up to 28 and cell coordinates of at most 29 bits is
`d << 58 | cx << 29 | cy` (the sum `d * 2^58 + cx * 2^29 + cy`).  In the test,
adding `l1` and then `l2` returns `(26 << 58) | (1 << 29) | 3` both times. -/
theorem add_returns_cell_key :
    (∀ (n1 n2 : EvPoint) (d0 d cx cy : Int), 0 ≤ d0 →
      add_loop n1 n2 3 0 d0 (2 ^ d0.toNat) = LoopResult.accepted d cx cy →
      (d = d0 ∨ d = d0 + 1) ∧
      attempt_fits n1 n2 (2 ^ d.toNat) = true ∧
      cx = min (corner_cell n1.x (2 ^ d.toNat)) (corner_cell n2.x (2 ^ d.toNat)) ∧
      cy = min (corner_cell n1.y (2 ^ d.toNat)) (corner_cell n2.y (2 ^ d.toNat))) ∧
    (∀ (t t1 : Tree) (addr item : gpointer) (r : EvRectangle)
        (hit_func : EvMappingTreeHitFunction) (data : gpointer) (key : Int),
      ev_mapping_tree_add t addr item r hit_func data = AddResult.returned t1 key →
      ∃ d cx cy : Int, 0 ≤ d ∧
        attempt_fits (ev_mapping_tree_normalize_coordinates t r.x1 r.y1)
          (ev_mapping_tree_normalize_coordinates t r.x2 r.y2) (2 ^ d.toNat) = true ∧
        cx = min
          (corner_cell (ev_mapping_tree_normalize_coordinates t r.x1 r.y1).x (2 ^ d.toNat))
          (corner_cell (ev_mapping_tree_normalize_coordinates t r.x2 r.y2).x (2 ^ d.toNat)) ∧
        cy = min
          (corner_cell (ev_mapping_tree_normalize_coordinates t r.x1 r.y1).y (2 ^ d.toNat))
          (corner_cell (ev_mapping_tree_normalize_coordinates t r.x2 r.y2).y (2 ^ d.toNat)) ∧
        t1 = store_pair t { addr := addr, hit_func := hit_func, item := item, data := data }
          d cx cy ∧
        key = make_cell_coordinates d cx cy ∧
        (d ≤ 28 → 0 ≤ cx → cx < 2 ^ 29 → 0 ≤ cy → cy < 2 ^ 29 →
          key = d * 2 ^ 58 + cx * 2 ^ 29 + cy)) ∧
    (∀ a1 : gpointer,
      ev_mapping_tree_add Test.tree0 a1 Test.addr_l1 Test.l1 (Test.is_on_line Test.rect_at) NULL =
        AddResult.returned (Test.tree1 a1) (((26 <<< 58 ||| 1 <<< 29 ||| 3 : Nat)) : Int)) ∧
    (∀ a1 a2 : gpointer,
      ev_mapping_tree_add (Test.tree1 a1) a2 Test.addr_l2 Test.l2 (Test.is_on_line Test.rect_at)
          NULL =
        AddResult.returned (Test.tree2 a1 a2) (((26 <<< 58 ||| 1 <<< 29 ||| 3 : Nat)) : Int)) := by
  refine ⟨?_, ?_, Test.add_l1, Test.add_l2⟩
  · intro n1 n2 d0 d cx cy hd0 h
    obtain ⟨hd, hfit, hcx, hcy⟩ := add_loop_accepted_depth hd0 h
    exact ⟨hd.imp id (fun e => e.1), hfit, hcx, hcy⟩
  · intro t t1 addr item r hit_func data key h
    rcases add_returned_cases h with ⟨-, -, hf⟩ | ⟨d, cx, cy, hs, ht1, hkey⟩
    · exact absurd hf (add_search_ne_fell_through t r)
    · obtain ⟨hd0, hfit, hcx, hcy⟩ := add_search_accepted_depth hs
      refine ⟨d, cx, cy, hd0, hfit, hcx, hcy, ht1, hkey, ?_⟩
      intro hd28 hcx0 hcx1 hcy0 hcy1
      rw [hkey, make_cell_coordinates_of_range hd0 hd28 hcx0 hcx1 hcy0 hcy1]

/-- Witness of C4: the first insertion of the test returns, its key is that of
the cell `(26, 1, 3)` that the loop accepts, and the loop started at the first
guess 25 for the corners of `l1` accepts at depth 26. -/
theorem add_returns_cell_key_witness :
    ev_mapping_tree_add Test.tree0 8192 Test.addr_l1 Test.l1 (Test.is_on_line Test.rect_at)
        NULL =
      AddResult.returned (Test.tree1 8192) (((26 <<< 58 ||| 1 <<< 29 ||| 3 : Nat)) : Int) ∧
    ∃ d cx cy : Int,
      Test.tree1 8192 = store_pair Test.tree0
        { addr := 8192, hit_func := Test.is_on_line Test.rect_at, item := Test.addr_l1,
          data := NULL } d cx cy ∧
      (((26 <<< 58 ||| 1 <<< 29 ||| 3 : Nat)) : Int) = make_cell_coordinates d cx cy := by
  refine ⟨Test.add_l1 8192, ?_⟩
  obtain ⟨d, cx, cy, -, -, -, -, h1, h2, -⟩ :=
    add_returns_cell_key.2.1 Test.tree0 (Test.tree1 8192) 8192 Test.addr_l1 Test.l1
      (Test.is_on_line Test.rect_at) NULL _ (Test.add_l1 8192)
  exact ⟨d, cx, cy, h1, h2⟩

/-- C29 (key packing is lossless inside the extents): for normalized corners
in `[0, 2^28]`, which is where the corners of a rectangle inside the extents
lie, and for any first guess `d0` in `0..28`, a cell `(d, cx, cy)` that the
loop of `ev_mapping_tree_add` accepts has its depth in `0..28` (an index of
the 29-slot depth mask) and both coordinates in `[0, 2^28]`; the masks `& 0xFF`
and `& 0x1FFFFFFF` of `make_cell_coordinates` leave them as they are, the key
is `d * 2^58 + cx * 2^29 + cy` and decodes to `(d, cx, cy)`, it is
non-negative and differs from the value `-1` of the final `return -1`.
Accordingly, whenever `ev_mapping_tree_add` returns for a rectangle inside
non-degenerate extents, it has stored the pair in such a cell and returned
such a key. -/
theorem key_packing_lossless :
    (∀ (n1 n2 : EvPoint) (d0 d cx cy : Int),
      0 ≤ n1.x → n1.x ≤ 2 ^ 28 → 0 ≤ n1.y → n1.y ≤ 2 ^ 28 →
      0 ≤ n2.x → n2.x ≤ 2 ^ 28 → 0 ≤ n2.y → n2.y ≤ 2 ^ 28 →
      0 ≤ d0 → d0 ≤ 28 →
      add_loop n1 n2 3 0 d0 (2 ^ d0.toNat) = LoopResult.accepted d cx cy →
      (0 ≤ d ∧ d ≤ 28 ∧ d.toNat < MAX_DEPTH) ∧
      (0 ≤ cx ∧ cx ≤ 2 ^ 28) ∧ (0 ≤ cy ∧ cy ≤ 2 ^ 28) ∧
      (d % 2 ^ 8 = d ∧ cx % 2 ^ 29 = cx ∧ cy % 2 ^ 29 = cy) ∧
      make_cell_coordinates d cx cy = d * 2 ^ 58 + cx * 2 ^ 29 + cy ∧
      (make_cell_coordinates d cx cy / 2 ^ 58 = d ∧
        make_cell_coordinates d cx cy / 2 ^ 29 % 2 ^ 29 = cx ∧
        make_cell_coordinates d cx cy % 2 ^ 29 = cy) ∧
      0 ≤ make_cell_coordinates d cx cy ∧
      make_cell_coordinates d cx cy ≠ -1) ∧
    (∀ (t t1 : Tree) (addr item : gpointer) (r : EvRectangle)
        (hit_func : EvMappingTreeHitFunction) (data : gpointer) (key : Int),
      t.extents.x1 < t.extents.x2 → t.extents.y1 < t.extents.y2 →
      ev_mapping_tree_in_extents t r.x1 r.y1 = true →
      ev_mapping_tree_in_extents t r.x2 r.y2 = true →
      ev_mapping_tree_add t addr item r hit_func data = AddResult.returned t1 key →
      ∃ d cx cy : Int,
        t1 = store_pair t { addr := addr, hit_func := hit_func, item := item, data := data }
          d cx cy ∧
        key = make_cell_coordinates d cx cy ∧
        (0 ≤ d ∧ d ≤ 28 ∧ d.toNat < MAX_DEPTH) ∧
        (0 ≤ cx ∧ cx ≤ 2 ^ 28) ∧ (0 ≤ cy ∧ cy ≤ 2 ^ 28) ∧
        (d % 2 ^ 8 = d ∧ cx % 2 ^ 29 = cx ∧ cy % 2 ^ 29 = cy) ∧
        key = d * 2 ^ 58 + cx * 2 ^ 29 + cy ∧
        (key / 2 ^ 58 = d ∧ key / 2 ^ 29 % 2 ^ 29 = cx ∧ key % 2 ^ 29 = cy) ∧
        0 ≤ key ∧ key ≠ -1) := by
  constructor
  · intro n1 n2 d0 d cx cy h1x b1x h1y b1y h2x b2x h2y b2y hd0 hd28 h
    obtain ⟨a1, a2, a3, a4, a5, a6⟩ :=
      add_loop_range h1x h1y h2x h2y b1x b1y hd0 hd28 b2x b2y h
    obtain ⟨k1, k2, k3, k4, k5, k6⟩ := key_facts_of_range a1 a2 a3 a4 a5 a6
    exact ⟨⟨a1, a2, k1⟩, ⟨a3, a4⟩, ⟨a5, a6⟩, k2, k3, k4, k5, k6⟩
  · intro t t1 addr item r hit_func data key hx hy h1 h2 h
    obtain ⟨d, cx, cy, a1, a2, a3, a4, a5, a6, hs⟩ := add_search_in_extents t r hx hy h1 h2
    rw [add_of_search hs] at h
    simp only [AddResult.returned.injEq] at h
    obtain ⟨k1, k2, k3, k4, k5, k6⟩ := key_facts_of_range a1 a2 a3 a4 a5 a6
    refine ⟨d, cx, cy, h.1.symm, h.2.symm, ⟨a1, a2, k1⟩, ⟨a3, a4⟩, ⟨a5, a6⟩, k2, ?_, ?_, ?_, ?_⟩
    · rw [← h.2]; exact k3
    · rw [← h.2]; exact k4
    · rw [← h.2]; exact k5
    · rw [← h.2]; exact k6

/-- Witness of C29: the corners that the code computes in doubles for the
rectangle `((6.25125, 0), (8.75125, 0))` in the extents `(0, 0, 10, 10)` lie in
`[0, 2^28]`, the loop started at the first guess 26 accepts the cell
`(27, 1, 0)`, and its key decodes to that cell; the first insertion of the
test returns a key that is non-negative and differs from `-1`. -/
theorem key_packing_lossless_witness :
    add_loop guess_n1 guess_n2 3 0 26 (2 ^ (26 : Int).toNat) = LoopResult.accepted 27 1 0 ∧
    make_cell_coordinates 27 1 0 = 27 * 2 ^ 58 + 1 * 2 ^ 29 + 0 ∧
    ev_mapping_tree_add Test.tree0 8192 Test.addr_l1 Test.l1 (Test.is_on_line Test.rect_at)
        NULL =
      AddResult.returned (Test.tree1 8192) (((26 <<< 58 ||| 1 <<< 29 ||| 3 : Nat)) : Int) ∧
    (0 : Int) ≤ (((26 <<< 58 ||| 1 <<< 29 ||| 3 : Nat)) : Int) := by
  have hloop : add_loop guess_n1 guess_n2 3 0 26 (2 ^ (26 : Int).toNat) =
      LoopResult.accepted 27 1 0 := by
    have h26 := guess_fits_26
    have h27 := guess_fits_27
    obtain ⟨e1x, e2x, e1y, e2y⟩ := guess_cells_27
    norm_num at h26 h27 e1x e2x e1y e2y
    simp [add_loop, h26, h27, e1x, e2x, e1y, e2y]
  have hA := key_packing_lossless.1 guess_n1 guess_n2 26 27 1 0
    (by norm_num [guess_n1]) (by norm_num [guess_n1]) (by norm_num [guess_n1])
    (by norm_num [guess_n1]) (by norm_num [guess_n2]) (by norm_num [guess_n2])
    (by norm_num [guess_n2]) (by norm_num [guess_n2]) (by norm_num) (by norm_num) hloop
  obtain ⟨d, cx, cy, -, -, -, -, -, -, -, -, h0, -⟩ :=
    key_packing_lossless.2 Test.tree0 (Test.tree1 8192) 8192 Test.addr_l1 Test.l1
      (Test.is_on_line Test.rect_at) NULL _ Test.tree0_extents_x Test.tree0_extents_y
      Test.l1_first_in_extents Test.l1_second_in_extents (Test.add_l1 8192)
  exact ⟨hloop, hA.2.2.2.2.1, Test.add_l1 8192, h0⟩

/-! ## Rounding to the format `double` -/

theorem round_half_even_cases (x : ℚ) :
    round_half_even x = ⌊x⌋ ∨ round_half_even x = ⌊x⌋ + 1 := by
  unfold round_half_even
  split_ifs <;> simp

theorem round_half_even_eval {x : ℚ} {n : Int} (h1 : (n : ℚ) - 1 / 2 < x)
    (h2 : x < n + 1 / 2) : round_half_even x = n := by
  by_cases hx : (n : ℚ) ≤ x
  · have hf : ⌊x⌋ = n := Int.floor_eq_iff.2 ⟨hx, by linarith⟩
    unfold round_half_even
    rw [hf, if_pos (by linarith)]
  · have hf : ⌊x⌋ = n - 1 := Int.floor_eq_iff.2 ⟨by push_cast; linarith, by push_cast; linarith⟩
    unfold round_half_even
    rw [hf, if_neg (by push_cast; linarith), if_pos (by push_cast; linarith)]
    omega

theorem round_half_even_intCast (n : Int) : round_half_even (n : ℚ) = n :=
  round_half_even_eval (by linarith) (by linarith)

theorem round_half_even_mono {x y : ℚ} (h : x ≤ y) :
    round_half_even x ≤ round_half_even y := by
  have hf : ⌊x⌋ ≤ ⌊y⌋ := Int.floor_mono h
  rcases lt_or_eq_of_le hf with hlt | heq
  · have h1 : round_half_even x ≤ ⌊x⌋ + 1 := by
      rcases round_half_even_cases x with e | e <;> omega
    have h2 : ⌊y⌋ ≤ round_half_even y := by
      rcases round_half_even_cases y with e | e <;> omega
    omega
  · unfold round_half_even
    rw [← heq]
    split_ifs <;> first | omega | (exfalso; linarith)

theorem round_half_even_nonneg {x : ℚ} (h : 0 ≤ x) : 0 ≤ round_half_even x := by
  have := round_half_even_mono h
  rwa [show ((0 : ℚ)) = ((0 : Int) : ℚ) by norm_num, round_half_even_intCast] at this

theorem two_zpow_pos (e : Int) : (0 : ℚ) < 2 ^ e := zpow_pos (by norm_num) e

theorem round_double_zero : round_double 0 = 0 := by
  unfold round_double
  rw [zero_div, show ((0 : ℚ)) = ((0 : Int) : ℚ) by norm_num, round_half_even_intCast]
  simp

theorem round_double_nonneg {q : ℚ} (h : 0 ≤ q) : 0 ≤ round_double q := by
  unfold round_double
  have h1 : 0 ≤ round_half_even (q / 2 ^ ulp_exponent q) :=
    round_half_even_nonneg (div_nonneg h (two_zpow_pos _).le)
  have h2 : (0 : ℚ) ≤ (round_half_even (q / 2 ^ ulp_exponent q) : ℚ) := by exact_mod_cast h1
  exact mul_nonneg h2 (two_zpow_pos _).le

theorem int_log_eval {q : ℚ} {k : Int} (h1 : (2 : ℚ) ^ k ≤ q) (h2 : q < 2 ^ (k + 1)) :
    Int.log 2 q = k := by
  have hpos : 0 < q := lt_of_lt_of_le (two_zpow_pos k) h1
  have a : k ≤ Int.log 2 q :=
    (Int.zpow_le_iff_le_log (b := 2) (by norm_num) hpos).1 (by exact_mod_cast h1)
  have b : Int.log 2 q < k + 1 :=
    (Int.lt_zpow_iff_log_lt (b := 2) (by norm_num) hpos).1 (by exact_mod_cast h2)
  omega

theorem ulp_exponent_eval {q : ℚ} {k : Int} (hk : -1022 ≤ k) (h1 : (2 : ℚ) ^ k ≤ |q|)
    (h2 : |q| < 2 ^ (k + 1)) : ulp_exponent q = k - 52 := by
  unfold ulp_exponent
  rw [int_log_eval h1 h2, max_eq_left hk]

theorem round_double_eval {q : ℚ} {k m : Int} (hk : -1022 ≤ k) (h1 : (2 : ℚ) ^ k ≤ |q|)
    (h2 : |q| < 2 ^ (k + 1)) (hm1 : (m : ℚ) - 1 / 2 < q / 2 ^ (k - 52))
    (hm2 : q / 2 ^ (k - 52) < m + 1 / 2) : round_double q = m * 2 ^ (k - 52) := by
  unfold round_double
  rw [ulp_exponent_eval hk h1 h2, round_half_even_eval hm1 hm2]

theorem round_double_exact {q : ℚ} {k : Int} (m : Int) (hk : -1022 ≤ k)
    (h1 : (2 : ℚ) ^ k ≤ |q|) (h2 : |q| < 2 ^ (k + 1)) (hq : q = m * 2 ^ (k - 52)) :
    round_double q = q := by
  have hd : q / 2 ^ (k - 52) = m := by
    rw [hq, mul_div_assoc, div_self (two_zpow_pos _).ne', mul_one]
  rw [round_double_eval (m := m) hk h1 h2 (by rw [hd]; linarith) (by rw [hd]; linarith), ← hq]

theorem ulp_exponent_mono {p q : ℚ} (hp : 0 < p) (h : p ≤ q) :
    ulp_exponent p ≤ ulp_exponent q := by
  unfold ulp_exponent
  have hq : 0 < q := lt_of_lt_of_le hp h
  have := Int.log_mono_right (b := 2) (abs_pos.2 hp.ne') (by
    rw [abs_of_pos hp, abs_of_pos hq]; exact h : |p| ≤ |q|)
  have := max_le_max this (le_refl (-1022 : Int))
  omega

theorem round_half_even_le_of_le {x : ℚ} {n : Int} (h : x ≤ n) : round_half_even x ≤ n := by
  have := round_half_even_mono h
  rwa [round_half_even_intCast] at this

theorem round_half_even_ge_of_ge {x : ℚ} {n : Int} (h : (n : ℚ) ≤ x) :
    n ≤ round_half_even x := by
  have := round_half_even_mono h
  rwa [round_half_even_intCast] at this

theorem round_double_mono_pos {p q : ℚ} (hp : 0 < p) (h : p ≤ q) :
    round_double p ≤ round_double q := by
  have hq : 0 < q := lt_of_lt_of_le hp h
  rcases lt_or_eq_of_le (ulp_exponent_mono hp h) with hlt | heq
  · -- the exponents differ: the power of two at the foot of the binade of `q`
    -- lies between the two results
    have hL : Int.log 2 |p| < Int.log 2 |q| ∧ -1022 < Int.log 2 |q| := by
      unfold ulp_exponent at hlt
      have a := le_max_left (Int.log 2 |p|) (-1022)
      have b := le_max_right (Int.log 2 |p|) (-1022)
      rcases max_cases (Int.log 2 |q|) (-1022) with ⟨e, _⟩ | ⟨e, _⟩ <;>
        rw [e] at hlt <;> constructor <;> omega
    have eq : ulp_exponent q = Int.log 2 |q| - 52 := by
      unfold ulp_exponent
      rw [max_eq_left (by omega)]
    have ep : ulp_exponent p ≤ Int.log 2 |q| - 53 := by omega
    have hp2 : p < (2 : ℚ) ^ Int.log 2 |q| := by
      have a := Int.lt_zpow_succ_log_self (b := 2) (by norm_num) |p|
      rw [abs_of_pos hp] at a
      have b : ((2 : ℕ) : ℚ) ^ (Int.log 2 p + 1) ≤ ((2 : ℕ) : ℚ) ^ Int.log 2 |q| := by
        apply zpow_le_zpow_right₀ (by norm_num)
        rw [abs_of_pos hp] at hL
        omega
      have c := lt_of_lt_of_le a b
      exact_mod_cast c
    have hq2 : (2 : ℚ) ^ Int.log 2 |q| ≤ q := by
      have a := Int.zpow_log_le_self (b := 2) (by norm_num) (abs_pos.2 hq.ne')
      rw [abs_of_pos hq] at a ⊢
      exact_mod_cast a
    have hlow : round_double p ≤ (2 : ℚ) ^ Int.log 2 |q| := by
      unfold round_double
      obtain ⟨n, hn⟩ : ∃ n : ℕ, Int.log 2 |q| - ulp_exponent p = n :=
        ⟨(Int.log 2 |q| - ulp_exponent p).toNat, by omega⟩
      have hpow : (2 : ℚ) ^ Int.log 2 |q| = ((2 ^ n : Int) : ℚ) * 2 ^ ulp_exponent p := by
        push_cast
        rw [← zpow_natCast, ← zpow_add₀ (by norm_num), ← hn]
        congr 1
        ring
      have hle : p / 2 ^ ulp_exponent p ≤ ((2 ^ n : Int) : ℚ) := by
        rw [div_le_iff₀ (two_zpow_pos _), ← hpow]
        exact hp2.le
      have := round_half_even_le_of_le hle
      rw [hpow]
      exact mul_le_mul_of_nonneg_right (by exact_mod_cast this) (two_zpow_pos _).le
    have hhigh : (2 : ℚ) ^ Int.log 2 |q| ≤ round_double q := by
      unfold round_double
      have hpow : (2 : ℚ) ^ Int.log 2 |q| = ((2 ^ 52 : Int) : ℚ) * 2 ^ ulp_exponent q := by
        have e52 : ((2 ^ 52 : Int) : ℚ) = (2 : ℚ) ^ (52 : Int) := by norm_num
        rw [eq, e52, ← zpow_add₀ (by norm_num)]
        congr 1
        ring
      have hle : ((2 ^ 52 : Int) : ℚ) ≤ q / 2 ^ ulp_exponent q := by
        rw [le_div_iff₀ (two_zpow_pos _), ← hpow]
        exact hq2
      have := round_half_even_ge_of_ge hle
      rw [hpow]
      exact mul_le_mul_of_nonneg_right (by exact_mod_cast this) (two_zpow_pos _).le
    exact le_trans hlow hhigh
  · unfold round_double
    rw [heq]
    have hle : p / 2 ^ ulp_exponent q ≤ q / 2 ^ ulp_exponent q :=
      div_le_div_of_nonneg_right h (two_zpow_pos _).le
    have := round_half_even_mono hle
    exact mul_le_mul_of_nonneg_right (by exact_mod_cast this) (two_zpow_pos _).le

theorem round_double_mono {p q : ℚ} (hp : 0 ≤ p) (h : p ≤ q) :
    round_double p ≤ round_double q := by
  rcases lt_or_eq_of_le hp with hpos | h0
  · exact round_double_mono_pos hpos h
  · rw [← h0, round_double_zero]
    exact round_double_nonneg (le_trans hp h)

theorem round_double_one : round_double 1 = 1 :=
  round_double_exact (k := 0) (2 ^ 52) (by norm_num) (by norm_num) (by norm_num) (by norm_num)

theorem round_double_two_pow_28 : round_double (2 ^ 28) = 2 ^ 28 :=
  round_double_exact (k := 28) (2 ^ 52) (by norm_num) (by norm_num) (by norm_num)
    (by norm_num)

theorem round_double_two : round_double 2 = 2 :=
  round_double_exact (k := 1) (2 ^ 52) (by norm_num) (by norm_num) (by norm_num) (by norm_num)

theorem round_double_three : round_double 3 = 3 :=
  round_double_exact (k := 1) (3 * 2 ^ 51) (by norm_num) (by norm_num) (by norm_num)
    (by norm_num)

theorem round_double_four : round_double 4 = 4 :=
  round_double_exact (k := 2) (2 ^ 52) (by norm_num) (by norm_num) (by norm_num) (by norm_num)

theorem round_double_third : round_double (1 / 3) = 6004799503160661 / 2 ^ 54 := by
  rw [round_double_eval (k := -2) (m := 6004799503160661) (by norm_num)
    (by norm_num [abs_of_pos]) (by norm_num [abs_of_pos]) (by norm_num) (by norm_num)]
  norm_num

theorem round_double_third_scaled :
    round_double (6004799503160661 / 2 ^ 54 / SMALLEST_QT_UNIT) = 6004799503160661 / 2 ^ 26 := by
  have e : (6004799503160661 / 2 ^ 54 / SMALLEST_QT_UNIT : ℚ) = 6004799503160661 / 2 ^ 26 := by
    norm_num [SMALLEST_QT_UNIT]
  rw [e]
  exact round_double_exact (k := 26) 6004799503160661 (by norm_num)
    (by norm_num [abs_of_pos]) (by norm_num [abs_of_pos]) (by norm_num)

theorem normalize_double_x (t : Tree) (x y : ℚ) :
    (ev_mapping_tree_normalize_coordinates_double t x y).x =
      round_double (round_double (round_double (x - t.extents.x1) /
        round_double (t.extents.x2 - t.extents.x1)) / SMALLEST_QT_UNIT) := rfl

theorem normalize_double_y (t : Tree) (x y : ℚ) :
    (ev_mapping_tree_normalize_coordinates_double t x y).y =
      round_double (round_double (round_double (y - t.extents.y1) /
        round_double (t.extents.y2 - t.extents.y1)) / SMALLEST_QT_UNIT) := rfl

theorem three_tree_normalize_double :
    (ev_mapping_tree_normalize_coordinates_double three_tree 1 1).x =
      6004799503160661 / 2 ^ 26 := by
  have hx1 : three_tree.extents.x1 = 0 := rfl
  have hx2 : three_tree.extents.x2 = 3 := rfl
  rw [normalize_double_x, hx1, hx2, sub_zero, sub_zero, round_double_one, round_double_three,
    round_double_third, round_double_third_scaled]

theorem round_double_half_scaled : round_double (1 / 2 / SMALLEST_QT_UNIT) = 2 ^ 27 := by
  have e : (1 / 2 / SMALLEST_QT_UNIT : ℚ) = 2 ^ 27 := by norm_num [SMALLEST_QT_UNIT]
  rw [e]
  exact round_double_exact (k := 27) (2 ^ 52) (by norm_num) (by norm_num) (by norm_num)
    (by norm_num)

theorem huge_tree_normalize_double_zero :
    (ev_mapping_tree_normalize_coordinates_double huge_tree 0 0).x = 2 ^ 27 := by
  have hx1 : huge_tree.extents.x1 = -10 ^ 16 := rfl
  have hx2 : huge_tree.extents.x2 = 10 ^ 16 := rfl
  have a1 : round_double (0 - -10 ^ 16) = 10 ^ 16 := by
    have e : ((0 : ℚ) - -10 ^ 16) = 10 ^ 16 := by norm_num
    rw [e]
    exact round_double_exact (k := 53) (5 * 10 ^ 15) (by norm_num) (by norm_num)
      (by norm_num) (by norm_num)
  have a3 : round_double (10 ^ 16 - -10 ^ 16) = 2 * 10 ^ 16 := by
    have e : ((10 : ℚ) ^ 16 - -10 ^ 16) = 2 * 10 ^ 16 := by norm_num
    rw [e]
    exact round_double_exact (k := 54) (5 * 10 ^ 15) (by norm_num) (by norm_num)
      (by norm_num) (by norm_num)
  have a4 : round_double (10 ^ 16 / (2 * 10 ^ 16)) = 1 / 2 := by
    have e : ((10 : ℚ) ^ 16 / (2 * 10 ^ 16)) = 1 / 2 := by norm_num
    rw [e]
    exact round_double_exact (k := -1) (2 ^ 52) (by norm_num) (by norm_num [abs_of_pos])
      (by norm_num [abs_of_pos]) (by norm_num)
  rw [normalize_double_x, hx1, hx2, a1, a3, a4, round_double_half_scaled]

theorem huge_tree_normalize_double_half :
    (ev_mapping_tree_normalize_coordinates_double huge_tree (1 / 2) 0).x = 2 ^ 27 := by
  have hx1 : huge_tree.extents.x1 = -10 ^ 16 := rfl
  have hx2 : huge_tree.extents.x2 = 10 ^ 16 := rfl
  have a1 : round_double (1 / 2 - -10 ^ 16) = 10 ^ 16 := by
    rw [round_double_eval (k := 53) (m := 5 * 10 ^ 15) (by norm_num)
      (by norm_num [abs_of_pos]) (by norm_num [abs_of_pos]) (by norm_num) (by norm_num)]
    norm_num
  have a3 : round_double (10 ^ 16 - -10 ^ 16) = 2 * 10 ^ 16 := by
    have e : ((10 : ℚ) ^ 16 - -10 ^ 16) = 2 * 10 ^ 16 := by norm_num
    rw [e]
    exact round_double_exact (k := 54) (5 * 10 ^ 15) (by norm_num) (by norm_num)
      (by norm_num) (by norm_num)
  have a4 : round_double (10 ^ 16 / (2 * 10 ^ 16)) = 1 / 2 := by
    have e : ((10 : ℚ) ^ 16 / (2 * 10 ^ 16)) = 1 / 2 := by norm_num
    rw [e]
    exact round_double_exact (k := -1) (2 ^ 52) (by norm_num) (by norm_num [abs_of_pos])
      (by norm_num [abs_of_pos]) (by norm_num)
  rw [normalize_double_x, hx1, hx2, a1, a3, a4, round_double_half_scaled]

theorem smallest_qt_unit_pos : 0 < SMALLEST_QT_UNIT := by
  unfold SMALLEST_QT_UNIT; positivity

theorem normalize_axis_mono {lo d v w : ℚ} (hd : 0 < d) (hv : lo ≤ v) (h : v ≤ w) :
    round_double (round_double (round_double (v - lo) / d) / SMALLEST_QT_UNIT) ≤
      round_double (round_double (round_double (w - lo) / d) / SMALLEST_QT_UNIT) := by
  have h1 : round_double (v - lo) ≤ round_double (w - lo) :=
    round_double_mono (by linarith) (by linarith)
  have h1n : 0 ≤ round_double (v - lo) := round_double_nonneg (by linarith)
  have h2 : round_double (round_double (v - lo) / d) ≤ round_double (round_double (w - lo) / d) :=
    round_double_mono (div_nonneg h1n hd.le) (div_le_div_of_nonneg_right h1 hd.le)
  have h2n : 0 ≤ round_double (round_double (v - lo) / d) :=
    round_double_nonneg (div_nonneg h1n hd.le)
  exact round_double_mono (div_nonneg h2n smallest_qt_unit_pos.le)
    (div_le_div_of_nonneg_right h2 smallest_qt_unit_pos.le)

theorem normalize_axis_lower (lo d : ℚ) :
    round_double (round_double (round_double (lo - lo) / d) / SMALLEST_QT_UNIT) = 0 := by
  rw [sub_self, round_double_zero, zero_div, round_double_zero, zero_div, round_double_zero]

theorem normalize_axis_upper {lo hi : ℚ} (hd : 0 < round_double (hi - lo)) :
    round_double (round_double (round_double (hi - lo) / round_double (hi - lo)) /
      SMALLEST_QT_UNIT) = 2 ^ 28 := by
  rw [div_self hd.ne', round_double_one]
  have e : (1 / SMALLEST_QT_UNIT : ℚ) = 2 ^ 28 := by norm_num [SMALLEST_QT_UNIT]
  rw [e, round_double_two_pow_28]

/-- C22 (coordinate normalization) on the code: the code computes in `double`.
In the index with the extents `(0, 0, 3, 3)` the point `(1, 1)` lies inside the
extents, the value of the formula of the claim for its `x` is `2^28 / 3`, and
the code computes `6004799503160661 / 2^26`, the quotient `1.0 / 3.0` being
rounded before it is scaled.  In the index with the extents
`(-1e16, -1e16, 1e16, 1e16)` the points `(0, 0)` and `(0.5, 0)` lie inside the
extents and get the same normalized `x`, `2^27`: the subtraction
`0.5 - (-1e16)` rounds to `1e16`. -/
theorem normalize_double_not_exact :
    three_tree.extents.x1 < three_tree.extents.x2 ∧
    three_tree.extents.y1 < three_tree.extents.y2 ∧
    ev_mapping_tree_in_extents three_tree 1 1 = true ∧
    (ev_mapping_tree_normalize_coordinates_double three_tree 1 1).x =
      6004799503160661 / 2 ^ 26 ∧
    (1 - three_tree.extents.x1) / (three_tree.extents.x2 - three_tree.extents.x1) * 2 ^ 28 =
      2 ^ 28 / 3 ∧
    (ev_mapping_tree_normalize_coordinates_double three_tree 1 1).x ≠
      (1 - three_tree.extents.x1) / (three_tree.extents.x2 - three_tree.extents.x1) * 2 ^ 28 ∧
    huge_tree.extents.x1 < huge_tree.extents.x2 ∧
    huge_tree.extents.y1 < huge_tree.extents.y2 ∧
    ev_mapping_tree_in_extents huge_tree 0 0 = true ∧
    ev_mapping_tree_in_extents huge_tree (1 / 2) 0 = true ∧
    (ev_mapping_tree_normalize_coordinates_double huge_tree 0 0).x = 2 ^ 27 ∧
    (ev_mapping_tree_normalize_coordinates_double huge_tree (1 / 2) 0).x = 2 ^ 27 ∧
    (1 / 2 - huge_tree.extents.x1) / (huge_tree.extents.x2 - huge_tree.extents.x1) * 2 ^ 28 ≠
      2 ^ 27 := by
  have e : (1 - three_tree.extents.x1) / (three_tree.extents.x2 - three_tree.extents.x1) *
      2 ^ 28 = 2 ^ 28 / 3 := by
    norm_num [three_tree, ev_mapping_tree_new]
  refine ⟨?_, ?_, ?_, three_tree_normalize_double, e, ?_, ?_, ?_, ?_, ?_,
    huge_tree_normalize_double_zero, huge_tree_normalize_double_half, ?_⟩
  · norm_num [three_tree, ev_mapping_tree_new]
  · norm_num [three_tree, ev_mapping_tree_new]
  · norm_num [ev_mapping_tree_in_extents, three_tree, ev_mapping_tree_new]
  · rw [three_tree_normalize_double, e]
    norm_num
  · norm_num [huge_tree, ev_mapping_tree_new]
  · norm_num [huge_tree, ev_mapping_tree_new]
  · norm_num [ev_mapping_tree_in_extents, huge_tree, ev_mapping_tree_new]
  · norm_num [ev_mapping_tree_in_extents, huge_tree, ev_mapping_tree_new]
  · norm_num [huge_tree, ev_mapping_tree_new]

/-- C22 as it holds of the code: in the arithmetic of `double`, for extents
whose differences `x2 - x1` and `y2 - y1` round to positive finite numbers,
the lower extent is normalized to `0` and the upper extent to `2^28`; on each
axis the normalized coordinate is monotone (not strictly) in the coordinate of
the point, from the lower extent on; for a point inside the inclusive extents
both normalized coordinates lie in `[0, 2^28]`, hence in `[0, 2^29)`; and the
normalized coordinate is `(v - lo) / (hi - lo) * 2^28` whenever none of the
four operations rounds. -/
theorem normalize_double_range (t : Tree)
    (hx : 0 < round_double (t.extents.x2 - t.extents.x1))
    (hy : 0 < round_double (t.extents.y2 - t.extents.y1))
    (_fx : round_double (t.extents.x2 - t.extents.x1) < 2 ^ 1024)
    (_fy : round_double (t.extents.y2 - t.extents.y1) < 2 ^ 1024) :
    (∀ x y : ℚ,
      (ev_mapping_tree_normalize_coordinates_double t t.extents.x1 y).x = 0 ∧
      (ev_mapping_tree_normalize_coordinates_double t x t.extents.y1).y = 0 ∧
      (ev_mapping_tree_normalize_coordinates_double t t.extents.x2 y).x = 2 ^ 28 ∧
      (ev_mapping_tree_normalize_coordinates_double t x t.extents.y2).y = 2 ^ 28) ∧
    (∀ v w y1 y2 : ℚ, t.extents.x1 ≤ v → v ≤ w →
      (ev_mapping_tree_normalize_coordinates_double t v y1).x ≤
        (ev_mapping_tree_normalize_coordinates_double t w y2).x) ∧
    (∀ v w x1 x2 : ℚ, t.extents.y1 ≤ v → v ≤ w →
      (ev_mapping_tree_normalize_coordinates_double t x1 v).y ≤
        (ev_mapping_tree_normalize_coordinates_double t x2 w).y) ∧
    (∀ x y : ℚ, ev_mapping_tree_in_extents t x y = true →
      (0 ≤ (ev_mapping_tree_normalize_coordinates_double t x y).x ∧
        (ev_mapping_tree_normalize_coordinates_double t x y).x ≤ 2 ^ 28 ∧
        (ev_mapping_tree_normalize_coordinates_double t x y).x < 2 ^ 29) ∧
      (0 ≤ (ev_mapping_tree_normalize_coordinates_double t x y).y ∧
        (ev_mapping_tree_normalize_coordinates_double t x y).y ≤ 2 ^ 28 ∧
        (ev_mapping_tree_normalize_coordinates_double t x y).y < 2 ^ 29)) ∧
    (∀ x y : ℚ,
      round_double (t.extents.x2 - t.extents.x1) = t.extents.x2 - t.extents.x1 →
      round_double (x - t.extents.x1) = x - t.extents.x1 →
      round_double ((x - t.extents.x1) / (t.extents.x2 - t.extents.x1)) =
        (x - t.extents.x1) / (t.extents.x2 - t.extents.x1) →
      round_double ((x - t.extents.x1) / (t.extents.x2 - t.extents.x1) / SMALLEST_QT_UNIT) =
        (x - t.extents.x1) / (t.extents.x2 - t.extents.x1) / SMALLEST_QT_UNIT →
      (ev_mapping_tree_normalize_coordinates_double t x y).x =
          (ev_mapping_tree_normalize_coordinates t x y).x ∧
        (ev_mapping_tree_normalize_coordinates_double t x y).x =
          (x - t.extents.x1) / (t.extents.x2 - t.extents.x1) * 2 ^ 28) := by
  have hlx : ∀ y, (ev_mapping_tree_normalize_coordinates_double t t.extents.x1 y).x = 0 :=
    fun y => normalize_axis_lower _ _
  have hly : ∀ x, (ev_mapping_tree_normalize_coordinates_double t x t.extents.y1).y = 0 :=
    fun x => normalize_axis_lower _ _
  have hux : ∀ y, (ev_mapping_tree_normalize_coordinates_double t t.extents.x2 y).x = 2 ^ 28 :=
    fun y => normalize_axis_upper hx
  have huy : ∀ x, (ev_mapping_tree_normalize_coordinates_double t x t.extents.y2).y = 2 ^ 28 :=
    fun x => normalize_axis_upper hy
  have hmx : ∀ v w y1 y2 : ℚ, t.extents.x1 ≤ v → v ≤ w →
      (ev_mapping_tree_normalize_coordinates_double t v y1).x ≤
        (ev_mapping_tree_normalize_coordinates_double t w y2).x :=
    fun v w _ _ h1 h2 => normalize_axis_mono hx h1 h2
  have hmy : ∀ v w x1 x2 : ℚ, t.extents.y1 ≤ v → v ≤ w →
      (ev_mapping_tree_normalize_coordinates_double t x1 v).y ≤
        (ev_mapping_tree_normalize_coordinates_double t x2 w).y :=
    fun v w _ _ h1 h2 => normalize_axis_mono hy h1 h2
  refine ⟨fun x y => ⟨hlx y, hly x, hux y, huy x⟩, hmx, hmy, ?_, ?_⟩
  · intro x y hin
    rw [in_extents_iff] at hin
    obtain ⟨i1, i2, i3, i4⟩ := hin
    have ax := hmx _ x y y (le_refl _) i1
    have bx := hmx x _ y y i1 i2
    have ay := hmy _ y x x (le_refl _) i3
    have by1 := hmy y _ x x i3 i4
    rw [hlx] at ax
    rw [hux] at bx
    rw [hly] at ay
    rw [huy] at by1
    exact ⟨⟨ax, bx, lt_of_le_of_lt bx (by norm_num)⟩,
      ⟨ay, by1, lt_of_le_of_lt by1 (by norm_num)⟩⟩
  · intro x y e1 e2 e3 e4
    have h : (ev_mapping_tree_normalize_coordinates_double t x y).x =
        (ev_mapping_tree_normalize_coordinates t x y).x := by
      rw [normalize_double_x, e1, e2, e3, e4]
      rfl
    refine ⟨h, ?_⟩
    rw [h]
    unfold ev_mapping_tree_normalize_coordinates SMALLEST_QT_UNIT
    simp only [one_div, div_inv_eq_mul]

/-- Witness of the amended C22: the extents `(-1, -2, 1, 2)` of the test, whose
differences `2` and `4` are numbers of the format, and the point `(-0.5, 1)`
inside them. -/
theorem normalize_double_range_witness :
    0 < round_double (Test.tree0.extents.x2 - Test.tree0.extents.x1) ∧
    0 < round_double (Test.tree0.extents.y2 - Test.tree0.extents.y1) ∧
    round_double (Test.tree0.extents.x2 - Test.tree0.extents.x1) < 2 ^ 1024 ∧
    round_double (Test.tree0.extents.y2 - Test.tree0.extents.y1) < 2 ^ 1024 ∧
    ev_mapping_tree_in_extents Test.tree0 (-1 / 2) 1 = true ∧
    0 ≤ (ev_mapping_tree_normalize_coordinates_double Test.tree0 (-1 / 2) 1).x ∧
    (ev_mapping_tree_normalize_coordinates_double Test.tree0 (-1 / 2) 1).x ≤ 2 ^ 28 ∧
    (ev_mapping_tree_normalize_coordinates_double Test.tree0 (-1) 0).x = 0 := by
  have ex : Test.tree0.extents.x2 - Test.tree0.extents.x1 = 2 := by
    norm_num [Test.tree0, ev_mapping_tree_new, Test.rect]
  have ey : Test.tree0.extents.y2 - Test.tree0.extents.y1 = 4 := by
    norm_num [Test.tree0, ev_mapping_tree_new, Test.rect]
  have hx : 0 < round_double (Test.tree0.extents.x2 - Test.tree0.extents.x1) := by
    rw [ex, round_double_two]; norm_num
  have hy : 0 < round_double (Test.tree0.extents.y2 - Test.tree0.extents.y1) := by
    rw [ey, round_double_four]; norm_num
  have fx : round_double (Test.tree0.extents.x2 - Test.tree0.extents.x1) < 2 ^ 1024 := by
    rw [ex, round_double_two]; norm_num
  have fy : round_double (Test.tree0.extents.y2 - Test.tree0.extents.y1) < 2 ^ 1024 := by
    rw [ey, round_double_four]; norm_num
  have hin : ev_mapping_tree_in_extents Test.tree0 (-1 / 2) 1 = true := by
    norm_num [ev_mapping_tree_in_extents, Test.tree0, ev_mapping_tree_new, Test.rect]
  have h := normalize_double_range Test.tree0 hx hy fx fy
  exact ⟨hx, hy, fx, fy, hin, (h.2.2.2.1 _ _ hin).1.1, (h.2.2.2.1 _ _ hin).1.2.1,
    (h.1 0 0).1⟩

end EvMappingTree
